import Mathlib

/-!
# goer: exchange-rate export, verification development

A shallow embedding of `goer.go`: the rate record model (`ExchangeRates`,
`NewExchangeRate`), serialisation (`JSON`, `Fetch`), the destination path and
the scheduling loop of `main`.

Conventions of the embedding

* Go `string` and `[]byte` values are `GoString`, the list of their code points; where a
  string may hold bytes that are no valid UTF-8 (the round trip of a record through
  `JSON()`), it is a `RawString`, the list of its bytes, and `utf8` gives the bytes of a
  `GoString`.
* `float64` is `Float64`, the IEEE-754 binary64 values written as
  sign, integer significand and binary exponent; `Float64.div` is the
  correctly rounded (nearest, ties to even) quotient.
* `time.Time` is an instant in UTC counted in nanoseconds from the Unix epoch;
  `time.Duration` is a signed 64-bit count of nanoseconds and its arithmetic
  wraps.
* `log.Fatalln` ends the process: a function that may reach it returns
  `Except Fatal _`.
-/

namespace Goer

/-- Go `string` / `[]byte`, by its code points. -/
abbrev GoString := List Char

/-! ## float64 -/

/-- The values of an IEEE-754 binary64. `fin neg m e` is `(-1)^neg * m * 2^e`. -/
inductive Float64 where
  | nan : Float64
  | inf (neg : Bool) : Float64
  | fin (neg : Bool) (m : Nat) (e : Int) : Float64
deriving DecidableEq, Repr

namespace Float64

/-- Least binary exponent of the integer significand (subnormals and the first binade). -/
def minExp : Int := -1074

/-- Greatest binary exponent of the integer significand. -/
def maxExp : Int := 971

/-- Canonical representation: 53-bit significand, exponent in range, normalised
unless subnormal; NaN and the infinities are canonical as they are. -/
def Canonical : Float64 → Prop
  | nan => True
  | inf _ => True
  | fin _ m e => m < 2 ^ 53 ∧ minExp ≤ e ∧ e ≤ maxExp ∧ (minExp < e → 2 ^ 52 ≤ m)

instance : DecidablePred Canonical := fun x =>
  match x with
  | nan => isTrue trivial
  | inf _ => isTrue trivial
  | fin _ m e =>
    inferInstanceAs (Decidable (m < 2 ^ 53 ∧ minExp ≤ e ∧ e ≤ maxExp ∧ (minExp < e → 2 ^ 52 ≤ m)))

/-- Signed zero. -/
def zero (neg : Bool) : Float64 := fin neg 0 minExp

/-- The constant `1`. -/
def one : Float64 := fin false (2 ^ 52) (-52)

/-- Neither an infinity nor NaN (`math.IsInf(f, 0) || math.IsNaN(f)` is false). -/
def isFinite : Float64 → Bool
  | fin _ _ _ => true
  | _ => false

/-- Is the value `+0` or `-0`. -/
def isZero : Float64 → Bool
  | fin _ 0 _ => true
  | _ => false

/-- Nearest integer to `n / d`, ties to even (`d > 0`). -/
def roundHalfEven (n d : Nat) : Nat :=
  let q := n / d
  let r := n % d
  if 2 * r < d then q
  else if d < 2 * r then q + 1
  else if q % 2 = 0 then q else q + 1

/-- The pair `(n * 2^s, d)` for `s ≥ 0`, `(n, d * 2^(-s))` otherwise: the fraction
`n / d * 2^s` without leaving the naturals. -/
def scale (n d : Nat) (s : Int) : Nat × Nat :=
  match s with
  | Int.ofNat k => (n * 2 ^ k, d)
  | Int.negSucc k => (n, d * 2 ^ (k + 1))

/-- Auxiliary for `log2`: halve until below two, at most `fuel` times. -/
def log2Aux : Nat → Nat → Nat
  | 0, _ => 0
  | fuel + 1, n => if n < 2 then 0 else log2Aux fuel (n / 2) + 1

/-- `⌊log2 n⌋` for `n > 0` (and `0` for `n = 0`). -/
def log2 (n : Nat) : Nat := log2Aux n n

/-- `⌊log2 (n / d)⌋` for `n, d > 0`. -/
def ilog2 (n d : Nat) : Int :=
  let a := log2 n
  let b := log2 d
  if d * 2 ^ a ≤ n * 2 ^ b then (a : Int) - b else (a : Int) - b - 1

/-- The binary64 nearest to `(-1)^neg * (n / d) * 2^e` (ties to even, overflow
to infinity, gradual underflow), for `n, d > 0`. -/
def ofRatio (neg : Bool) (n d : Nat) (e : Int) : Float64 :=
  let lv := ilog2 n d + e
  let E := max (lv - 52) minExp
  let p := scale n d (e - E)
  let M := roundHalfEven p.1 p.2
  let ME : Nat × Int := if 2 ^ 53 ≤ M then (M / 2, E + 1) else (M, E)
  if maxExp < ME.2 then inf neg else fin neg ME.1 ME.2

/-- IEEE-754 division `x / y` in binary64. -/
def div : Float64 → Float64 → Float64
  | nan, _ => nan
  | _, nan => nan
  | inf _, inf _ => nan
  | inf s, fin t _ _ => inf (s != t)
  | fin s _ _, inf t => zero (s != t)
  | fin s m e, fin t m' e' =>
    if m' = 0 then (if m = 0 then nan else inf (s != t))
    else if m = 0 then zero (s != t)
    else ofRatio (s != t) m m' (e - e')

end Float64

/-! ## time.Time -/

/-- An instant: nanoseconds since 1970-01-01T00:00:00Z; the location is always UTC
(`time.Parse` without a zone yields UTC). -/
structure Time where
  ns : Int
deriving DecidableEq, Repr

/-- A `time.Duration`: int64 nanoseconds. -/
abbrev Duration := Int

/-- Two's-complement reduction of an integer to int64. -/
def wrapInt64 (x : Int) : Int := (x + 2 ^ 63) % 2 ^ 64 - 2 ^ 63

/-- `time.Hour`. -/
def Hour : Duration := 3600000000000

/-- Nanoseconds in a civil day. -/
def nsPerDay : Int := 86400000000000

/-- `t.Add(d)`. -/
def Time.Add (t : Time) (d : Duration) : Time := ⟨t.ns + d⟩

/-- A civil (proleptic Gregorian) date. -/
structure Civil where
  year : Int
  month : Nat
  day : Nat
deriving DecidableEq, Repr

/-- Civil date of the day `z` days after 1970-01-01 (the computation of `Time.Date`):
the day is located in its 400-year cycle counted from a 1 March, then in its century
(the last one is a day longer), its 4-year cycle and its year (the last one is a day
longer), and the day of that March-based year gives month and day. -/
def civilFromDays (z : Int) : Civil :=
  let z1 := z + 719468
  let era := z1 / 146097
  let doe := z1 % 146097
  let c := min (doe / 36524) 3
  let d1 := doe - 36524 * c
  let q := d1 / 1461
  let d2 := d1 - 1461 * q
  let a := min (d2 / 365) 3
  let doy := d2 - 365 * a
  let yoe := 100 * c + 4 * q + a
  let mp := (5 * doy + 2) / 153
  let d := doy - (153 * mp + 2) / 5 + 1
  let m := if mp < 10 then mp + 3 else mp - 9
  let y := yoe + era * 400
  ⟨if m ≤ 2 then y + 1 else y, m.toNat, d.toNat⟩

/-- Days from 1970-01-01 to the civil date. -/
def daysFromCivil (c : Civil) : Int :=
  let y : Int := if c.month ≤ 2 then c.year - 1 else c.year
  let era := y / 400
  let yoe := y % 400
  let mp : Int := if c.month > 2 then (c.month : Int) - 3 else (c.month : Int) + 9
  let doy := (153 * mp + 2) / 5 + (c.day : Int) - 1
  let doe := yoe * 365 + yoe / 4 - yoe / 100 + doy
  era * 146097 + doe - 719468

/-- The day number (days since 1970-01-01) an instant falls in, UTC. -/
def Time.dayNumber (t : Time) : Int := t.ns / nsPerDay

/-- `t.Date()`. -/
def Time.Date (t : Time) : Civil := civilFromDays t.dayNumber

/-- Midnight UTC at the start of a civil date (what `time.Parse("2006-01-02", s)` yields). -/
def Time.ofCivil (c : Civil) : Time := ⟨daysFromCivil c * nsPerDay⟩

/-- The zero `time.Time`: January 1, year 1, 00:00:00 UTC. -/
def Time.zero : Time := Time.ofCivil ⟨1, 1, 1⟩

/-- Decimal digit character. -/
def digitChar (n : Nat) : Char := Char.ofNat (48 + n % 10)

/-- Auxiliary for `natDigits`: at most `fuel` digits. -/
def natDigitsAux : Nat → Nat → GoString
  | 0, _ => []
  | fuel + 1, u => if u < 10 then [digitChar u] else natDigitsAux fuel (u / 10) ++ [digitChar u]

/-- Decimal digits of `u`, most significant first, without leading zeros (`0` is `"0"`). -/
def natDigits (u : Nat) : GoString := natDigitsAux (u + 1) u

/-- The function `appendInt` of package time: decimal form of `x`, zero-padded to `width` digits
after the sign. -/
def appendInt (x : Int) (width : Nat) : GoString :=
  let u := x.natAbs
  let ds := natDigits u
  let body := List.replicate (width - ds.length) '0' ++ ds
  if x < 0 then '-' :: body else body

/-- `t.Format(layout)` for layouts made of the reference elements `2006`, `01`, `02` and
literal characters that start no other element (the program's layouts are `2006-01-02`
and `2006/01/02`). -/
def Time.Format (t : Time) : GoString → GoString
  | '2' :: '0' :: '0' :: '6' :: rest => appendInt t.Date.year 4 ++ Time.Format t rest
  | '0' :: '1' :: rest => appendInt t.Date.month 2 ++ Time.Format t rest
  | '0' :: '2' :: rest => appendInt t.Date.day 2 ++ Time.Format t rest
  | c :: rest => c :: Time.Format t rest
  | [] => []

/-! ## The rate record model -/

/-- The struct `OpenExchangeRateResponse`. `Rates` is the Go map, kept as the list of its
entries (one per key); a `nil` map is the empty list. -/
structure OpenExchangeRateResponse where
  Base : GoString
  Timestamp : Int
  Rates : List (GoString × Float64)
deriving DecidableEq, Repr

/-- The order in which a `for ... range` statement visits the entries of a map: chosen by the
runtime, always an enumeration of the entries. -/
structure RangeOrder where
  visit : List (GoString × Float64) → List (GoString × Float64)
  perm : ∀ l, List.Perm (visit l) l

/-- The range order that visits the entries as listed. -/
def RangeOrder.id : RangeOrder := ⟨fun l => l, fun l => List.Perm.refl l⟩

/-- The range order that visits the entries in reverse. -/
def RangeOrder.reverse : RangeOrder := ⟨List.reverse, List.reverse_perm⟩

/-- The struct `ExchangeRate`. -/
structure ExchangeRate where
  date : Time
  StringDate : GoString
  Base : GoString
  Currency : GoString
  UnitsPerCurrency : Float64
  CurrenciesPerUnit : Float64
deriving DecidableEq, Repr

/-- `NewExchangeRate(d, b, c, upc, cpu)`. -/
def NewExchangeRate (d : Time) (b c : GoString) (upc cpu : Float64) : ExchangeRate :=
  { date := d
    StringDate := d.Format "2006-01-02".toList
    Base := b
    Currency := c
    UnitsPerCurrency := upc
    CurrenciesPerUnit := cpu }

/-- State of the loop of `ExchangeRates`: the slice `rs` (a `nil` slot is `none`) and the
index `i`. -/
structure ERLoop where
  rs : List (Option ExchangeRate)
  i : Nat

/-- One iteration of `for c, rate := range r.Rates`. -/
def ExchangeRates.body (d : Time) (base : GoString) (st : ERLoop) (entry : GoString × Float64) :
    ERLoop :=
  let b := base
  let cpu := entry.2
  let upc := Float64.div Float64.one cpu
  { rs := st.rs.set st.i (some (NewExchangeRate d b entry.1 upc cpu)), i := st.i + 1 }

/-- `r.ExchangeRates(d)`: the slice is allocated with `len(r.Rates)` nil slots and filled
while ranging over the map in the order `ord`. -/
def OpenExchangeRateResponse.ExchangeRates (ord : RangeOrder) (r : OpenExchangeRateResponse)
    (d : Time) : List (Option ExchangeRate) :=
  ((ord.visit r.Rates).foldl (ExchangeRates.body d r.Base)
    ⟨List.replicate r.Rates.length none, 0⟩).rs

/-! ## strconv: decimal text of a float64 and back -/

namespace Float64

/-- The pair `(n * 10^s, d)` for `s ≥ 0`, `(n, d * 10^(-s))` otherwise. -/
def scale10 (n d : Nat) (s : Int) : Nat × Nat :=
  match s with
  | Int.ofNat k => (n * 10 ^ k, d)
  | Int.negSucc k => (n, d * 10 ^ (k + 1))

/-- The binary64 nearest to `(-1)^neg * mant * 10^q`: what `strconv.ParseFloat` computes for
a decimal literal with these digits and exponent (`±Inf` stands for its range error). -/
def ofDecimal (neg : Bool) (mant : Nat) (q : Int) : Float64 :=
  if mant = 0 then zero neg
  else
    let p := scale10 mant 1 q
    ofRatio neg p.1 p.2 0

/-- Number of decimal digits of `n` minus one (`0` for `n < 10`), at most `fuel`. -/
def log10Aux : Nat → Nat → Nat
  | 0, _ => 0
  | fuel + 1, n => if n < 10 then 0 else log10Aux fuel (n / 10) + 1

/-- Least `j ≥ 1` with `d ≤ n * 10^j`, searched from `j` for at most `fuel` steps. -/
def negLog10Aux (n d : Nat) : Nat → Nat → Nat
  | 0, j => j
  | fuel + 1, j => if d ≤ n * 10 ^ j then j else negLog10Aux n d fuel (j + 1)

/-- `⌊log10 (n / d)⌋` for `n, d > 0`. -/
def ilog10 (n d : Nat) : Int :=
  if d ≤ n then (log10Aux (n / d) (n / d) : Int) else - (negLog10Aux n d d 1 : Int)

/-- Strip trailing decimal zeros of `D`, raising the exponent (at most `fuel` of them). -/
def stripZeros : Nat → Nat → Int → Nat × Int
  | 0, D, q => (D, q)
  | fuel + 1, D, q => if D ≠ 0 ∧ D % 10 = 0 then stripZeros fuel (D / 10) (q + 1) else (D, q)

/-- Search for the shortest decimal `D * 10^q` that reads back as `x`, where `|x| = n / d`
and `10^k ≤ n / d < 10^(k+1)`: with `digits` significant digits the candidates are the
truncation of `n / d` and its successor (written without trailing zeros: the successor of
`9...9` is `1` with a larger exponent); of two that read back the nearer is taken (a tie
goes to the even digit). -/
def shortestAux (x : Float64) (neg : Bool) (n d : Nat) (k : Int) : Nat → Nat → Option (Nat × Int)
  | 0, _ => none
  | fuel + 1, digits =>
    let q : Int := k + 1 - digits
    let p := scale10 n d (-q)
    let lo := p.1 / p.2
    let r := p.1 % p.2
    let down := stripZeros lo lo q
    let up := stripZeros (lo + 1) (lo + 1) q
    let okdown := decide (ofDecimal neg down.1 down.2 = x)
    let okup := decide (ofDecimal neg up.1 up.2 = x)
    if okdown && okup then
      (if 2 * r < p.2 then some down
       else if p.2 < 2 * r then some up
       else if lo % 2 = 0 then some down else some up)
    else if okdown then some down
    else if okup then some up
    else shortestAux x neg n d k fuel (digits + 1)

/-- The exact decimal expansion `D * 10^q` of `m * 2^e`. -/
def exactDecimal (m : Nat) (e : Int) : Nat × Int :=
  match e with
  | Int.ofNat k => (m * 2 ^ k, 0)
  | Int.negSucc k => (m * 5 ^ (k + 1), Int.negSucc k)

/-- The shortest decimal `(D, q)`, `|x| = D * 10^q`, that `ofDecimal` reads back as the
nonzero finite `x = fin neg m e` (`strconv.FormatFloat` with precision `-1`). Seventeen
digits always suffice for a binary64; the exact expansion closes the definition. -/
def shortest (neg : Bool) (m : Nat) (e : Int) : Nat × Int :=
  let p := scale m 1 e
  let k := ilog10 p.1 p.2
  (shortestAux (fin neg m e) neg p.1 p.2 k 17 1).getD (exactDecimal m e)

/-- `|x| < |y|` for finite values. -/
def absLt : Float64 → Float64 → Bool
  | fin _ m e, fin _ m' e' =>
    let p := scale m 1 (e - e')
    decide (p.1 < m' * p.2)
  | _, _ => false

end Float64

/-! ## encoding/json: document values -/

/-- A JSON number literal by the parts of its grammar: sign, integer digits, fraction
digits (empty when there is no fraction) and exponent (sign and digits). -/
structure JNumber where
  neg : Bool
  int : GoString
  frac : GoString
  exp : Option (Bool × GoString)
deriving DecidableEq, Repr

/-- A JSON document value. -/
inductive JVal where
  | null : JVal
  | bool (b : Bool) : JVal
  | num (n : JNumber) : JVal
  | str (s : GoString) : JVal
  | arr (items : List JVal) : JVal
  | obj (members : List (GoString × JVal)) : JVal

/-- Value of a string of decimal digits. -/
def digitsVal (ds : GoString) : Nat :=
  ds.foldl (fun acc c => 10 * acc + (c.toNat - 48)) 0

/-- Text of a number literal. -/
def JNumber.render (n : JNumber) : GoString :=
  (if n.neg then ['-'] else []) ++ n.int ++
  (if n.frac = [] then [] else '.' :: n.frac) ++
  (match n.exp with
   | none => []
   | some (s, ds) => 'e' :: (if s then '-' else '+') :: ds)

/-- Decimal exponent written in a number literal. -/
def JNumber.expVal (n : JNumber) : Int :=
  match n.exp with
  | none => 0
  | some (s, ds) => if s then - (digitsVal ds : Int) else (digitsVal ds : Int)

/-- The float64 a number literal decodes to (`strconv.ParseFloat(lit, 64)`); `none` is its
range error. -/
def JNumber.toFloat64 (n : JNumber) : Option Float64 :=
  let x := Float64.ofDecimal n.neg (digitsVal (n.int ++ n.frac)) (n.expVal - n.frac.length)
  if x.isFinite then some x else none

/-- The int64 a number literal decodes to (`strconv.ParseInt(lit, 10, 64)`); `none` when the
literal has a fraction or an exponent or is out of range. -/
def JNumber.toInt64 (n : JNumber) : Option Int :=
  if n.frac = [] ∧ n.exp = none then
    let v : Int := if n.neg then - (digitsVal n.int : Int) else (digitsVal n.int : Int)
    if - 2 ^ 63 ≤ v ∧ v < 2 ^ 63 then some v else none
  else none

/-- The number literal `json.Marshal` writes for a finite float64: shortest digits, in
positional form unless the magnitude is below `1e-6` or at least `1e21`, then in exponent
form with the exponent's leading zero dropped. -/
def formatFloat : Float64 → JNumber
  | Float64.fin neg m e =>
    if m = 0 then ⟨neg, ['0'], [], none⟩
    else
      let c := Float64.shortest neg m e
      let ds := natDigits c.1
      let dp : Int := (ds.length : Int) + c.2
      let x := Float64.fin neg m e
      if Float64.absLt x (Float64.ofDecimal false 1 (-6))
          || !(Float64.absLt x (Float64.ofDecimal false 1 21)) then
        ⟨neg, ds.take 1, ds.drop 1,
          some (decide (dp - 1 < 0), natDigits (dp - 1).natAbs)⟩
      else if dp ≤ 0 then ⟨neg, ['0'], List.replicate (-dp).toNat '0' ++ ds, none⟩
      else if dp < ds.length then ⟨neg, ds.take dp.toNat, ds.drop dp.toNat, none⟩
      else ⟨neg, ds ++ List.replicate (dp - ds.length).toNat '0', [], none⟩
  | _ => ⟨false, ['0'], [], none⟩

/-- Lower-case hexadecimal digit. -/
def hexDigit (n : Nat) : Char :=
  if n % 16 < 10 then Char.ofNat (48 + n % 16) else Char.ofNat (87 + n % 16)

/-- The escape `\uXXXX` of a code unit. -/
def escapeU (n : Nat) : GoString :=
  ['\\', 'u', hexDigit (n / 4096), hexDigit (n / 256), hexDigit (n / 16), hexDigit n]

/-- How `json.Marshal` writes one character inside a string (HTML escaping is on). -/
def escapeChar (c : Char) : GoString :=
  if c = '\\' ∨ c = '"' then ['\\', c]
  else if c = '\x08' then ['\\', 'b']
  else if c = '\x0c' then ['\\', 'f']
  else if c = '\n' then ['\\', 'n']
  else if c = '\r' then ['\\', 'r']
  else if c = '\t' then ['\\', 't']
  else if c.toNat < 32 ∨ c = '<' ∨ c = '>' ∨ c = '&' then escapeU c.toNat
  else if c.toNat = 8232 ∨ c.toNat = 8233 then escapeU c.toNat
  else [c]

/-- A JSON string literal as `json.Marshal` writes it. -/
def quoteString (s : GoString) : GoString :=
  '"' :: (s.flatMap escapeChar ++ ['"'])

mutual
/-- Compact text of a document value, as `json.Marshal` writes it. -/
def JVal.render : JVal → GoString
  | .null => "null".toList
  | .bool true => "true".toList
  | .bool false => "false".toList
  | .num n => n.render
  | .str s => quoteString s
  | .arr items => '[' :: (JVal.renderItems items ++ [']'])
  | .obj members => '{' :: (JVal.renderMembers members ++ ['}'])
/-- Comma-separated array elements. -/
def JVal.renderItems : List JVal → GoString
  | [] => []
  | [v] => v.render
  | v :: vs => v.render ++ ',' :: JVal.renderItems vs
/-- Comma-separated object members. -/
def JVal.renderMembers : List (GoString × JVal) → GoString
  | [] => []
  | [(k, v)] => quoteString k ++ ':' :: v.render
  | (k, v) :: ms => quoteString k ++ ':' :: v.render ++ ',' :: JVal.renderMembers ms
end

/-! ## Fatal errors -/

/-- Why the process was ended by `catchError` (`log.Fatalln(err)`). -/
inductive Fatal where
  /-- The error came from `http.Get` or `ioutil.ReadAll`. -/
  | transport : Fatal
  /-- The body is not JSON text: `json.Unmarshal` returned a `SyntaxError`. -/
  | syntaxError : Fatal
  /-- A value does not fit its Go field: `json.Unmarshal` returned an `UnmarshalTypeError`. -/
  | unmarshalType : Fatal
  /-- A float is `±Inf` or NaN: `json.Marshal` returned an `UnsupportedValueError`. -/
  | unsupportedValue : Fatal
deriving DecidableEq, Repr

/-- The function `catchError`: `log.Fatalln` on a non-nil error. -/
def catchError {ε α : Type} (toFatal : ε → Fatal) : Except ε α → Except Fatal α
  | .ok a => .ok a
  | .error e => .error (toFatal e)

/-- The document value `json.Marshal` writes for a float64 field. -/
def marshalFloat (x : Float64) : Except Fatal JVal :=
  if x.isFinite then .ok (.num (formatFloat x)) else .error Fatal.unsupportedValue

/-- The document `json.Marshal(er)` writes: the exported fields under their tags, in
declaration order; the unexported field `date` is left out. -/
def ExchangeRate.marshal (er : ExchangeRate) : Except Fatal JVal := do
  let upc ← marshalFloat er.UnitsPerCurrency
  let cpu ← marshalFloat er.CurrenciesPerUnit
  pure (.obj [("date".toList, .str er.StringDate),
              ("base".toList, .str er.Base),
              ("currency".toList, .str er.Currency),
              ("units_per_currency".toList, upc),
              ("currencies_per_unit".toList, cpu)])

/-- `er.JSON()`: the bytes of `json.Marshal(er)`, or the end of the process. -/
def ExchangeRate.JSON (er : ExchangeRate) : Except Fatal GoString :=
  er.marshal.map JVal.render

/-! ## encoding/json: decoding into the program's structs -/

/-- Case folding of a member name as `json.Unmarshal` compares it with a field tag: ASCII
letters to lower case, and the two non-ASCII letters that fold onto ASCII ones. -/
def foldChar (c : Char) : Char :=
  if c.toNat = 383 then 's' else if c.toNat = 8490 then 'k' else c.toLower

/-- A member named `key` is stored in the field tagged `tag` when the names are equal or
equal under case folding (no two tags of one struct fold together here). -/
def keyMatches (tag key : GoString) : Bool :=
  key.map foldChar = tag.map foldChar

/-- A JSON value decoded into a Go `string`: `null` leaves the field as it is. -/
def decodeString : JVal → Except Fatal (Option GoString)
  | .null => .ok none
  | .str s => .ok (some s)
  | _ => .error Fatal.unmarshalType

/-- A JSON value decoded into a Go `float64`. -/
def decodeFloat64 : JVal → Except Fatal (Option Float64)
  | .null => .ok none
  | .num n =>
    match n.toFloat64 with
    | some x => .ok (some x)
    | none => .error Fatal.unmarshalType
  | _ => .error Fatal.unmarshalType

/-- A JSON value decoded into a Go `int64`. -/
def decodeInt64 : JVal → Except Fatal (Option Int)
  | .null => .ok none
  | .num n =>
    match n.toInt64 with
    | some x => .ok (some x)
    | none => .error Fatal.unmarshalType
  | _ => .error Fatal.unmarshalType

/-- `m[k] = v` on a map kept as its list of entries. -/
def mapSet (m : List (GoString × Float64)) (k : GoString) (v : Float64) :
    List (GoString × Float64) :=
  match m with
  | [] => [(k, v)]
  | (k', v') :: rest => if k' = k then (k, v) :: rest else (k', v') :: mapSet rest k v

/-- The members of a JSON object stored one by one into a `map[string]float64`: each value
is decoded into a fresh zero element (so `null` stores `0`). -/
def decodeRatesMembers (m : List (GoString × Float64)) :
    List (GoString × JVal) → Except Fatal (List (GoString × Float64))
  | [] => .ok m
  | (k, v) :: rest =>
    match decodeFloat64 v with
    | .error e => .error e
    | .ok x => decodeRatesMembers (mapSet m k (x.getD (Float64.zero false))) rest

/-- A JSON value decoded into a `map[string]float64` that currently holds `m`: `null` makes
the map nil, an object adds its members to the map. -/
def decodeRates (m : List (GoString × Float64)) : JVal → Except Fatal (List (GoString × Float64))
  | .null => .ok []
  | .obj members => decodeRatesMembers m members
  | _ => .error Fatal.unmarshalType

/-- One member of the top-level object decoded into `*OpenExchangeRateResponse`; a member
that names no field is skipped whatever its value. -/
def OpenExchangeRateResponse.decodeMember (r : OpenExchangeRateResponse)
    (kv : GoString × JVal) : Except Fatal OpenExchangeRateResponse :=
  if keyMatches "base".toList kv.1 then
    (decodeString kv.2).map fun o => { r with Base := o.getD r.Base }
  else if keyMatches "timestamp".toList kv.1 then
    (decodeInt64 kv.2).map fun o => { r with Timestamp := o.getD r.Timestamp }
  else if keyMatches "rates".toList kv.1 then
    (decodeRates r.Rates kv.2).map fun m => { r with Rates := m }
  else .ok r

/-- The members of the top-level object, in document order. -/
def OpenExchangeRateResponse.decodeMembers (r : OpenExchangeRateResponse) :
    List (GoString × JVal) → Except Fatal OpenExchangeRateResponse
  | [] => .ok r
  | kv :: rest =>
    match r.decodeMember kv with
    | .error e => .error e
    | .ok r' => OpenExchangeRateResponse.decodeMembers r' rest

/-- What `json.Unmarshal` makes of the bytes of a response body: not JSON text, or the
text of a document value. -/
inductive Body where
  | notJSON : Body
  | json (v : JVal) : Body

/-- `json.Unmarshal(bs, oerr)` for `oerr := new(OpenExchangeRateResponse)`, followed by
`catchError`: a top-level `null` leaves the zero struct, an object fills the fields it
names, any other JSON value is a type error. -/
def OpenExchangeRateResponse.Unmarshal : Body → Except Fatal OpenExchangeRateResponse
  | .notJSON => .error Fatal.syntaxError
  | .json .null => .ok ⟨[], 0, []⟩
  | .json (.obj members) => OpenExchangeRateResponse.decodeMembers ⟨[], 0, []⟩ members
  | .json _ => .error Fatal.unmarshalType

/-- One member of a JSON object decoded into `*ExchangeRate` (the field `date` has no tag
and is unexported: no member reaches it). -/
def ExchangeRate.decodeMember (er : ExchangeRate) (kv : GoString × JVal) :
    Except Fatal ExchangeRate :=
  if keyMatches "date".toList kv.1 then
    (decodeString kv.2).map fun o => { er with StringDate := o.getD er.StringDate }
  else if keyMatches "base".toList kv.1 then
    (decodeString kv.2).map fun o => { er with Base := o.getD er.Base }
  else if keyMatches "currency".toList kv.1 then
    (decodeString kv.2).map fun o => { er with Currency := o.getD er.Currency }
  else if keyMatches "units_per_currency".toList kv.1 then
    (decodeFloat64 kv.2).map fun o => { er with UnitsPerCurrency := o.getD er.UnitsPerCurrency }
  else if keyMatches "currencies_per_unit".toList kv.1 then
    (decodeFloat64 kv.2).map fun o => { er with CurrenciesPerUnit := o.getD er.CurrenciesPerUnit }
  else .ok er

/-- The members of a JSON object decoded into `*ExchangeRate`, in document order. -/
def ExchangeRate.decodeMembers (er : ExchangeRate) :
    List (GoString × JVal) → Except Fatal ExchangeRate
  | [] => .ok er
  | kv :: rest =>
    match er.decodeMember kv with
    | .error e => .error e
    | .ok er' => ExchangeRate.decodeMembers er' rest

/-- The zero `ExchangeRate`. -/
def ExchangeRate.zero : ExchangeRate :=
  ⟨Time.zero, [], [], [], Float64.zero false, Float64.zero false⟩

/-- `json.Unmarshal(bs, er)` for `er := new(ExchangeRate)`. -/
def ExchangeRate.Unmarshal : Body → Except Fatal ExchangeRate
  | .notJSON => .error Fatal.syntaxError
  | .json .null => .ok ExchangeRate.zero
  | .json (.obj members) => ExchangeRate.decodeMembers ExchangeRate.zero members
  | .json _ => .error Fatal.unmarshalType

/-! ## Strings as bytes -/

/-- A byte. -/
abbrev Byte := Fin 256

/-- A Go `string` or `[]byte` as the bytes it holds; it need not be valid UTF-8. -/
abbrev RawString := List Byte

/-- The byte of value `n`, for `n < 256`. -/
def byte (n : Nat) : Byte := ⟨n % 256, Nat.mod_lt n (by decide)⟩

/-- The code point `utf8.RuneError`, U+FFFD. -/
def RuneError : Nat := 65533

/-- The UTF-8 encoding of a code point (`utf8.AppendRune`). -/
def encodeRune (c : Char) : RawString :=
  let r := c.toNat
  if r < 128 then [byte r]
  else if r < 2048 then [byte (192 + r / 64), byte (128 + r % 64)]
  else if r < 65536 then [byte (224 + r / 4096), byte (128 + r / 64 % 64), byte (128 + r % 64)]
  else [byte (240 + r / 262144), byte (128 + r / 4096 % 64), byte (128 + r / 64 % 64),
        byte (128 + r % 64)]

/-- The bytes of a string given by its code points. -/
def utf8 (cs : GoString) : RawString := cs.flatMap encodeRune

/-- For the leading byte of a multi-byte encoding (the table `first` of package utf8): the
size of the encoding and the range the second byte must lie in; `none` for a byte that
leads no encoding. -/
def leadInfo (p0 : Nat) : Option (Nat × Nat × Nat) :=
  if 194 ≤ p0 ∧ p0 ≤ 223 then some (2, 128, 191)
  else if p0 = 224 then some (3, 160, 191)
  else if 225 ≤ p0 ∧ p0 ≤ 236 then some (3, 128, 191)
  else if p0 = 237 then some (3, 128, 159)
  else if 238 ≤ p0 ∧ p0 ≤ 239 then some (3, 128, 191)
  else if p0 = 240 then some (4, 144, 191)
  else if 241 ≤ p0 ∧ p0 ≤ 243 then some (4, 128, 191)
  else if p0 = 244 then some (4, 128, 143)
  else none

/-- Is the byte a continuation byte, `0x80`..`0xBF`. -/
def isCont (b : Nat) : Bool := decide (128 ≤ b ∧ b ≤ 191)

/-- `utf8.DecodeRune(p)`: the code point at the head of `p` and the number of bytes it takes;
`(RuneError, 1)` when the head starts no valid encoding, `(RuneError, 0)` when `p` is
empty. -/
def DecodeRune : RawString → Nat × Nat
  | [] => (RuneError, 0)
  | p0 :: rest =>
    if p0.val < 128 then (p0.val, 1)
    else
      match leadInfo p0.val, rest with
      | some (2, lo, hi), b1 :: _ =>
        if lo ≤ b1.val ∧ b1.val ≤ hi then (p0.val % 32 * 64 + b1.val % 64, 2)
        else (RuneError, 1)
      | some (3, lo, hi), b1 :: b2 :: _ =>
        if lo ≤ b1.val ∧ b1.val ≤ hi ∧ isCont b2.val then
          (p0.val % 16 * 4096 + b1.val % 64 * 64 + b2.val % 64, 3)
        else (RuneError, 1)
      | some (4, lo, hi), b1 :: b2 :: b3 :: _ =>
        if lo ≤ b1.val ∧ b1.val ≤ hi ∧ isCont b2.val ∧ isCont b3.val then
          (p0.val % 8 * 262144 + b1.val % 64 * 4096 + b2.val % 64 * 64 + b3.val % 64, 4)
        else (RuneError, 1)
      | _, _ => (RuneError, 1)

/-- Auxiliary for `runes`: at most `fuel` code points. -/
def runesAux : Nat → RawString → GoString
  | 0, _ => []
  | _, [] => []
  | fuel + 1, p0 :: rest =>
    let rs := DecodeRune (p0 :: rest)
    Char.ofNat rs.1 :: runesAux fuel (rest.drop (rs.2 - 1))

/-- The code points of a Go string as a `range` loop or `[]rune(s)` reads them: every
byte that starts no valid encoding counts as U+FFFD. -/
def runes (s : RawString) : GoString := runesAux s.length s

/-- Auxiliary for `ValidString`. -/
def validAux : Nat → RawString → Bool
  | 0, s => s.isEmpty
  | _, [] => true
  | fuel + 1, p0 :: rest =>
    let rs := DecodeRune (p0 :: rest)
    if rs.1 = RuneError ∧ rs.2 = 1 then false else validAux fuel (rest.drop (rs.2 - 1))

/-- `utf8.ValidString(s)`. -/
def ValidString (s : RawString) : Bool := validAux s.length s

/-! ## encoding/json on bytes: the text of a string and the reading of a text -/

/-- Auxiliary for `appendString`: the loop over the bytes of the string, at most `fuel`
code points. -/
def appendStringAux : Nat → RawString → RawString
  | 0, _ => []
  | _, [] => []
  | fuel + 1, b :: rest =>
    if b.val < 128 then utf8 (escapeChar (Char.ofNat b.val)) ++ appendStringAux fuel rest
    else
      let rs := DecodeRune (b :: rest)
      if rs.1 = RuneError ∧ rs.2 = 1 then
        utf8 "\\ufffd".toList ++ appendStringAux fuel rest
      else if rs.1 = 8232 ∨ rs.1 = 8233 then
        utf8 (escapeU rs.1) ++ appendStringAux fuel (rest.drop (rs.2 - 1))
      else (b :: rest).take rs.2 ++ appendStringAux fuel (rest.drop (rs.2 - 1))

/-- The JSON string literal `json.Marshal` writes for a Go string (the function
`appendString` of encoding/json, HTML escaping on): ASCII bytes as `escapeChar` has them,
a byte that starts no valid encoding as the escape of U+FFFD, U+2028 and U+2029 escaped, every other
code point by its bytes. -/
def appendString (s : RawString) : RawString :=
  byte 34 :: (appendStringAux s.length s ++ [byte 34])

/-- Value of a hexadecimal digit. -/
def hexVal (b : Nat) : Option Nat :=
  if 48 ≤ b ∧ b ≤ 57 then some (b - 48)
  else if 97 ≤ b ∧ b ≤ 102 then some (b - 87)
  else if 65 ≤ b ∧ b ≤ 70 then some (b - 55)
  else none

/-- The function `getu4` of encoding/json: the code unit of four hexadecimal digits. -/
def getu4 (a b c d : Byte) : Option Nat :=
  match hexVal a.val, hexVal b.val, hexVal c.val, hexVal d.val with
  | some x, some y, some z, some w => some (x * 4096 + y * 256 + z * 16 + w)
  | _, _, _, _ => none

/-- `utf16.IsSurrogate`. -/
def isSurrogate (r : Nat) : Bool := decide (55296 ≤ r ∧ r < 57344)

/-- `utf16.DecodeRune(r1, r2)`: the code point of a surrogate pair, U+FFFD when the two
are no pair. -/
def decodeSurrogates (r1 r2 : Nat) : Nat :=
  if 55296 ≤ r1 ∧ r1 < 56320 ∧ 56320 ≤ r2 ∧ r2 < 57344 then
    (r1 - 55296) * 1024 + (r2 - 56320) + 65536
  else RuneError

/-- The character a one-letter escape stands for. -/
def simpleEscape (e : Nat) : Option Char :=
  if e = 34 then some '"'
  else if e = 92 then some '\\'
  else if e = 47 then some '/'
  else if e = 98 then some '\x08'
  else if e = 102 then some '\x0c'
  else if e = 110 then some '\n'
  else if e = 114 then some '\r'
  else if e = 116 then some '\t'
  else none

/-- The code unit of a second escape `\uXXXX` at the head of `s`, if there is one. -/
def secondUnit : RawString → Option Nat
  | b :: u :: g1 :: g2 :: g3 :: g4 :: _ =>
    if b.val = 92 ∧ u.val = 117 then getu4 g1 g2 g3 g4 else none
  | _ => none

/-- Put a code point before the string read after it. -/
def consRune (c : Char) : Option (GoString × RawString) → Option (GoString × RawString)
  | some (cs, rest) => some (c :: cs, rest)
  | none => none

/-- A JSON string literal read from after its opening quote, as the scanner and the
function `unquote` of encoding/json do: the string and what follows the closing quote;
`none` when the literal is malformed (a control character, a bad escape, no closing
quote). Bytes that start no valid encoding and lone surrogate escapes read as U+FFFD. -/
def parseStringAux : Nat → RawString → Option (GoString × RawString)
  | 0, _ => none
  | _, [] => none
  | fuel + 1, b :: rest =>
    if b.val = 34 then some ([], rest)
    else if b.val = 92 then
      match rest with
      | [] => none
      | e :: rest1 =>
        if e.val = 117 then
          match rest1 with
          | h1 :: h2 :: h3 :: h4 :: rest2 =>
            match getu4 h1 h2 h3 h4 with
            | none => none
            | some r =>
              if isSurrogate r then
                match secondUnit rest2 with
                | some r2 =>
                  if decodeSurrogates r r2 ≠ RuneError then
                    consRune (Char.ofNat (decodeSurrogates r r2))
                      (parseStringAux fuel (rest2.drop 6))
                  else consRune (Char.ofNat RuneError) (parseStringAux fuel rest2)
                | none => consRune (Char.ofNat RuneError) (parseStringAux fuel rest2)
              else consRune (Char.ofNat r) (parseStringAux fuel rest2)
          | _ => none
        else
          match simpleEscape e.val with
          | some c => consRune c (parseStringAux fuel rest1)
          | none => none
    else if b.val < 32 then none
    else if b.val < 128 then consRune (Char.ofNat b.val) (parseStringAux fuel rest)
    else
      let rs := DecodeRune (b :: rest)
      consRune (Char.ofNat rs.1) (parseStringAux fuel (rest.drop (rs.2 - 1)))

/-- A JSON string literal read from after its opening quote. -/
def parseString (s : RawString) : Option (GoString × RawString) := parseStringAux s.length s

/-- Is the byte a decimal digit. -/
def isDigitByte (b : Byte) : Bool := decide (48 ≤ b.val ∧ b.val ≤ 57)

/-- The digits at the head of `s`, and what follows them. -/
def spanDigits : RawString → GoString × RawString
  | [] => ([], [])
  | b :: rest =>
    if isDigitByte b then
      let r := spanDigits rest
      (Char.ofNat b.val :: r.1, r.2)
    else ([], b :: rest)

/-- The integer part of a number literal: `0`, or a nonzero digit and more digits. -/
def parseInt : RawString → Option (GoString × RawString)
  | [] => none
  | b :: rest =>
    if b.val = 48 then some (['0'], rest)
    else if isDigitByte b then
      let r := spanDigits rest
      some (Char.ofNat b.val :: r.1, r.2)
    else none

/-- The optional fraction of a number literal: a point and at least one digit. -/
def parseFrac : RawString → Option (GoString × RawString)
  | [] => some ([], [])
  | b :: rest =>
    if b.val = 46 then
      let r := spanDigits rest
      if r.1 = [] then none else some r
    else some ([], b :: rest)

/-- The digits of an exponent: at least one. -/
def parseExpDigits (neg : Bool) (s : RawString) :
    Option (Option (Bool × GoString) × RawString) :=
  let r := spanDigits s
  if r.1 = [] then none else some (some (neg, r.1), r.2)

/-- The optional exponent of a number literal: `e` or `E`, an optional sign, and at least
one digit. -/
def parseExp : RawString → Option (Option (Bool × GoString) × RawString)
  | [] => some (none, [])
  | b :: rest =>
    if b.val = 101 ∨ b.val = 69 then
      match rest with
      | [] => none
      | c :: rest1 =>
        if c.val = 45 then parseExpDigits true rest1
        else if c.val = 43 then parseExpDigits false rest1
        else parseExpDigits false (c :: rest1)
    else some (none, b :: rest)

/-- The unsigned part of a number literal. -/
def parseUnsigned (neg : Bool) (s : RawString) : Option (JNumber × RawString) :=
  match parseInt s with
  | none => none
  | some (int, s1) =>
    match parseFrac s1 with
    | none => none
    | some (frac, s2) =>
      match parseExp s2 with
      | none => none
      | some (exp, s3) => some (⟨neg, int, frac, exp⟩, s3)

/-- A JSON number literal at the head of `s`, by the parts of its grammar. -/
def parseNumber : RawString → Option (JNumber × RawString)
  | [] => none
  | b :: rest => if b.val = 45 then parseUnsigned true rest else parseUnsigned false (b :: rest)

/-- JSON white space: space, tab, carriage return, line feed. -/
def isSpace (b : Byte) : Bool := decide (b.val = 32 ∨ b.val = 9 ∨ b.val = 13 ∨ b.val = 10)

/-- The text after its leading white space. -/
def skipSpace : RawString → RawString
  | [] => []
  | b :: rest => if isSpace b then skipSpace rest else b :: rest

/-- Take the literal `lit` off the head of `s`. -/
def parseLiteral (lit : RawString) (v : JVal) (s : RawString) : Option (JVal × RawString) :=
  if s.take lit.length = lit then some (v, s.drop lit.length) else none

mutual
/-- A JSON value at the head of the text (after white space), nested at most `fuel` deep
and wide: the document value and the text that follows it. -/
def parseValue : Nat → RawString → Option (JVal × RawString)
  | 0, _ => none
  | fuel + 1, s =>
    match skipSpace s with
    | [] => none
    | b :: rest =>
      if b.val = 123 then
        match skipSpace rest with
        | [] => none
        | c :: rest1 =>
          if c.val = 125 then some (.obj [], rest1)
          else
            match parseMembers fuel (c :: rest1) with
            | some (ms, r) => some (.obj ms, r)
            | none => none
      else if b.val = 91 then
        match skipSpace rest with
        | [] => none
        | c :: rest1 =>
          if c.val = 93 then some (.arr [], rest1)
          else
            match parseItems fuel (c :: rest1) with
            | some (vs, r) => some (.arr vs, r)
            | none => none
      else if b.val = 34 then
        match parseString rest with
        | some (str, r) => some (.str str, r)
        | none => none
      else if b.val = 116 then parseLiteral (utf8 "true".toList) (.bool true) (b :: rest)
      else if b.val = 102 then parseLiteral (utf8 "false".toList) (.bool false) (b :: rest)
      else if b.val = 110 then parseLiteral (utf8 "null".toList) .null (b :: rest)
      else
        match parseNumber (b :: rest) with
        | some (n, r) => some (.num n, r)
        | none => none
/-- The members of an object from its first key to the closing brace. -/
def parseMembers : Nat → RawString → Option (List (GoString × JVal) × RawString)
  | 0, _ => none
  | fuel + 1, s =>
    match skipSpace s with
    | [] => none
    | q :: r1 =>
      if q.val = 34 then
        match parseString r1 with
        | none => none
        | some (k, r2) =>
          match skipSpace r2 with
          | [] => none
          | c :: r3 =>
            if c.val = 58 then
              match parseValue fuel r3 with
              | none => none
              | some (v, r4) =>
                match skipSpace r4 with
                | [] => none
                | d :: r5 =>
                  if d.val = 44 then
                    match parseMembers fuel r5 with
                    | some (ms, r) => some ((k, v) :: ms, r)
                    | none => none
                  else if d.val = 125 then some ([(k, v)], r5)
                  else none
            else none
      else none
/-- The elements of an array from its first element to the closing bracket. -/
def parseItems : Nat → RawString → Option (List JVal × RawString)
  | 0, _ => none
  | fuel + 1, s =>
    match parseValue fuel s with
    | none => none
    | some (v, r1) =>
      match skipSpace r1 with
      | [] => none
      | d :: r2 =>
        if d.val = 44 then
          match parseItems fuel r2 with
          | some (vs, r) => some (v :: vs, r)
          | none => none
        else if d.val = 93 then some ([v], r2)
        else none
end

/-- The document value a text denotes, when it is JSON text: one value, white space
around it, nothing more (the limit encoding/json puts on the depth of nesting is left
out). -/
def parseJSON (s : RawString) : Option JVal :=
  match parseValue (s.length + 1) s with
  | some (v, rest) => if skipSpace rest = [] then some v else none
  | none => none

/-- What `json.Unmarshal` makes of the bytes `bs`. -/
def parseBody (bs : RawString) : Body :=
  match parseJSON bs with
  | some v => .json v
  | none => .notJSON

/-- Is the character a decimal digit. -/
def IsDigit (c : Char) : Prop := 48 ≤ c.toNat ∧ c.toNat ≤ 57

/-- A number literal by the grammar of JSON: the integer part is `0` or starts with a
nonzero digit, fraction and exponent are digits, the exponent has at least one. -/
def JNumber.WellFormed (n : JNumber) : Prop :=
  (n.int = ['0'] ∨ ∃ c tl, n.int = c :: tl ∧ 49 ≤ c.toNat ∧ c.toNat ≤ 57 ∧ ∀ x ∈ tl, IsDigit x) ∧
  (∀ x ∈ n.frac, IsDigit x) ∧
  (∀ e ∈ n.exp, e.2 ≠ [] ∧ ∀ x ∈ e.2, IsDigit x)

/-- The text of the exponent of a number literal. -/
def expText : Option (Bool × GoString) → GoString
  | none => []
  | some (s, ds) => 'e' :: (if s then '-' else '+') :: ds

/-! ## The record with its strings as bytes -/

namespace Raw

/-- The struct `ExchangeRate`, its strings as the bytes they hold: the same Go struct as
`Goer.ExchangeRate`, which keeps its strings by code points and so holds valid UTF-8
only. -/
structure ExchangeRate where
  date : Time
  StringDate : RawString
  Base : RawString
  Currency : RawString
  UnitsPerCurrency : Float64
  CurrenciesPerUnit : Float64
deriving DecidableEq, Repr

/-- `NewExchangeRate(d, b, c, upc, cpu)` for any two Go strings `b` and `c`. -/
def NewExchangeRate (d : Time) (b c : RawString) (upc cpu : Float64) : ExchangeRate :=
  { date := d
    StringDate := utf8 (d.Format "2006-01-02".toList)
    Base := b
    Currency := c
    UnitsPerCurrency := upc
    CurrenciesPerUnit := cpu }

/-- A record by the bytes of its strings. -/
def ofRecord (er : Goer.ExchangeRate) : ExchangeRate :=
  { date := er.date
    StringDate := utf8 er.StringDate
    Base := utf8 er.Base
    Currency := utf8 er.Currency
    UnitsPerCurrency := er.UnitsPerCurrency
    CurrenciesPerUnit := er.CurrenciesPerUnit }

/-- The text `json.Marshal` writes for a float64 field. -/
def floatText (x : Float64) : Except Fatal RawString :=
  if x.isFinite then .ok (utf8 (formatFloat x).render) else .error Fatal.unsupportedValue

/-- `er.JSON()`: the bytes `json.Marshal(er)` writes, or the end of the process. The
exported fields are written under their tags in declaration order, names and strings by
`appendString`; the unexported field `date` is left out. -/
def ExchangeRate.JSON (er : ExchangeRate) : Except Fatal RawString := do
  let upc ← floatText er.UnitsPerCurrency
  let cpu ← floatText er.CurrenciesPerUnit
  pure (byte 123 :: (appendString (utf8 "date".toList) ++ byte 58 :: (appendString er.StringDate
    ++ byte 44 :: (appendString (utf8 "base".toList) ++ byte 58 :: (appendString er.Base
    ++ byte 44 :: (appendString (utf8 "currency".toList) ++ byte 58 :: (appendString er.Currency
    ++ byte 44 :: (appendString (utf8 "units_per_currency".toList) ++ byte 58 :: (upc
    ++ byte 44 :: (appendString (utf8 "currencies_per_unit".toList) ++ byte 58 :: (cpu
    ++ [byte 125])))))))))))

/-- `json.Unmarshal(bs, er)` for `er := new(ExchangeRate)`: the text is read, the document
decoded into the struct. -/
def ExchangeRate.Unmarshal (bs : RawString) : Except Fatal ExchangeRate :=
  (Goer.ExchangeRate.Unmarshal (parseBody bs)).map ofRecord

/-- Serialise a record with `JSON()` and parse the bytes back into a new `ExchangeRate`:
`json.Unmarshal(er.JSON(), new(ExchangeRate))`. -/
def ExchangeRate.roundTrip (er : ExchangeRate) : Except Fatal ExchangeRate :=
  match er.JSON with
  | .error e => .error e
  | .ok bs => ExchangeRate.Unmarshal bs

end Raw

/-! ## Fetch -/

/-- `fmt.Sprintf(layout, args...)` for layouts whose only verb is `%v` and string operands. -/
def Sprintf : GoString → List GoString → GoString
  | '%' :: 'v' :: rest, a :: args => a ++ Sprintf rest args
  | c :: rest, args => c :: Sprintf rest args
  | [], _ => []

/-- `bytes.Join(s, sep)`. -/
def bytesJoin (sep : GoString) : List GoString → GoString
  | [] => []
  | [a] => a
  | a :: rest => a ++ sep ++ bytesJoin sep rest

/-- What `http.Get` followed by `ioutil.ReadAll` gives: an error, or the bytes of the body
(whatever the status code). -/
inductive Response where
  | failed : Response
  | body (b : Body) : Response

/-- The network and the Go runtime as `Fetch` meets them: the answer to a GET of a URL and
the order in which the decoded map is ranged over. -/
structure Net where
  get : GoString → Response
  order : GoString → RangeOrder

/-- The request URL of `Fetch`. -/
def fetchURL (appId : GoString) (d : Time) (base : GoString) : GoString :=
  Sprintf "https://openexchangerates.org/api/historical/%v.json?app_id=%v&base=%v".toList
    [d.Format "2006-01-02".toList, appId, base]

/-- `er.JSON()` on an element of the slice; on a nil pointer `json.Marshal` writes `null`. -/
def JSONOf : Option ExchangeRate → Except Fatal GoString
  | none => .ok "null".toList
  | some er => er.JSON

/-- The loop `for _, er := range ers { multiContent = append(multiContent, er.JSON()) }`. -/
def jsonAll : List (Option ExchangeRate) → Except Fatal (List GoString)
  | [] => .ok []
  | er :: rest =>
    match JSONOf er with
    | .error e => .error e
    | .ok bs =>
      match jsonAll rest with
      | .error e => .error e
      | .ok more => .ok (bs :: more)

/-- The records `Fetch` derives from a response: decode, then `ExchangeRates`. -/
def fetchRecords (net : Net) (appId : GoString) (d : Time) (base : GoString) :
    Except Fatal (List (Option ExchangeRate)) :=
  match net.get (fetchURL appId d base) with
  | .failed => .error Fatal.transport
  | .body bs =>
    match OpenExchangeRateResponse.Unmarshal bs with
    | .error e => .error e
    | .ok oerr => .ok (oerr.ExchangeRates (net.order (fetchURL appId d base)) d)

/-- `Fetch(d, base)`. -/
def Fetch (net : Net) (appId : GoString) (d : Time) (base : GoString) : Except Fatal GoString :=
  match fetchRecords net appId d base with
  | .error e => .error e
  | .ok ers =>
    match jsonAll ers with
    | .error e => .error e
    | .ok multiContent => .ok (bytesJoin ['\n'] multiContent)

/-! ## main: window, destination paths, scheduling -/

/-- The globals `init` sets from the flags. -/
structure Config where
  fromDate : Time
  delta : Int
  bases : List GoString
  bucketName : GoString
  appId : GoString

/-- The offset `-1 * time.Duration(i) * 24 * time.Hour`, each product in int64. -/
def windowOffset (i : Int) : Duration :=
  wrapInt64 (wrapInt64 (wrapInt64 (-1 * i) * 24) * Hour)

/-- The date of iteration `i`: `d := from.Add(-1 * time.Duration(i) * 24 * time.Hour)`. -/
def dateAt (cfg : Config) (i : Nat) : Time :=
  cfg.fromDate.Add (windowOffset i)

/-- The value of `filename`: `fmt.Sprintf("rates/%v/%v/export.json.gz", d.Format("2006/01/02"), base)`. -/
def filename (d : Time) (base : GoString) : GoString :=
  Sprintf "rates/%v/%v/export.json.gz".toList [d.Format "2006/01/02".toList, base]

/-- The source URI of the load job: `fmt.Sprintf("gs://%v/rates/*", bucketName)`. -/
def loadURI (cfg : Config) : GoString :=
  Sprintf "gs://%v/rates/*".toList [cfg.bucketName]

/-- The dates of the window in loop order: one per `i` with `0 ≤ i < delta`. -/
def windowDates (cfg : Config) : List Time :=
  (List.range cfg.delta.toNat).map (dateAt cfg)

/-- The work units in launch order: for each `i`, one per base. -/
def workUnits (cfg : Config) : List (Time × GoString) :=
  (List.range cfg.delta.toNat).flatMap fun i => cfg.bases.map fun b => (dateAt cfg i, b)

/-- The destination paths in launch order. -/
def destinationPaths (cfg : Config) : List GoString :=
  (workUnits cfg).map fun u => filename u.1 u.2

/-- The collaborators of a run: the network (and map range order) behind `Fetch`, and
whether a storage write and the load job come back without ending the process. -/
structure Env where
  net : Net
  storeOk : GoString → GoString → Bool
  loadOk : GoString → Bool

/-- What a run does, in the order it does it. The index `i` is the iteration of the
window loop the work unit belongs to. -/
inductive Event where
  /-- `wg.Add(1)` and `go func(d, base, wg)` for a base of date `i`. -/
  | start (i : Nat) (base : GoString) : Event
  /-- The GET of `Fetch(d, base)` is issued. -/
  | fetch (i : Nat) (d : Time) (base : GoString) : Event
  /-- `storageClient.Store(bucketName, filename, content)`. -/
  | store (i : Nat) (filename content : GoString) : Event
  /-- `wg.Done()` of a work unit. -/
  | done (i : Nat) (base : GoString) : Event
  /-- The load job `NewJob(bqDataset, bqTable, uri, schema).Do()`. -/
  | load (uri : GoString) : Event
  /-- `log.Fatalln`: the process ends. -/
  | fatal (e : Option Fatal) : Event
deriving DecidableEq, Repr

/-- Where a goroutine of the fan-out stands. -/
inductive TaskPC where
  | fetching : TaskPC
  | storing (content : GoString) : TaskPC
  | finishing : TaskPC
deriving DecidableEq, Repr

/-- A live goroutine `func(d, base, wg)`. -/
structure Task where
  i : Nat
  d : Time
  base : GoString
  pc : TaskPC
deriving DecidableEq, Repr

/-- Where the main goroutine stands. -/
inductive MainPC where
  /-- In `for _, base := range bases` of iteration `i`, with `rest` still to launch. -/
  | launching (i : Nat) (rest : List GoString) : MainPC
  /-- At `wg.Wait()` of iteration `i`. -/
  | waiting (i : Nat) : MainPC
  /-- The window loop is over; the load job is next. -/
  | loading : MainPC
  /-- The function `main` has returned. -/
  | finished : MainPC
  /-- The process was ended by `log.Fatalln`. -/
  | exited : MainPC
deriving DecidableEq, Repr

/-- State of a run. -/
structure Sched where
  pc : MainPC
  wg : Nat
  tasks : List Task
  trace : List Event
deriving DecidableEq, Repr

/-- The loop head `i < delta`: enter iteration `i` or leave the loop. -/
def enterIteration (cfg : Config) (i : Nat) : MainPC :=
  if (i : Int) < cfg.delta then MainPC.launching i cfg.bases else MainPC.loading

/-- The state in which `main` starts. -/
def Sched.init (cfg : Config) : Sched :=
  ⟨enterIteration cfg 0, 0, [], []⟩

/-- One step of the main goroutine; `none` when it cannot move (blocked in `wg.Wait()`,
returned, or the process has ended). -/
def stepMain (env : Env) (cfg : Config) (st : Sched) : Option Sched :=
  match st.pc with
  | .launching i [] => some { st with pc := .waiting i }
  | .launching i (base :: rest) =>
    some { pc := .launching i rest
           wg := st.wg + 1
           tasks := st.tasks ++ [⟨i, dateAt cfg i, base, .fetching⟩]
           trace := st.trace ++ [.start i base] }
  | .waiting i =>
    if st.wg = 0 then some { st with pc := enterIteration cfg (i + 1), wg := 0 } else none
  | .loading =>
    if env.loadOk (loadURI cfg) then
      some { st with pc := .finished, trace := st.trace ++ [.load (loadURI cfg)] }
    else
      some { st with pc := .exited, trace := st.trace ++ [.load (loadURI cfg), .fatal none] }
  | .finished => none
  | .exited => none

/-- One step of a goroutine of the fan-out. -/
def stepTask (env : Env) (cfg : Config) (st : Sched) (k : Nat) : Option Sched :=
  match st.pc with
  | .finished => none
  | .exited => none
  | _ =>
    match st.tasks.get? k with
    | none => none
    | some t =>
      match t.pc with
      | .fetching =>
        match Fetch env.net cfg.appId t.d t.base with
        | .ok content =>
          some { st with tasks := st.tasks.set k { t with pc := .storing content }
                         trace := st.trace ++ [.fetch t.i t.d t.base] }
        | .error e =>
          some { st with pc := .exited
                         trace := st.trace ++ [.fetch t.i t.d t.base, .fatal (some e)] }
      | .storing content =>
        if env.storeOk (filename t.d t.base) content then
          some { st with tasks := st.tasks.set k { t with pc := .finishing }
                         trace := st.trace ++ [.store t.i (filename t.d t.base) content] }
        else
          some { st with pc := .exited
                         trace := st.trace ++ [.store t.i (filename t.d t.base) content,
                                              .fatal none] }
      | .finishing =>
        some { st with wg := st.wg - 1
                       tasks := st.tasks.eraseIdx k
                       trace := st.trace ++ [.done t.i t.base] }

/-- Which goroutine the Go scheduler runs next. -/
inductive Turn where
  | main : Turn
  | task (k : Nat) : Turn
deriving DecidableEq, Repr

/-- One step of the run. -/
def step (env : Env) (cfg : Config) (st : Sched) : Turn → Option Sched
  | .main => stepMain env cfg st
  | .task k => stepTask env cfg st k

/-- The state after a schedule, from `st`; `none` when the schedule asks a goroutine that
cannot move. -/
def runFrom (env : Env) (cfg : Config) (st : Sched) : List Turn → Option Sched
  | [] => some st
  | t :: ts =>
    match step env cfg st t with
    | none => none
    | some st' => runFrom env cfg st' ts

/-- The state after a schedule, from the start of `main`. -/
def run (env : Env) (cfg : Config) (turns : List Turn) : Option Sched :=
  runFrom env cfg (Sched.init cfg) turns

/-- The iteration of the window loop an event belongs to. -/
def Event.iteration : Event → Option Nat
  | .start i _ => some i
  | .fetch i _ _ => some i
  | .store i _ _ => some i
  | .done i _ => some i
  | .load _ => none
  | .fatal _ => none

/-- Is the event a GET. -/
def Event.isFetch : Event → Bool
  | .fetch _ _ _ => true
  | _ => false

/-- Is the event a storage write. -/
def Event.isStore : Event → Bool
  | .store _ _ _ => true
  | _ => false

/-- Is the event a load job. -/
def Event.isLoad : Event → Bool
  | .load _ => true
  | _ => false

/-- Is the event the launch of a work unit of iteration `i`. -/
def Event.isStartOf (i : Nat) : Event → Bool
  | .start i' _ => i' = i
  | _ => false

/-- Is the event the `wg.Done()` of a work unit of iteration `i`. -/
def Event.isDoneOf (i : Nat) : Event → Bool
  | .done i' _ => i' = i
  | _ => false

/-! ## Invariant of a run -/

/-- Has the goroutine its GET still before it. -/
def Task.pendingFetch (t : Task) : Nat :=
  match t.pc with
  | .fetching => 1
  | _ => 0

/-- Has the goroutine its storage write still before it. -/
def Task.pendingStore (t : Task) : Nat :=
  match t.pc with
  | .fetching => 1
  | .storing _ => 1
  | .finishing => 0

/-- The iterations of the events of a trace, in order. -/
def iterations (tr : List Event) : List Nat := tr.filterMap Event.iteration

/-- The work units launched in a trace, in launch order: iteration and base. -/
def launches (tr : List Event) : List (Nat × GoString) :=
  tr.filterMap fun e =>
    match e with
    | .start i b => some (i, b)
    | _ => none

/-- The work units launched when iteration `i` has launched its first `j` bases: all of
the earlier iterations, then `j` of this one. -/
def launchedUnits (cfg : Config) (i j : Nat) : List (Nat × GoString) :=
  ((List.range i).flatMap fun i' => cfg.bases.map fun b => (i', b))
    ++ (cfg.bases.take j).map fun b => (i, b)

/-- The paths of the storage writes of a trace, in order. -/
def storePaths (tr : List Event) : List GoString :=
  tr.filterMap fun e =>
    match e with
    | .store _ path _ => some path
    | _ => none

/-- The path a live goroutine has still to write, if it has not written yet. -/
def Task.pendingPath (t : Task) : Option GoString :=
  match t.pc with
  | .finishing => none
  | _ => some (filename t.d t.base)

/-- The paths the live goroutines have still to write. -/
def pendingPaths (tasks : List Task) : List GoString := tasks.filterMap Task.pendingPath

/-- The destination path of a launched work unit. -/
def unitPath (cfg : Config) (u : Nat × GoString) : GoString := filename (dateAt cfg u.1) u.2

/-- Every launch of a work unit of iteration `i + 1` comes after the launch and the
`wg.Done()` of all `m` work units of iteration `i`. -/
def Barrier (m : Nat) (tr : List Event) : Prop :=
  ∀ (pre post : List Event) (i : Nat) (b : GoString),
    tr = pre ++ Event.start (i + 1) b :: post →
      pre.countP (Event.isStartOf i) = m ∧ pre.countP (Event.isDoneOf i) = m

/-- The bookkeeping of iteration `i` after `j` of its work units were launched. -/
structure Running (cfg : Config) (st : Sched) (i j : Nat) : Prop where
  counter : st.wg = st.tasks.length
  current : ∀ t ∈ st.tasks, t.i = i
  past : ∀ k ∈ iterations st.trace, k ≤ i
  started : st.trace.countP (Event.isStartOf i) = j
  finishedUnits : st.trace.countP (Event.isDoneOf i) + st.tasks.length = j
  earlier : ∀ i', i' < i → st.trace.countP (Event.isStartOf i') = cfg.bases.length ∧
    st.trace.countP (Event.isDoneOf i') = cfg.bases.length
  fetches : st.trace.countP Event.isFetch + (st.tasks.map Task.pendingFetch).sum
    = i * cfg.bases.length + j
  stores : st.trace.countP Event.isStore + (st.tasks.map Task.pendingStore).sum
    = i * cfg.bases.length + j
  noLoad : st.trace.countP Event.isLoad = 0
  inWindow : (i : Int) < cfg.delta
  launched : launches st.trace = launchedUnits cfg i j
  dates : ∀ t ∈ st.tasks, t.d = dateAt cfg t.i ∧ t.base ∈ cfg.bases
  written : List.Perm (storePaths st.trace ++ pendingPaths st.tasks)
    ((launchedUnits cfg i j).map (unitPath cfg))

/-- What holds of a state according to where the main goroutine stands. -/
def Live (cfg : Config) (st : Sched) : Prop :=
  match st.pc with
  | .launching i rest =>
    rest.length ≤ cfg.bases.length ∧
    cfg.bases.drop (cfg.bases.length - rest.length) = rest ∧
    Running cfg st i (cfg.bases.length - rest.length)
  | .waiting i => Running cfg st i cfg.bases.length
  | .loading =>
    st.tasks = [] ∧
    st.trace.countP Event.isFetch = cfg.delta.toNat * cfg.bases.length ∧
    st.trace.countP Event.isStore = cfg.delta.toNat * cfg.bases.length ∧
    st.trace.countP Event.isLoad = 0 ∧
    launches st.trace = launchedUnits cfg cfg.delta.toNat 0 ∧
    List.Perm (storePaths st.trace) ((launchedUnits cfg cfg.delta.toNat 0).map (unitPath cfg))
  | .finished =>
    st.tasks = [] ∧
    st.trace.countP Event.isFetch = cfg.delta.toNat * cfg.bases.length ∧
    st.trace.countP Event.isStore = cfg.delta.toNat * cfg.bases.length ∧
    st.trace.countP Event.isLoad = 1 ∧
    st.trace.getLast? = some (Event.load (loadURI cfg)) ∧
    launches st.trace = launchedUnits cfg cfg.delta.toNat 0 ∧
    List.Perm (storePaths st.trace) ((launchedUnits cfg cfg.delta.toNat 0).map (unitPath cfg))
  | .exited => True

/-- The invariant of a run. -/
structure Inv (cfg : Config) (st : Sched) : Prop where
  inflight : st.tasks.length ≤ cfg.bases.length
  sameDate : ∀ t ∈ st.tasks, ∀ t' ∈ st.tasks, t.i = t'.i
  ordered : List.Pairwise (fun a b => a ≤ b) (iterations st.trace)
  barrier : Barrier cfg.bases.length st.trace
  live : Live cfg st

/-! ## Progress of a run -/

/-- No step of a run over the window fails: the GET of every work unit of the window gives
a payload, every storage write comes back, and so does the load job. -/
def NoFailure (env : Env) (cfg : Config) : Prop :=
  (∀ (i : Nat) (b : GoString), (i : Int) < cfg.delta → b ∈ cfg.bases →
    ∃ content, Fetch env.net cfg.appId (dateAt cfg i) b = .ok content) ∧
  (∀ path content, env.storeOk path content = true) ∧
  env.loadOk (loadURI cfg) = true

/-- The steps a goroutine of the fan-out has before it: GET, storage write, `wg.Done()`. -/
def Task.stepsLeft (t : Task) : Nat :=
  match t.pc with
  | .fetching => 3
  | .storing _ => 2
  | .finishing => 1

/-- The steps of an iteration of the window loop with `m` bases: `m` launches, the end of
the inner loop, three steps of each work unit, and the return of `wg.Wait()`. -/
def stepsPerDate (m : Nat) : Nat := 4 * m + 2

/-- The steps the main goroutine and the work units it has yet to launch have before
them. -/
def MainPC.stepsLeft (cfg : Config) : MainPC → Nat
  | .launching i rest =>
    4 * rest.length + 2 + (cfg.delta.toNat - (i + 1)) * stepsPerDate cfg.bases.length + 1
  | .waiting i => 1 + (cfg.delta.toNat - (i + 1)) * stepsPerDate cfg.bases.length + 1
  | .loading => 1
  | .finished => 0
  | .exited => 0

/-- The steps a run in which nothing fails has before it in state `st`. -/
def stepsLeft (cfg : Config) (st : Sched) : Nat :=
  (st.tasks.map Task.stepsLeft).sum + st.pc.stepsLeft cfg

/-- The number of steps of a complete run: `delta` iterations and the load job. -/
def runLength (cfg : Config) : Nat :=
  cfg.delta.toNat * stepsPerDate cfg.bases.length + 1

/-! ## Scenarios of the specification -/

/-- The body `{"base":"USD","timestamp":1,"rates":{"EUR":0.5}}`. -/
def scenarioBody : Body :=
  .json (.obj [("base".toList, .str "USD".toList),
               ("timestamp".toList, .num ⟨false, ['1'], [], none⟩),
               ("rates".toList, .obj [("EUR".toList, .num ⟨false, ['0'], ['5'], none⟩)])])

/-- The error document the provider serves for an unknown application id:
`{"error":true,"status":401,"message":"invalid_app_id","description":"Invalid App ID"}`. -/
def errorBody : Body :=
  .json (.obj [("error".toList, .bool true),
               ("status".toList, .num ⟨false, "401".toList, [], none⟩),
               ("message".toList, .str "invalid_app_id".toList),
               ("description".toList, .str "Invalid App ID".toList)])

/-- A network that serves the same body for every URL; maps are ranged over as listed. -/
def constNet (b : Body) : Net := ⟨fun _ => Response.body b, fun _ => RangeOrder.id⟩

/-- The scenario `from = 2024-03-10`, `delta = 2`, `bases = ["USD","EUR"]`. -/
def scenarioConfig : Config :=
  ⟨Time.ofCivil ⟨2024, 3, 10⟩, 2, ["USD".toList, "EUR".toList], "bucket".toList, "app".toList⟩

/-- The same with `delta = 0`. -/
def emptyWindowConfig : Config :=
  ⟨Time.ofCivil ⟨2024, 3, 10⟩, 0, ["USD".toList, "EUR".toList], "bucket".toList, "app".toList⟩

/-- Collaborators that never fail, serving `b` for every URL. -/
def constEnv (b : Body) : Env := ⟨constNet b, fun _ _ => true, fun _ => true⟩

/-- The payload of the scenario body for a date written `day`. -/
def scenarioPayload (day : GoString) : GoString :=
  "\x7b\"date\":\"".toList ++ day
    ++ "\",\"base\":\"USD\",\"currency\":\"EUR\",".toList
    ++ "\"units_per_currency\":2,\"currencies_per_unit\":0.5\x7d".toList

/-- A schedule of the scenario in which the work units of a date overlap. -/
def scenarioSchedule : List Turn :=
  [.main, .task 0, .main, .task 1, .task 1, .main, .task 0, .task 1, .task 0, .main,
   .main, .main, .main, .task 1, .task 0, .task 0, .task 0, .task 0, .task 0, .main, .main]

/-- The state the scenario is in after the first fifteen turns of `scenarioSchedule`: the
two work units of 2024-03-10 have written and finished, `wg.Wait()` has returned, and both
work units of 2024-03-09 are in flight, each with its payload fetched. -/
def scenarioSecondDate : Sched :=
  { pc := .waiting 1
    wg := 2
    tasks := [⟨1, Time.ofCivil ⟨2024, 3, 9⟩, "USD".toList,
                .storing (scenarioPayload "2024-03-09".toList)⟩,
              ⟨1, Time.ofCivil ⟨2024, 3, 9⟩, "EUR".toList,
                .storing (scenarioPayload "2024-03-09".toList)⟩]
    trace := [.start 0 "USD".toList,
              .fetch 0 (Time.ofCivil ⟨2024, 3, 10⟩) "USD".toList,
              .start 0 "EUR".toList,
              .fetch 0 (Time.ofCivil ⟨2024, 3, 10⟩) "EUR".toList,
              .store 0 "rates/2024/03/10/EUR/export.json.gz".toList
                (scenarioPayload "2024-03-10".toList),
              .store 0 "rates/2024/03/10/USD/export.json.gz".toList
                (scenarioPayload "2024-03-10".toList),
              .done 0 "EUR".toList,
              .done 0 "USD".toList,
              .start 1 "USD".toList,
              .start 1 "EUR".toList,
              .fetch 1 (Time.ofCivil ⟨2024, 3, 9⟩) "EUR".toList,
              .fetch 1 (Time.ofCivil ⟨2024, 3, 9⟩) "USD".toList] }

/-- The state in which `scenarioSchedule` ends. -/
def scenarioFinal : Sched :=
  { pc := .finished
    wg := 0
    tasks := []
    trace := [.start 0 "USD".toList,
              .fetch 0 (Time.ofCivil ⟨2024, 3, 10⟩) "USD".toList,
              .start 0 "EUR".toList,
              .fetch 0 (Time.ofCivil ⟨2024, 3, 10⟩) "EUR".toList,
              .store 0 "rates/2024/03/10/EUR/export.json.gz".toList
                (scenarioPayload "2024-03-10".toList),
              .store 0 "rates/2024/03/10/USD/export.json.gz".toList
                (scenarioPayload "2024-03-10".toList),
              .done 0 "EUR".toList,
              .done 0 "USD".toList,
              .start 1 "USD".toList,
              .start 1 "EUR".toList,
              .fetch 1 (Time.ofCivil ⟨2024, 3, 9⟩) "EUR".toList,
              .fetch 1 (Time.ofCivil ⟨2024, 3, 9⟩) "USD".toList,
              .store 1 "rates/2024/03/09/USD/export.json.gz".toList
                (scenarioPayload "2024-03-09".toList),
              .done 1 "USD".toList,
              .store 1 "rates/2024/03/09/EUR/export.json.gz".toList
                (scenarioPayload "2024-03-09".toList),
              .done 1 "EUR".toList,
              .load "gs://bucket/rates/*".toList] }

/-! # Theorems -/

/-! ## The rate record model -/

theorem set_length_append {α : Type} (done : List α) (x y : α) (tl : List α) :
    (done ++ x :: tl).set done.length y = done ++ y :: tl := by
  induction done with
  | nil => rfl
  | cons a done ih => simp [List.set, ih]

/-- Loop invariant of `ExchangeRates`: after the entries `l`, the slots after `done` hold
the records of `l`, the `k` slots behind them are still nil. -/
theorem ExchangeRates_loop (d : Time) (base : GoString) (l : List (GoString × Float64)) :
    ∀ (done : List (Option ExchangeRate)) (k : Nat),
      l.foldl (ExchangeRates.body d base)
          ⟨done ++ List.replicate (l.length + k) none, done.length⟩
        = ⟨done ++ l.map (fun e => some
              (NewExchangeRate d base e.1 (Float64.div Float64.one e.2) e.2))
            ++ List.replicate k none, done.length + l.length⟩ := by
  induction l with
  | nil => intro done k; simp
  | cons e l ih =>
    intro done k
    have h : (e :: l).length + k = (l.length + k) + 1 := by simp; omega
    rw [List.foldl_cons, h, List.replicate_succ]
    have hb : ExchangeRates.body d base
        ⟨done ++ none :: List.replicate (l.length + k) none, done.length⟩ e
        = ⟨(done ++ [some (NewExchangeRate d base e.1 (Float64.div Float64.one e.2) e.2)])
            ++ List.replicate (l.length + k) none,
            (done ++ [some (NewExchangeRate d base e.1
              (Float64.div Float64.one e.2) e.2)]).length⟩ := by
      simp [ExchangeRates.body, set_length_append]
    rw [hb, ih]
    simp
    omega

/-- The slice `ExchangeRates` returns holds, in range order, one record per map entry. -/
theorem ExchangeRates_eq (ord : RangeOrder) (r : OpenExchangeRateResponse) (d : Time) :
    r.ExchangeRates ord d = (ord.visit r.Rates).map (fun e => some
      (NewExchangeRate d r.Base e.1 (Float64.div Float64.one e.2) e.2)) := by
  have hlen : r.Rates.length = (ord.visit r.Rates).length + 0 := by
    simp [(ord.perm r.Rates).length_eq]
  have h := ExchangeRates_loop d r.Base (ord.visit r.Rates) [] 0
  simp only [List.nil_append, List.length_nil, Nat.zero_add, List.replicate_zero,
    List.append_nil] at h
  unfold OpenExchangeRateResponse.ExchangeRates
  rw [hlen, h]

theorem Format_dash (t : Time) :
    t.Format "2006-01-02".toList
      = appendInt t.Date.year 4 ++ '-' :: (appendInt t.Date.month 2
          ++ '-' :: appendInt t.Date.day 2) := by
  simp [Time.Format]

theorem Format_slash (t : Time) :
    t.Format "2006/01/02".toList
      = appendInt t.Date.year 4 ++ '/' :: (appendInt t.Date.month 2
          ++ '/' :: appendInt t.Date.day 2) := by
  simp [Time.Format]

/-- C1: for every snapshot and date `d`, `ExchangeRates(d)` returns exactly `len(rates)`
slots, none of them nil, and up to order they are the records
`{date = d, StringDate = YYYY-MM-DD of d, Base = snapshot base, Currency = c,
CurrenciesPerUnit = r, UnitsPerCurrency = 1/r}`, one per entry `(c, r)` of the map,
whatever order the map is ranged over (nonzero rates included). -/
theorem ExchangeRates_records (ord : RangeOrder) (r : OpenExchangeRateResponse) (d : Time) :
    (r.ExchangeRates ord d).length = r.Rates.length ∧
    List.Perm (r.ExchangeRates ord d)
      (r.Rates.map fun e => some
        { date := d
          StringDate := appendInt d.Date.year 4 ++ '-' :: (appendInt d.Date.month 2
            ++ '-' :: appendInt d.Date.day 2)
          Base := r.Base
          Currency := e.1
          UnitsPerCurrency := Float64.div Float64.one e.2
          CurrenciesPerUnit := e.2 }) := by
  rw [ExchangeRates_eq]
  refine ⟨by simp [(ord.perm r.Rates).length_eq], ?_⟩
  have h := (ord.perm r.Rates).map (fun e => some
      (NewExchangeRate d r.Base e.1 (Float64.div Float64.one e.2) e.2))
  have hrec : ∀ (b c : GoString) (upc cpu : Float64), NewExchangeRate d b c upc cpu =
      { date := d
        StringDate := appendInt d.Date.year 4 ++ '-' :: (appendInt d.Date.month 2
          ++ '-' :: appendInt d.Date.day 2)
        Base := b
        Currency := c
        UnitsPerCurrency := upc
        CurrenciesPerUnit := cpu } := by
    intro b c upc cpu
    rw [NewExchangeRate, Format_dash]
  simp only [hrec] at h ⊢
  exact h

/-- C1, the scenario of the specification: base `USD`, rates `{EUR: 0.5}` on 2024-03-10
gives the single record with currency `EUR`, `units_per_currency` 2.0 and
`currencies_per_unit` 0.5. -/
theorem ExchangeRates_records_witness :
    (OpenExchangeRateResponse.ExchangeRates RangeOrder.id
        ⟨"USD".toList, 1, [("EUR".toList, Float64.fin false (2 ^ 52) (-53))]⟩
        (Time.ofCivil ⟨2024, 3, 10⟩)).length = 1 ∧
    List.Perm
      (OpenExchangeRateResponse.ExchangeRates RangeOrder.id
        ⟨"USD".toList, 1, [("EUR".toList, Float64.fin false (2 ^ 52) (-53))]⟩
        (Time.ofCivil ⟨2024, 3, 10⟩))
      [some { date := Time.ofCivil ⟨2024, 3, 10⟩
              StringDate := "2024-03-10".toList
              Base := "USD".toList
              Currency := "EUR".toList
              UnitsPerCurrency := Float64.fin false (2 ^ 52) (-51)
              CurrenciesPerUnit := Float64.fin false (2 ^ 52) (-53) }] :=
  ExchangeRates_records RangeOrder.id
    ⟨"USD".toList, 1, [("EUR".toList, Float64.fin false (2 ^ 52) (-53))]⟩
    (Time.ofCivil ⟨2024, 3, 10⟩)

/-! ## Serialisation failures -/

theorem marshalFloat_error {x : Float64} {e : Fatal} (h : marshalFloat x = .error e) :
    e = Fatal.unsupportedValue := by
  unfold marshalFloat at h
  split at h
  · cases h
  · cases h; rfl

theorem marshal_error {er : ExchangeRate} {e : Fatal} (h : er.marshal = .error e) :
    e = Fatal.unsupportedValue := by
  unfold ExchangeRate.marshal at h
  cases h1 : marshalFloat er.UnitsPerCurrency with
  | error e1 =>
    rw [h1] at h
    have := marshalFloat_error h1
    cases h; exact this
  | ok v1 =>
    cases h2 : marshalFloat er.CurrenciesPerUnit with
    | error e2 =>
      rw [h1, h2] at h
      have := marshalFloat_error h2
      cases h; exact this
    | ok v2 =>
      rw [h1, h2] at h
      cases h

theorem JSONOf_error {x : Option ExchangeRate} {e : Fatal} (h : JSONOf x = .error e) :
    e = Fatal.unsupportedValue := by
  cases x with
  | none => cases h
  | some er =>
    simp only [JSONOf, ExchangeRate.JSON] at h
    cases hm : er.marshal with
    | error e1 =>
      rw [hm] at h
      have := marshal_error hm
      cases h; exact this
    | ok v => rw [hm] at h; cases h

theorem marshal_not_finite {er : ExchangeRate}
    (h : er.UnitsPerCurrency.isFinite = false ∨ er.CurrenciesPerUnit.isFinite = false) :
    er.marshal = .error Fatal.unsupportedValue := by
  unfold ExchangeRate.marshal marshalFloat
  rcases h with h | h
  · simp [h]; rfl
  · cases h1 : er.UnitsPerCurrency.isFinite <;> simp [h] <;> rfl

theorem jsonAll_error {ers : List (Option ExchangeRate)} {e : Fatal}
    (h : jsonAll ers = .error e) : e = Fatal.unsupportedValue := by
  induction ers with
  | nil => cases h
  | cons x rest ih =>
    unfold jsonAll at h
    cases hx : JSONOf x with
    | error e1 =>
      rw [hx] at h
      have := JSONOf_error hx
      cases h; exact this
    | ok bs =>
      rw [hx] at h
      cases hr : jsonAll rest with
      | error e2 => rw [hr] at h; cases h; exact ih hr
      | ok more => rw [hr] at h; cases h

/-- A record that cannot be marshalled ends the serialisation loop of `Fetch`. -/
theorem jsonAll_of_mem_not_finite {ers : List (Option ExchangeRate)} {er : ExchangeRate}
    (hmem : some er ∈ ers)
    (h : er.UnitsPerCurrency.isFinite = false ∨ er.CurrenciesPerUnit.isFinite = false) :
    jsonAll ers = .error Fatal.unsupportedValue := by
  induction ers with
  | nil => cases hmem
  | cons x rest ih =>
    unfold jsonAll
    cases hx : JSONOf x with
    | error e1 => rw [JSONOf_error hx]
    | ok bs =>
      rcases List.mem_cons.1 hmem with hx' | hx'
      · subst hx'
        simp only [JSONOf, ExchangeRate.JSON, marshal_not_finite h] at hx
        cases hx
      · simp only [ih hx']

theorem div_one_zero (neg : Bool) (e : Int) :
    Float64.div Float64.one (Float64.fin neg 0 e) = Float64.inf neg := by
  cases neg <;> simp [Float64.div, Float64.one]

/-- C2, refuted as stated: for base `USD` with the single rate `EUR: 0`, `ExchangeRates`
returns a batch, and the batch holds a record for the zero rate, whose
`UnitsPerCurrency` is `+Inf`. -/
theorem ExchangeRates_zero_rate_returns_batch :
    OpenExchangeRateResponse.ExchangeRates RangeOrder.id
        ⟨"USD".toList, 1, [("EUR".toList, Float64.zero false)]⟩ (Time.ofCivil ⟨2024, 3, 10⟩)
      = [some { date := Time.ofCivil ⟨2024, 3, 10⟩
                StringDate := "2024-03-10".toList
                Base := "USD".toList
                Currency := "EUR".toList
                UnitsPerCurrency := Float64.inf false
                CurrenciesPerUnit := Float64.zero false }] := by
  decide

/-- C2, amended: a zero rate does not make `ExchangeRates` fail. The call returns all
`len(rates)` records, the record of a currency whose rate is `±0` carries
`UnitsPerCurrency = ±Inf`; the zero rate surfaces in `Fetch`, whose `JSON()` of that
record ends the process (`json.Marshal` rejects the infinite value), so that `Fetch`
returns no payload. -/
theorem zero_rate_surfaces_in_Fetch (net : Net) (appId : GoString) (d : Time)
    (base : GoString) (bs : Body) (r : OpenExchangeRateResponse) (c : GoString)
    (neg : Bool) (e : Int)
    (hget : net.get (fetchURL appId d base) = Response.body bs)
    (hdec : OpenExchangeRateResponse.Unmarshal bs = .ok r)
    (hzero : (c, Float64.fin neg 0 e) ∈ r.Rates) :
    (r.ExchangeRates (net.order (fetchURL appId d base)) d).length = r.Rates.length ∧
    some (NewExchangeRate d r.Base c (Float64.inf neg) (Float64.fin neg 0 e))
      ∈ r.ExchangeRates (net.order (fetchURL appId d base)) d ∧
    Fetch net appId d base = .error Fatal.unsupportedValue := by
  have hmem : some (NewExchangeRate d r.Base c (Float64.inf neg) (Float64.fin neg 0 e))
      ∈ r.ExchangeRates (net.order (fetchURL appId d base)) d := by
    rw [ExchangeRates_eq]
    refine List.mem_map.2 ⟨(c, Float64.fin neg 0 e), ?_, ?_⟩
    · exact ((net.order (fetchURL appId d base)).perm r.Rates).mem_iff.2 hzero
    · simp [div_one_zero]
  refine ⟨?_, hmem, ?_⟩
  · rw [ExchangeRates_eq]
    simp [((net.order (fetchURL appId d base)).perm r.Rates).length_eq]
  · unfold Fetch fetchRecords
    rw [hget]
    simp only [hdec]
    rw [jsonAll_of_mem_not_finite hmem (Or.inl rfl)]

/-- C2, amended, at the body `{"base":"USD","rates":{"EUR":0}}` served for every URL. -/
theorem zero_rate_surfaces_in_Fetch_witness :
    (OpenExchangeRateResponse.ExchangeRates RangeOrder.id
        ⟨"USD".toList, 0, [("EUR".toList, Float64.fin false 0 (-1074))]⟩
        (Time.ofCivil ⟨2024, 3, 10⟩)).length = 1 ∧
    some (NewExchangeRate (Time.ofCivil ⟨2024, 3, 10⟩) "USD".toList "EUR".toList
        (Float64.inf false) (Float64.fin false 0 (-1074)))
      ∈ OpenExchangeRateResponse.ExchangeRates RangeOrder.id
          ⟨"USD".toList, 0, [("EUR".toList, Float64.fin false 0 (-1074))]⟩
          (Time.ofCivil ⟨2024, 3, 10⟩) ∧
    Fetch ⟨fun _ => Response.body (Body.json (JVal.obj
              [("base".toList, JVal.str "USD".toList),
               ("rates".toList, JVal.obj
                 [("EUR".toList, JVal.num ⟨false, ['0'], [], none⟩)])])),
            fun _ => RangeOrder.id⟩
        "app".toList (Time.ofCivil ⟨2024, 3, 10⟩) "USD".toList
      = .error Fatal.unsupportedValue :=
  zero_rate_surfaces_in_Fetch
    ⟨fun _ => Response.body (Body.json (JVal.obj
        [("base".toList, JVal.str "USD".toList),
         ("rates".toList, JVal.obj [("EUR".toList, JVal.num ⟨false, ['0'], [], none⟩)])])),
      fun _ => RangeOrder.id⟩
    "app".toList (Time.ofCivil ⟨2024, 3, 10⟩) "USD".toList _
    ⟨"USD".toList, 0, [("EUR".toList, Float64.fin false 0 (-1074))]⟩ "EUR".toList false (-1074)
    rfl rfl (by decide)

/-! ## Calendar -/

theorem civilFromDays_month (z : Int) :
    1 ≤ (civilFromDays z).month ∧ (civilFromDays z).month ≤ 12 := by
  simp only [civilFromDays]
  split <;> omega

theorem civilFromDays_day (z : Int) :
    1 ≤ (civilFromDays z).day ∧ (civilFromDays z).day ≤ 31 := by
  simp only [civilFromDays]
  omega

/-- `daysFromCivil` undoes `civilFromDays`. -/
theorem daysFromCivil_civilFromDays (z : Int) : daysFromCivil (civilFromDays z) = z := by
  simp only [civilFromDays, daysFromCivil]
  generalize hz1 : z + 719468 = z1
  generalize hera : z1 / 146097 = era
  generalize hdoe : z1 % 146097 = doe
  have hdoe0 : 0 ≤ doe ∧ doe ≤ 146096 := by omega
  generalize hc : min (doe / 36524) 3 = c
  have hc0 : 0 ≤ c ∧ c ≤ 3 := by omega
  generalize hd1 : doe - 36524 * c = d1
  have hd10 : 0 ≤ d1 ∧ d1 ≤ 36524 := by omega
  generalize hq : d1 / 1461 = q
  have hq0 : 0 ≤ q ∧ q ≤ 24 := by omega
  generalize hd2 : d1 - 1461 * q = d2
  have hd20 : 0 ≤ d2 ∧ d2 ≤ 1460 := by omega
  generalize ha : min (d2 / 365) 3 = a
  have ha0 : 0 ≤ a ∧ a ≤ 3 := by omega
  generalize hdoy : d2 - 365 * a = doy
  have hdoy0 : 0 ≤ doy ∧ doy ≤ 365 := by omega
  generalize hmp : (5 * doy + 2) / 153 = mp
  have hmp0 : 0 ≤ mp ∧ mp ≤ 11 := by omega
  generalize hd : doy - (153 * mp + 2) / 5 + 1 = d
  have hd0 : 1 ≤ d ∧ d ≤ 31 := by omega
  have hz : z = era * 146097 + doe - 719468 := by omega
  by_cases hm : mp < 10
  · have h1 : ¬ ((mp + 3).toNat ≤ 2) := by omega
    have h2 : (mp + 3).toNat > 2 := by omega
    have h3 : ¬ (mp + 3 ≤ 2) := by omega
    simp only [hm, h1, h2, h3, if_true, if_false]
    have e1 : (100 * c + 4 * q + a + era * 400) / 400 = era := by omega
    have e2 : (100 * c + 4 * q + a + era * 400) % 400 = 100 * c + 4 * q + a := by omega
    rw [e1, e2]
    have e3 : (100 * c + 4 * q + a) / 4 = 25 * c + q := by omega
    have e4 : (100 * c + 4 * q + a) / 100 = c := by omega
    have e5 : (((mp + 3).toNat : Int)) = mp + 3 := by omega
    have e6 : ((d.toNat : Int)) = d := by omega
    rw [e3, e4, e5, e6]
    omega
  · have h1 : (mp - 9).toNat ≤ 2 := by omega
    have h2 : ¬ ((mp - 9).toNat > 2) := by omega
    have h3 : mp - 9 ≤ 2 := by omega
    simp only [hm, h1, h2, h3, if_true, if_false]
    have e1 : (100 * c + 4 * q + a + era * 400 + 1 - 1) / 400 = era := by omega
    have e2 : (100 * c + 4 * q + a + era * 400 + 1 - 1) % 400 = 100 * c + 4 * q + a := by
      omega
    rw [e1, e2]
    have e3 : (100 * c + 4 * q + a) / 4 = 25 * c + q := by omega
    have e4 : (100 * c + 4 * q + a) / 100 = c := by omega
    have e5 : (((mp - 9).toNat : Int)) = mp - 9 := by omega
    have e6 : ((d.toNat : Int)) = d := by omega
    rw [e3, e4, e5, e6]
    omega

theorem civilFromDays_injective {z z' : Int} (h : civilFromDays z = civilFromDays z') :
    z = z' := by
  have := congrArg daysFromCivil h
  simpa [daysFromCivil_civilFromDays] using this

/-! ## Decimal digits -/

theorem digitChar_toNat (n : Nat) : (digitChar n).toNat = 48 + n % 10 := by
  have h : n % 10 < 10 := Nat.mod_lt _ (by decide)
  unfold digitChar
  generalize n % 10 = r at h
  interval_cases r <;> rfl

theorem digitChar_mod (n : Nat) : digitChar (n % 10) = digitChar n := by
  simp [digitChar]

theorem natDigitsAux_fuel : ∀ (f f' u : Nat), u < f → u < f' →
    natDigitsAux f u = natDigitsAux f' u := by
  intro f
  induction f with
  | zero => intro f' u h; omega
  | succ k ih =>
    intro f' u h h'
    obtain ⟨k', rfl⟩ : ∃ k', f' = k' + 1 := ⟨f' - 1, by omega⟩
    simp only [natDigitsAux]
    by_cases hu : u < 10
    · simp [hu]
    · simp only [hu, if_false]
      rw [ih k' (u / 10) (by omega) (by omega)]

theorem natDigits_lt {u : Nat} (h : u < 10) : natDigits u = [digitChar u] := by
  simp [natDigits, natDigitsAux, h]

theorem natDigits_ge {u : Nat} (h : 10 ≤ u) :
    natDigits u = natDigits (u / 10) ++ [digitChar u] := by
  have hu : ¬ u < 10 := by omega
  unfold natDigits
  rw [natDigitsAux, if_neg hu]
  rw [natDigitsAux_fuel u (u / 10 + 1) (u / 10) (by omega) (by omega)]

theorem digitsVal_append (l : GoString) (c : Char) :
    digitsVal (l ++ [c]) = 10 * digitsVal l + (c.toNat - 48) := by
  simp [digitsVal, List.foldl_append]

theorem digitsVal_natDigits (u : Nat) : digitsVal (natDigits u) = u := by
  induction u using Nat.strong_induction_on with
  | _ u ih =>
    by_cases h : u < 10
    · rw [natDigits_lt h]
      simp [digitsVal, digitChar_toNat]
      omega
    · rw [natDigits_ge (by omega), digitsVal_append, ih (u / 10) (by omega), digitChar_toNat]
      omega

/-- Every character of `natDigits u` is a decimal digit. -/
theorem natDigits_digit (u : Nat) : ∀ c ∈ natDigits u, 48 ≤ c.toNat ∧ c.toNat ≤ 57 := by
  induction u using Nat.strong_induction_on with
  | _ u ih =>
    intro c hc
    by_cases h : u < 10
    · rw [natDigits_lt h] at hc
      simp at hc
      subst hc
      rw [digitChar_toNat]; omega
    · rw [natDigits_ge (by omega)] at hc
      rcases List.mem_append.1 hc with hc | hc
      · exact ih (u / 10) (by omega) c hc
      · simp at hc
        subst hc
        rw [digitChar_toNat]; omega

theorem natDigits_ne_nil (u : Nat) : natDigits u ≠ [] := by
  by_cases h : u < 10
  · rw [natDigits_lt h]; simp
  · rw [natDigits_ge (by omega)]; simp

theorem natDigits_length_lt100 {u : Nat} (h : u < 100) (h10 : 10 ≤ u) :
    natDigits u = [digitChar (u / 10), digitChar u] := by
  rw [natDigits_ge h10, natDigits_lt (by omega)]
  rfl

/-- Two-digit fields: `appendInt x 2` for `0 ≤ x < 100`. -/
theorem appendInt_two (x : Nat) (h : x < 100) :
    appendInt (x : Int) 2 = [digitChar (x / 10), digitChar x] := by
  have hneg : ¬ ((x : Int) < 0) := by omega
  simp only [appendInt, hneg, if_false, Int.natAbs_ofNat]
  by_cases h10 : x < 10
  · rw [natDigits_lt h10]
    have : x / 10 = 0 := by omega
    simp [this, digitChar]
  · rw [natDigits_length_lt100 h (by omega)]
    simp

/-- Four-digit fields: `appendInt x 4` for `0 ≤ x < 10000`. -/
theorem appendInt_four (x : Nat) (h : x < 10000) :
    appendInt (x : Int) 4
      = [digitChar (x / 1000), digitChar (x / 100), digitChar (x / 10), digitChar x] := by
  have hneg : ¬ ((x : Int) < 0) := by omega
  simp only [appendInt, hneg, if_false, Int.natAbs_ofNat]
  by_cases h10 : x < 10
  · rw [natDigits_lt h10]
    have e1 : x / 10 = 0 := by omega
    have e2 : x / 100 = 0 := by omega
    have e3 : x / 1000 = 0 := by omega
    simp [e1, e2, e3, digitChar, List.replicate]
  · by_cases h100 : x < 100
    · rw [natDigits_length_lt100 h100 (by omega)]
      have e2 : x / 100 = 0 := by omega
      have e3 : x / 1000 = 0 := by omega
      simp [e2, e3, digitChar, List.replicate]
    · by_cases h1000 : x < 1000
      · rw [natDigits_ge (by omega), natDigits_length_lt100 (by omega) (by omega)]
        have e3 : x / 1000 = 0 := by omega
        have e4 : x / 10 / 10 = x / 100 := by omega
        simp [e3, e4, digitChar, List.replicate]
      · rw [natDigits_ge (by omega : 10 ≤ x), natDigits_ge (by omega : 10 ≤ x / 10),
          natDigits_ge (by omega : 10 ≤ x / 10 / 10),
          natDigits_lt (by omega : x / 10 / 10 / 10 < 10)]
        have e4 : x / 10 / 10 = x / 100 := by omega
        have e5 : x / 100 / 10 = x / 1000 := by omega
        simp [e4, e5]

/-! ## Destination path -/

theorem filename_eq (d : Time) (base : GoString) :
    filename d base =
      "rates/".toList ++ (appendInt d.Date.year 4 ++ '/' :: (appendInt d.Date.month 2
        ++ '/' :: (appendInt d.Date.day 2 ++ '/' :: (base ++ "/export.json.gz".toList)))) := by
  simp [filename, Sprintf, Time.Format]

/-- C4: for every date `d` whose year is within 0..9999 and every base `b`, the
destination path is `"rates/" ++ YYYY ++ "/" ++ MM ++ "/" ++ DD ++ "/" ++ b ++
"/export.json.gz"`, with `YYYY` the four decimal digits of the year and `MM`, `DD` the
two decimal digits of the month (1..12) and the day (1..31) of `d`, zero-padded, and `b`
copied as it is. -/
theorem filename_format (d : Time) (base : GoString)
    (h0 : 0 ≤ d.Date.year) (h9999 : d.Date.year ≤ 9999) :
    filename d base =
      "rates/".toList
        ++ [digitChar (d.Date.year.toNat / 1000), digitChar (d.Date.year.toNat / 100),
            digitChar (d.Date.year.toNat / 10), digitChar d.Date.year.toNat]
        ++ ['/'] ++ [digitChar (d.Date.month / 10), digitChar d.Date.month]
        ++ ['/'] ++ [digitChar (d.Date.day / 10), digitChar d.Date.day]
        ++ ['/'] ++ base ++ "/export.json.gz".toList
    ∧ 1 ≤ d.Date.month ∧ d.Date.month ≤ 12 ∧ 1 ≤ d.Date.day ∧ d.Date.day ≤ 31 := by
  have hm := civilFromDays_month d.dayNumber
  have hd := civilFromDays_day d.dayNumber
  refine ⟨?_, hm.1, hm.2, hd.1, hd.2⟩
  have hy : d.Date.year = ((d.Date.year.toNat : Nat) : Int) := by omega
  rw [filename_eq]
  rw [appendInt_two d.Date.month (by unfold Time.Date; omega),
    appendInt_two d.Date.day (by unfold Time.Date; omega)]
  conv_lhs => rw [hy]
  rw [appendInt_four d.Date.year.toNat (by omega)]
  simp

/-- C4 at 2024-03-10 and base `USD`: the path is `rates/2024/03/10/USD/export.json.gz`. -/
theorem filename_format_witness :
    filename (Time.ofCivil ⟨2024, 3, 10⟩) "USD".toList
      = "rates/2024/03/10/USD/export.json.gz".toList
    ∧ 1 ≤ (Time.ofCivil ⟨2024, 3, 10⟩).Date.month ∧ (Time.ofCivil ⟨2024, 3, 10⟩).Date.month ≤ 12
    ∧ 1 ≤ (Time.ofCivil ⟨2024, 3, 10⟩).Date.day ∧ (Time.ofCivil ⟨2024, 3, 10⟩).Date.day ≤ 31 :=
  filename_format (Time.ofCivil ⟨2024, 3, 10⟩) "USD".toList (by decide) (by decide)

/-! ## The window -/

theorem wrapInt64_eq (x : Int) :
    wrapInt64 x = (x + 9223372036854775808) % 18446744073709551616 - 9223372036854775808 := by
  unfold wrapInt64
  norm_num

/-- While `i` days fit an int64 of nanoseconds, the offset is `i` days back. -/
theorem windowOffset_small (i : Nat) (h : i ≤ 106751) :
    windowOffset i = - (i : Int) * nsPerDay := by
  have s1 : wrapInt64 (-1 * (i : Int)) = - (i : Int) := by rw [wrapInt64_eq]; omega
  have s2 : wrapInt64 (- (i : Int) * 24) = -24 * (i : Int) := by rw [wrapInt64_eq]; omega
  have s3 : wrapInt64 (-24 * (i : Int) * (3600000000000 : Int))
      = - (i : Int) * (86400000000000 : Int) := by rw [wrapInt64_eq]; omega
  show wrapInt64 (wrapInt64 (wrapInt64 (-1 * (i : Int)) * 24) * (3600000000000 : Int))
    = - (i : Int) * (86400000000000 : Int)
  rw [s1, s2, s3]

/-- Past that, the product wraps around: the offset points forward. -/
theorem windowOffset_wrapped (i : Nat) (h1 : 106752 ≤ i) (h2 : i ≤ 213503) :
    windowOffset i = ((213503 - i : Nat) : Int) * nsPerDay + 84873709551616 := by
  have s1 : wrapInt64 (-1 * (i : Int)) = - (i : Int) := by rw [wrapInt64_eq]; omega
  have s2 : wrapInt64 (- (i : Int) * 24) = -24 * (i : Int) := by rw [wrapInt64_eq]; omega
  have s3 : wrapInt64 (-24 * (i : Int) * (3600000000000 : Int))
      = ((213503 - i : Nat) : Int) * (86400000000000 : Int) + 84873709551616 := by
    rw [wrapInt64_eq]; omega
  show wrapInt64 (wrapInt64 (wrapInt64 (-1 * (i : Int)) * 24) * (3600000000000 : Int))
    = ((213503 - i : Nat) : Int) * (86400000000000 : Int) + 84873709551616
  rw [s1, s2, s3]

theorem dateAt_small (cfg : Config) (i : Nat) (h : i ≤ 106751) :
    dateAt cfg i = ⟨cfg.fromDate.ns - (i : Int) * nsPerDay⟩ := by
  unfold dateAt Time.Add
  rw [windowOffset_small i h]
  congr 1
  ring

theorem dayNumber_dateAt_small (cfg : Config) (i : Nat) (h : i ≤ 106751) :
    (dateAt cfg i).dayNumber = cfg.fromDate.dayNumber - i := by
  rw [dateAt_small cfg i h]
  simp only [Time.dayNumber, nsPerDay]
  omega

theorem dayNumber_dateAt_wrapped (cfg : Config) (i : Nat) (h1 : 106752 ≤ i) (h2 : i ≤ 213503)
    (hmid : cfg.fromDate.ns % nsPerDay = 0) :
    (dateAt cfg i).dayNumber = cfg.fromDate.dayNumber + ((213503 - i : Nat) : Int) := by
  unfold dateAt Time.Add
  rw [windowOffset_wrapped i h1 h2]
  simp only [Time.dayNumber, nsPerDay] at *
  omega

/-- Within 213503 iterations no two dates fall on the same day. -/
theorem dayNumber_dateAt_injective (cfg : Config) (hmid : cfg.fromDate.ns % nsPerDay = 0)
    (i j : Nat) (hi : i ≤ 213502) (hj : j ≤ 213502)
    (h : (dateAt cfg i).dayNumber = (dateAt cfg j).dayNumber) : i = j := by
  by_cases hi' : i ≤ 106751 <;> by_cases hj' : j ≤ 106751
  · rw [dayNumber_dateAt_small cfg i hi', dayNumber_dateAt_small cfg j hj'] at h; omega
  · rw [dayNumber_dateAt_small cfg i hi',
      dayNumber_dateAt_wrapped cfg j (by omega) (by omega) hmid] at h; omega
  · rw [dayNumber_dateAt_wrapped cfg i (by omega) (by omega) hmid,
      dayNumber_dateAt_small cfg j hj'] at h; omega
  · rw [dayNumber_dateAt_wrapped cfg i (by omega) (by omega) hmid,
      dayNumber_dateAt_wrapped cfg j (by omega) (by omega) hmid] at h; omega

/-! ## The path determines the work unit -/

theorem split_at_separator (c : Char) : ∀ (a a' r r' : GoString), c ∉ a → c ∉ a' →
    a ++ c :: r = a' ++ c :: r' → a = a' ∧ r = r' := by
  intro a
  induction a with
  | nil =>
    intro a' r r' _ ha' h
    cases a' with
    | nil => simp at h; exact ⟨rfl, h⟩
    | cons x a' =>
      simp at h
      exact absurd (by simp [h.1] : c ∈ x :: a') ha'
  | cons x a ih =>
    intro a' r r' ha ha' h
    cases a' with
    | nil =>
      simp at h
      exact absurd (by simp [h.1] : c ∈ x :: a) ha
    | cons y a' =>
      simp at h
      have := ih a' r r' (fun hc => ha (List.mem_cons_of_mem _ hc))
        (fun hc => ha' (List.mem_cons_of_mem _ hc)) h.2
      exact ⟨by rw [h.1, this.1], this.2⟩

theorem digitsVal_replicate_zero (k : Nat) (ds : GoString) :
    digitsVal (List.replicate k '0' ++ ds) = digitsVal ds := by
  induction k with
  | zero => simp
  | succ k ih =>
    have : digitsVal ('0' :: (List.replicate k '0' ++ ds))
        = digitsVal (List.replicate k '0' ++ ds) := by
      simp [digitsVal]
    simpa [List.replicate_succ, ih] using this

/-- The digits `appendInt` writes after the sign. -/
theorem appendInt_body_digit (u w : Nat) :
    ∀ c ∈ List.replicate (w - (natDigits u).length) '0' ++ natDigits u,
      48 ≤ c.toNat ∧ c.toNat ≤ 57 := by
  intro c hc
  rcases List.mem_append.1 hc with hc | hc
  · rw [List.eq_of_mem_replicate hc]; decide
  · exact natDigits_digit u c hc

theorem appendInt_body_ne_nil (u w : Nat) :
    List.replicate (w - (natDigits u).length) '0' ++ natDigits u ≠ [] := by
  simp [natDigits_ne_nil]

theorem appendInt_no_slash (x : Int) (w : Nat) : '/' ∉ appendInt x w := by
  intro h
  unfold appendInt at h
  simp only [natDigits] at h
  split at h
  · rcases List.mem_cons.1 h with h | h
    · exact absurd h (by decide)
    · have := appendInt_body_digit x.natAbs w '/' h
      revert this; decide
  · have := appendInt_body_digit x.natAbs w '/' h
    revert this; decide

theorem appendInt_injective (x y : Int) (w : Nat) (h : appendInt x w = appendInt y w) :
    x = y := by
  unfold appendInt at h
  simp only at h
  have key : ∀ u v : Nat,
      List.replicate (w - (natDigits u).length) '0' ++ natDigits u
        = List.replicate (w - (natDigits v).length) '0' ++ natDigits v → u = v := by
    intro u v huv
    have := congrArg digitsVal huv
    simpa [digitsVal_replicate_zero, digitsVal_natDigits] using this
  have nohead : ∀ u v : Nat,
      '-' :: (List.replicate (w - (natDigits u).length) '0' ++ natDigits u)
        ≠ List.replicate (w - (natDigits v).length) '0' ++ natDigits v := by
    intro u v huv
    have hmem : '-' ∈ List.replicate (w - (natDigits v).length) '0' ++ natDigits v := by
      rw [← huv]; simp
    have := appendInt_body_digit v w '-' hmem
    revert this; decide
  by_cases hx : x < 0 <;> by_cases hy : y < 0
  · simp only [hx, hy, if_true] at h
    have := key _ _ (List.cons.inj h).2
    omega
  · simp only [hx, hy, if_true, if_false] at h
    exact absurd h (nohead _ _)
  · simp only [hx, hy, if_true, if_false] at h
    exact absurd h.symm (nohead _ _)
  · simp only [hx, hy, if_false] at h
    have := key _ _ h
    omega

theorem appendInt_two_length (x : Nat) (h : x < 100) : (appendInt (x : Int) 2).length = 2 := by
  rw [appendInt_two x h]; rfl

/-- The destination path determines the calendar date and the base. -/
theorem filename_injective (d d' : Time) (b b' : GoString)
    (h : filename d b = filename d' b') : d.Date = d'.Date ∧ b = b' := by
  rw [filename_eq, filename_eq] at h
  have h1 := List.append_cancel_left h
  obtain ⟨hy, h2⟩ := split_at_separator '/' _ _ _ _ (appendInt_no_slash _ _)
    (appendInt_no_slash _ _) h1
  obtain ⟨hm, h3⟩ := split_at_separator '/' _ _ _ _ (appendInt_no_slash _ _)
    (appendInt_no_slash _ _) h2
  obtain ⟨hd, h4⟩ := split_at_separator '/' _ _ _ _ (appendInt_no_slash _ _)
    (appendInt_no_slash _ _) h3
  have hb : b = b' := List.append_cancel_right h4
  have ey := appendInt_injective _ _ _ hy
  have em := appendInt_injective _ _ _ hm
  have ed := appendInt_injective _ _ _ hd
  refine ⟨?_, hb⟩
  cases hD : d.Date with
  | mk y m dd =>
    cases hD' : d'.Date with
    | mk y' m' dd' =>
      rw [hD, hD'] at ey em ed
      simp only at ey em ed
      simp only [Civil.mk.injEq]
      omega

theorem Date_eq_iff (d d' : Time) : d.Date = d'.Date ↔ d.dayNumber = d'.dayNumber :=
  ⟨fun h => civilFromDays_injective h, fun h => by unfold Time.Date; rw [h]⟩

/-! ## Work units and destination paths of a window -/

theorem workUnits_length (cfg : Config) :
    (workUnits cfg).length = cfg.delta.toNat * cfg.bases.length := by
  unfold workUnits
  induction cfg.delta.toNat with
  | zero => simp
  | succ n ih =>
    rw [List.range_succ, List.flatMap_append, List.length_append, ih]
    simp [Nat.succ_mul]

theorem windowDates_get (cfg : Config) (i : Nat) (h : i < cfg.delta.toNat) :
    (windowDates cfg)[i]? = some (dateAt cfg i) := by
  simp [windowDates, List.getElem?_range h]

/-- With a single base the paths are one per iteration. -/
theorem destinationPaths_single (cfg : Config) (b : GoString) (hb : cfg.bases = [b]) :
    destinationPaths cfg = (List.range cfg.delta.toNat).map fun i => filename (dateAt cfg i) b := by
  unfold destinationPaths workUnits
  rw [hb]
  induction cfg.delta.toNat with
  | zero => simp
  | succ n ih =>
    rw [List.range_succ, List.flatMap_append, List.map_append, List.map_append, ih]
    simp

theorem workUnits_nodup (cfg : Config) (hmid : cfg.fromDate.ns % nsPerDay = 0)
    (hdelta : cfg.delta ≤ 213503) (hb : cfg.bases.Nodup) :
    (workUnits cfg).Nodup := by
  unfold workUnits
  rw [List.nodup_flatMap]
  constructor
  · intro i _
    exact hb.map (fun b b' h => (Prod.mk.inj h).2)
  · have hr : (List.range cfg.delta.toNat).Nodup := List.nodup_range _
    have hlt : ∀ i ∈ List.range cfg.delta.toNat, i ≤ 213502 := by
      intro i hi
      have := List.mem_range.1 hi
      omega
    refine List.Pairwise.imp_of_mem ?_ hr
    intro i j hi hj hne
    simp only [Function.onFun]
    intro u hu hu'
    obtain ⟨b, _, rfl⟩ := List.mem_map.1 hu
    obtain ⟨b', _, hbb⟩ := List.mem_map.1 hu'
    have hd : dateAt cfg j = dateAt cfg i := (Prod.mk.inj hbb).1
    exact hne (dayNumber_dateAt_injective cfg hmid i j (hlt i hi) (hlt j hj) (by rw [hd]))

/-- C6, refuted as stated: with `from = 2024-03-10` and `delta = 106753`, the date of the
last iteration (`i = 106752`) is 2316-06-19, not the date 106752 days before `from`
(1731-11-30): the int64 product `-1 * time.Duration(i) * 24 * time.Hour` has wrapped. -/
theorem windowDates_wraps :
    ((windowDates ⟨Time.ofCivil ⟨2024, 3, 10⟩, 106753, ["USD".toList, "EUR".toList],
        "bucket".toList, "app".toList⟩)[106752]?).map Time.Date = some ⟨2316, 6, 19⟩ ∧
    civilFromDays ((Time.ofCivil ⟨2024, 3, 10⟩).dayNumber - 106752) = ⟨1731, 11, 30⟩ := by
  constructor
  · rw [windowDates_get _ 106752 (by decide)]
    have h : (dateAt ⟨Time.ofCivil ⟨2024, 3, 10⟩, 106753, ["USD".toList, "EUR".toList],
        "bucket".toList, "app".toList⟩ 106752).dayNumber = 126543 := by decide
    simp only [Option.map_some', Time.Date, h]
    decide
  · decide

/-- C5, refuted as stated: with `from = 2024-03-10`, `delta = 213504` and the single base
`USD`, the work units of iterations 0 and 213503 get the same destination path
`rates/2024/03/10/USD/export.json.gz` (the wrapped offset of iteration 213503 lands on
the day of `from`), so the paths are not pairwise distinct. -/
theorem destinationPaths_collide :
    (destinationPaths ⟨Time.ofCivil ⟨2024, 3, 10⟩, 213504, ["USD".toList],
        "bucket".toList, "app".toList⟩)[0]?
      = some "rates/2024/03/10/USD/export.json.gz".toList ∧
    (destinationPaths ⟨Time.ofCivil ⟨2024, 3, 10⟩, 213504, ["USD".toList],
        "bucket".toList, "app".toList⟩)[213503]?
      = some "rates/2024/03/10/USD/export.json.gz".toList ∧
    ¬ (destinationPaths ⟨Time.ofCivil ⟨2024, 3, 10⟩, 213504, ["USD".toList],
        "bucket".toList, "app".toList⟩).Nodup := by
  have h0 : (destinationPaths ⟨Time.ofCivil ⟨2024, 3, 10⟩, 213504, ["USD".toList],
        "bucket".toList, "app".toList⟩)[0]?
      = some "rates/2024/03/10/USD/export.json.gz".toList := by
    rw [destinationPaths_single _ "USD".toList rfl, List.getElem?_map,
      List.getElem?_range (by decide)]
    have h : dateAt ⟨Time.ofCivil ⟨2024, 3, 10⟩, 213504, ["USD".toList],
        "bucket".toList, "app".toList⟩ 0 = ⟨1710028800000000000⟩ := by decide
    rw [Option.map_some', h]
    decide
  have h1 : (destinationPaths ⟨Time.ofCivil ⟨2024, 3, 10⟩, 213504, ["USD".toList],
        "bucket".toList, "app".toList⟩)[213503]?
      = some "rates/2024/03/10/USD/export.json.gz".toList := by
    rw [destinationPaths_single _ "USD".toList rfl, List.getElem?_map,
      List.getElem?_range (by decide)]
    have h : dateAt ⟨Time.ofCivil ⟨2024, 3, 10⟩, 213504, ["USD".toList],
        "bucket".toList, "app".toList⟩ 213503 = ⟨1710113673709551616⟩ := by decide
    rw [Option.map_some', h]
    decide
  refine ⟨h0, h1, ?_⟩
  intro hnd
  have hlen : (destinationPaths ⟨Time.ofCivil ⟨2024, 3, 10⟩, 213504, ["USD".toList],
      "bucket".toList, "app".toList⟩).length = 213504 := by
    rw [destinationPaths_single _ "USD".toList rfl]
    simp
  exact List.nodup_iff_getElem?_ne_getElem?.1 hnd 0 213503 (by decide)
    (by rw [hlen]; decide) (by rw [h0, h1])

/-- Below the wrap of the offset on both sides, the `d * m` destination paths are pairwise
distinct; the path is an injective function of the pair (calendar date, base). -/
theorem destinationPaths_nodup (cfg : Config) (hmid : cfg.fromDate.ns % nsPerDay = 0)
    (hdelta : cfg.delta ≤ 213503) (hb : cfg.bases.Nodup) :
    (destinationPaths cfg).length = cfg.delta.toNat * cfg.bases.length ∧
    (destinationPaths cfg).Nodup ∧
    (∀ (d d' : Time) (b b' : GoString),
      filename d b = filename d' b' ↔ (d.Date = d'.Date ∧ b = b')) := by
  have hinj : ∀ (d d' : Time) (b b' : GoString),
      filename d b = filename d' b' ↔ (d.Date = d'.Date ∧ b = b') := by
    intro d d' b b'
    constructor
    · exact filename_injective d d' b b'
    · rintro ⟨h1, rfl⟩
      rw [filename_eq, filename_eq, h1]
  refine ⟨?_, ?_, hinj⟩
  · unfold destinationPaths
    rw [List.length_map, workUnits_length]
  · unfold destinationPaths
    refine (workUnits_nodup cfg hmid hdelta hb).map_on ?_
    intro u hu v hv huv
    obtain ⟨hD, hbb⟩ := filename_injective _ _ _ _ huv
    -- both units come from iterations of the window
    unfold workUnits at hu hv
    obtain ⟨i, hi, hu'⟩ := List.mem_flatMap.1 hu
    obtain ⟨j, hj, hv'⟩ := List.mem_flatMap.1 hv
    obtain ⟨bu, _, rfl⟩ := List.mem_map.1 hu'
    obtain ⟨bv, _, rfl⟩ := List.mem_map.1 hv'
    have hi' := List.mem_range.1 hi
    have hj' := List.mem_range.1 hj
    have hij : i = j := dayNumber_dateAt_injective cfg hmid i j (by omega) (by omega)
      ((Date_eq_iff _ _).1 hD)
    simp only at hbb
    rw [hij, hbb]

/-! ## The text `JSON()` writes holds no line break -/

theorem marshal_finite {er : ExchangeRate} (h1 : er.UnitsPerCurrency.isFinite = true)
    (h2 : er.CurrenciesPerUnit.isFinite = true) :
    er.marshal = .ok (.obj [("date".toList, .str er.StringDate),
              ("base".toList, .str er.Base),
              ("currency".toList, .str er.Currency),
              ("units_per_currency".toList, .num (formatFloat er.UnitsPerCurrency)),
              ("currencies_per_unit".toList, .num (formatFloat er.CurrenciesPerUnit))]) := by
  simp only [ExchangeRate.marshal, marshalFloat, h1, h2, if_true]
  rfl

theorem ExchangeRates_nil (ord : RangeOrder) (b : GoString) (ts : Int) (d : Time) :
    OpenExchangeRateResponse.ExchangeRates ord ⟨b, ts, []⟩ d = [] := by
  rw [ExchangeRates_eq]
  have : ord.visit [] = [] := List.Perm.eq_nil (ord.perm [])
  simp [this]

theorem decodeMember_skip (r : OpenExchangeRateResponse) (kv : GoString × JVal)
    (h1 : keyMatches "base".toList kv.1 = false)
    (h2 : keyMatches "timestamp".toList kv.1 = false)
    (h3 : keyMatches "rates".toList kv.1 = false) :
    r.decodeMember kv = .ok r := by
  unfold OpenExchangeRateResponse.decodeMember
  rw [h1, h2, h3]
  rfl

theorem decodeMembers_skip (r : OpenExchangeRateResponse) (ms : List (GoString × JVal))
    (h : ∀ kv ∈ ms, keyMatches "base".toList kv.1 = false ∧
      keyMatches "timestamp".toList kv.1 = false ∧ keyMatches "rates".toList kv.1 = false) :
    OpenExchangeRateResponse.decodeMembers r ms = .ok r := by
  induction ms with
  | nil => rfl
  | cons kv rest ih =>
    obtain ⟨h1, h2, h3⟩ := h kv (List.mem_cons_self _ _)
    unfold OpenExchangeRateResponse.decodeMembers
    rw [decodeMember_skip r kv h1 h2 h3]
    exact ih (fun kv' hkv' => h kv' (List.mem_cons_of_mem _ hkv'))

theorem decodeMember_Rates (r r' : OpenExchangeRateResponse) (kv : GoString × JVal)
    (h3 : keyMatches "rates".toList kv.1 = false) (h : r.decodeMember kv = .ok r') :
    r'.Rates = r.Rates := by
  unfold OpenExchangeRateResponse.decodeMember at h
  split_ifs at h with c1 c2 c3
  · cases hd : decodeString kv.2 with
    | error e => rw [hd] at h; cases h
    | ok o => rw [hd] at h; cases h; rfl
  · cases hd : decodeInt64 kv.2 with
    | error e => rw [hd] at h; cases h
    | ok o => rw [hd] at h; cases h; rfl
  · rw [h3] at c3; cases c3
  · cases h; rfl

theorem decodeMembers_Rates (ms : List (GoString × JVal)) :
    ∀ (r r' : OpenExchangeRateResponse),
      (∀ kv ∈ ms, keyMatches "rates".toList kv.1 = false) →
      OpenExchangeRateResponse.decodeMembers r ms = .ok r' → r'.Rates = r.Rates := by
  induction ms with
  | nil => intro r r' _ h; cases h; rfl
  | cons kv rest ih =>
    intro r r' hk h
    unfold OpenExchangeRateResponse.decodeMembers at h
    cases hd : r.decodeMember kv with
    | error e => rw [hd] at h; cases h
    | ok r1 =>
      rw [hd] at h
      rw [ih r1 r' (fun kv' hkv' => hk kv' (List.mem_cons_of_mem _ hkv')) h]
      exact decodeMember_Rates r r1 kv (hk kv (List.mem_cons_self _ _)) hd

theorem decodeMember_error (r : OpenExchangeRateResponse) (kv : GoString × JVal) (e : Fatal)
    (h : r.decodeMember kv = .error e) : e = Fatal.unmarshalType := by
  have hs : ∀ v e, decodeString v = .error e → e = Fatal.unmarshalType := by
    intro v e h; cases v <;> simp [decodeString] at h <;> exact h.symm
  have hf : ∀ v e, decodeFloat64 v = .error e → e = Fatal.unmarshalType := by
    intro v e h
    cases v <;> simp [decodeFloat64] at h <;> try exact h.symm
    split at h
    · cases h
    · cases h; rfl
  have hi : ∀ v e, decodeInt64 v = .error e → e = Fatal.unmarshalType := by
    intro v e h
    cases v <;> simp [decodeInt64] at h <;> try exact h.symm
    split at h
    · cases h
    · cases h; rfl
  have hrm : ∀ ms m e, decodeRatesMembers m ms = .error e → e = Fatal.unmarshalType := by
    intro ms
    induction ms with
    | nil => intro m e h; cases h
    | cons kv rest ih =>
      intro m e h
      obtain ⟨k, v⟩ := kv
      unfold decodeRatesMembers at h
      cases hd : decodeFloat64 v with
      | error e1 => rw [hd] at h; cases h; exact hf v _ hd
      | ok x => rw [hd] at h; exact ih _ _ h
  have hr : ∀ m v e, decodeRates m v = .error e → e = Fatal.unmarshalType := by
    intro m v e h
    cases v <;> simp [decodeRates] at h <;> try exact h.symm
    exact hrm _ _ _ h
  unfold OpenExchangeRateResponse.decodeMember at h
  split_ifs at h with c1 c2 c3
  · cases hd : decodeString kv.2 with
    | error e1 => rw [hd] at h; cases h; exact hs _ _ hd
    | ok o => rw [hd] at h; cases h
  · cases hd : decodeInt64 kv.2 with
    | error e1 => rw [hd] at h; cases h; exact hi _ _ hd
    | ok o => rw [hd] at h; cases h
  · cases hd : decodeRates r.Rates kv.2 with
    | error e1 => rw [hd] at h; cases h; exact hr _ _ _ hd
    | ok o => rw [hd] at h; cases h

/-- A member that fits its field in no state makes the whole decoding fail. -/
theorem decodeMembers_bad (ms : List (GoString × JVal)) (kv : GoString × JVal)
    (hmem : kv ∈ ms)
    (hbad : ∀ r : OpenExchangeRateResponse, r.decodeMember kv = .error Fatal.unmarshalType) :
    ∀ r, OpenExchangeRateResponse.decodeMembers r ms = .error Fatal.unmarshalType := by
  induction ms with
  | nil => cases hmem
  | cons kv' rest ih =>
    intro r
    unfold OpenExchangeRateResponse.decodeMembers
    cases hd : r.decodeMember kv' with
    | error e => rw [decodeMember_error r kv' e hd]
    | ok r1 =>
      rcases List.mem_cons.1 hmem with h | h
      · subst h
        rw [hbad r] at hd
        cases hd
      · exact ih h r1

set_option maxRecDepth 100000 in
/-- C9, refuted as stated: for the provider's error object (a JSON object with neither
`base` nor `rates`) `Fetch` does not fail; it returns the empty payload, and a run over
one date and one base writes that empty payload to
`rates/2024/03/10/USD/export.json.gz`. -/
theorem Fetch_error_object_returns_payload :
    Fetch (constNet errorBody) "app".toList (Time.ofCivil ⟨2024, 3, 10⟩) "USD".toList
      = .ok [] ∧
    (run (constEnv errorBody)
        ⟨Time.ofCivil ⟨2024, 3, 10⟩, 1, ["USD".toList], "bucket".toList, "app".toList⟩
        [.main, .main, .task 0, .task 0]).map (fun st => st.trace)
      = some [Event.start 0 "USD".toList,
              Event.fetch 0 (Time.ofCivil ⟨2024, 3, 10⟩) "USD".toList,
              Event.store 0 "rates/2024/03/10/USD/export.json.gz".toList []] := by
  constructor
  · rfl
  · rfl

/-- C9, amended: `Fetch` ends the process when the body is not JSON text, when its
top-level JSON value is a boolean, a number, a string or an array, and when it is an
object with a member that does not fit the field it names (`base`, `timestamp`, `rates`,
names compared ignoring case). An object is not rejected for what it lacks: members
that name no field are skipped and absent fields stay zero, so an object without
`base`, `timestamp` and `rates` members (the provider's error object), and any accepted
object without a `rates` member, yields the empty payload. -/
theorem Fetch_body_shape (net : Net) (appId : GoString) (d : Time) (base : GoString) :
    (net.get (fetchURL appId d base) = .body .notJSON →
      Fetch net appId d base = .error Fatal.syntaxError) ∧
    (∀ v, net.get (fetchURL appId d base) = .body (.json v) →
      v ≠ .null → (∀ ms, v ≠ .obj ms) →
      Fetch net appId d base = .error Fatal.unmarshalType) ∧
    (∀ ms kv, net.get (fetchURL appId d base) = .body (.json (.obj ms)) →
      kv ∈ ms →
      (∀ r : OpenExchangeRateResponse, r.decodeMember kv = .error Fatal.unmarshalType) →
      Fetch net appId d base = .error Fatal.unmarshalType) ∧
    (∀ ms, net.get (fetchURL appId d base) = .body (.json (.obj ms)) →
      (∀ kv ∈ ms, keyMatches "base".toList kv.1 = false ∧
        keyMatches "timestamp".toList kv.1 = false ∧
        keyMatches "rates".toList kv.1 = false) →
      Fetch net appId d base = .ok []) ∧
    (∀ ms r, net.get (fetchURL appId d base) = .body (.json (.obj ms)) →
      OpenExchangeRateResponse.Unmarshal (.json (.obj ms)) = .ok r →
      (∀ kv ∈ ms, keyMatches "rates".toList kv.1 = false) →
      Fetch net appId d base = .ok []) := by
  refine ⟨?_, ?_, ?_, ?_, ?_⟩
  · intro h
    simp only [Fetch, fetchRecords, h, OpenExchangeRateResponse.Unmarshal]
  · intro v h hnull hobj
    cases v with
    | null => exact absurd rfl hnull
    | obj ms => exact absurd rfl (hobj ms)
    | bool b => simp only [Fetch, fetchRecords, h, OpenExchangeRateResponse.Unmarshal]
    | num n => simp only [Fetch, fetchRecords, h, OpenExchangeRateResponse.Unmarshal]
    | str s => simp only [Fetch, fetchRecords, h, OpenExchangeRateResponse.Unmarshal]
    | arr xs => simp only [Fetch, fetchRecords, h, OpenExchangeRateResponse.Unmarshal]
  · intro ms kv h hmem hbad
    simp only [Fetch, fetchRecords, h, OpenExchangeRateResponse.Unmarshal,
      decodeMembers_bad ms kv hmem hbad]
  · intro ms h hk
    simp only [Fetch, fetchRecords, h, OpenExchangeRateResponse.Unmarshal,
      decodeMembers_skip _ ms hk, ExchangeRates_nil]
    rfl
  · intro ms r h hr hk
    have hR : r.Rates = [] := decodeMembers_Rates ms _ r hk hr
    obtain ⟨b, ts, rates⟩ := r
    simp only at hR
    subst hR
    simp only [Fetch, fetchRecords, h, hr, ExchangeRates_nil]
    rfl

set_option maxRecDepth 100000 in
/-- C9, amended, on four bodies served for every URL: text that is not JSON, the array
`[]`, the object `{"rates":"none"}`, and the provider's error object. -/
theorem Fetch_body_shape_witness :
    Fetch (constNet .notJSON) "app".toList (Time.ofCivil ⟨2024, 3, 10⟩) "USD".toList
      = .error Fatal.syntaxError ∧
    Fetch (constNet (.json (.arr []))) "app".toList (Time.ofCivil ⟨2024, 3, 10⟩) "USD".toList
      = .error Fatal.unmarshalType ∧
    Fetch (constNet (.json (.obj [("rates".toList, .str "none".toList)]))) "app".toList
        (Time.ofCivil ⟨2024, 3, 10⟩) "USD".toList
      = .error Fatal.unmarshalType ∧
    Fetch (constNet errorBody) "app".toList (Time.ofCivil ⟨2024, 3, 10⟩) "USD".toList
      = .ok [] :=
  ⟨(Fetch_body_shape (constNet .notJSON) "app".toList (Time.ofCivil ⟨2024, 3, 10⟩)
      "USD".toList).1 rfl,
   (Fetch_body_shape (constNet (.json (.arr []))) "app".toList (Time.ofCivil ⟨2024, 3, 10⟩)
      "USD".toList).2.1 _ rfl (by simp) (by simp),
   (Fetch_body_shape (constNet (.json (.obj [("rates".toList, .str "none".toList)])))
      "app".toList (Time.ofCivil ⟨2024, 3, 10⟩) "USD".toList).2.2.1 _
      ("rates".toList, .str "none".toList) rfl (by simp) (fun _ => rfl),
   (Fetch_body_shape (constNet errorBody) "app".toList (Time.ofCivil ⟨2024, 3, 10⟩)
      "USD".toList).2.2.2.1 _ rfl (by decide)⟩

namespace Float64

/-! ## Rounding is exact on representable values -/

theorem log2Aux_spec : ∀ (fuel n : Nat), 0 < n → n ≤ fuel →
    2 ^ log2Aux fuel n ≤ n ∧ n < 2 ^ (log2Aux fuel n + 1) := by
  intro fuel
  induction fuel with
  | zero => intro n h0 h; omega
  | succ f ih =>
    intro n h0 h
    unfold log2Aux
    by_cases h2 : n < 2
    · simp only [h2, if_true]
      constructor <;> simp <;> omega
    · simp only [h2, if_false]
      obtain ⟨i1, i2⟩ := ih (n / 2) (by omega) (by omega)
      rw [Nat.pow_succ] at i2 ⊢
      rw [Nat.pow_succ]
      constructor <;> omega

theorem log2_spec (n : Nat) (h : 0 < n) : 2 ^ log2 n ≤ n ∧ n < 2 ^ (log2 n + 1) :=
  log2Aux_spec n n h (Nat.le_refl n)

/-- The value of a scaled fraction. -/
theorem scale_val (n d : Nat) (s : Int) (hd : 0 < d) :
    0 < (scale n d s).2 ∧
    ((scale n d s).1 : ℚ) / ((scale n d s).2 : ℚ) = (n : ℚ) / (d : ℚ) * (2 : ℚ) ^ s := by
  have hdq : (d : ℚ) ≠ 0 := by exact_mod_cast hd.ne'
  cases s with
  | ofNat k =>
    refine ⟨hd, ?_⟩
    simp only [scale, Int.ofNat_eq_coe, zpow_natCast]
    push_cast
    field_simp
  | negSucc k =>
    refine ⟨Nat.mul_pos hd (by positivity), ?_⟩
    simp only [scale, zpow_negSucc]
    push_cast
    field_simp

/-- `ilog2 n d` is the binary exponent of `n / d`. -/
theorem ilog2_spec (n d : Nat) (hn : 0 < n) (hd : 0 < d) :
    (2 : ℚ) ^ ilog2 n d ≤ (n : ℚ) / d ∧ (n : ℚ) / d < (2 : ℚ) ^ (ilog2 n d + 1) := by
  obtain ⟨a1, a2⟩ := log2_spec n hn
  obtain ⟨b1, b2⟩ := log2_spec d hd
  have hdq : (0 : ℚ) < d := by exact_mod_cast hd
  have a1q : (2 : ℚ) ^ log2 n ≤ n := by exact_mod_cast a1
  have a2q : (n : ℚ) < 2 ^ (log2 n + 1) := by exact_mod_cast a2
  have b1q : (2 : ℚ) ^ log2 d ≤ d := by exact_mod_cast b1
  have b2q : (d : ℚ) < 2 ^ (log2 d + 1) := by exact_mod_cast b2
  have h2 : (2 : ℚ) ≠ 0 := by norm_num
  have pa : (0 : ℚ) < 2 ^ log2 n := by positivity
  have pb : (0 : ℚ) < 2 ^ log2 d := by positivity
  unfold ilog2
  simp only
  by_cases hc : d * 2 ^ log2 n ≤ n * 2 ^ log2 d
  · simp only [hc, if_true]
    have hcq : (d : ℚ) * 2 ^ log2 n ≤ n * 2 ^ log2 d := by exact_mod_cast hc
    constructor
    · rw [zpow_natCast_sub_natCast₀ h2, div_le_div_iff₀ pb hdq]
      linarith
    · have e : ((log2 n : ℤ) - (log2 d : ℤ) + 1) = ((log2 n + 1 : ℕ) : ℤ) - (log2 d : ℤ) := by
        push_cast; ring
      rw [e, zpow_natCast_sub_natCast₀ h2, div_lt_div_iff₀ hdq pb]
      calc (n : ℚ) * 2 ^ log2 d < 2 ^ (log2 n + 1) * 2 ^ log2 d := by
            apply mul_lt_mul_of_pos_right a2q pb
        _ ≤ 2 ^ (log2 n + 1) * d := by
            apply mul_le_mul_of_nonneg_left b1q (by positivity)
  · simp only [hc, if_false]
    have hcq : (n : ℚ) * 2 ^ log2 d < d * 2 ^ log2 n := by
      have := Nat.lt_of_not_le hc
      exact_mod_cast this
    constructor
    · have e : ((log2 n : ℤ) - (log2 d : ℤ) - 1) = (log2 n : ℤ) - ((log2 d + 1 : ℕ) : ℤ) := by
        push_cast; ring
      rw [e, zpow_natCast_sub_natCast₀ h2, div_le_div_iff₀ (by positivity) hdq]
      calc (2 : ℚ) ^ log2 n * d ≤ 2 ^ log2 n * 2 ^ (log2 d + 1) := by
            apply mul_le_mul_of_nonneg_left b2q.le (by positivity)
        _ ≤ n * 2 ^ (log2 d + 1) := by
            apply mul_le_mul_of_nonneg_right a1q (by positivity)
    · have e : ((log2 n : ℤ) - (log2 d : ℤ) - 1 + 1) = (log2 n : ℤ) - (log2 d : ℤ) := by ring
      rw [e, zpow_natCast_sub_natCast₀ h2, div_lt_div_iff₀ hdq pb]
      linarith

/-- The binary exponent of a positive rational is unique. -/
theorem binade_unique (v : ℚ) (l l' : Int)
    (h1 : (2 : ℚ) ^ l ≤ v) (h2 : v < (2 : ℚ) ^ (l + 1))
    (h1' : (2 : ℚ) ^ l' ≤ v) (h2' : v < (2 : ℚ) ^ (l' + 1)) : l = l' := by
  have a : l < l' + 1 := (zpow_lt_zpow_iff_right₀ (by norm_num : (1 : ℚ) < 2)).1
    (lt_of_le_of_lt h1 h2')
  have b : l' < l + 1 := (zpow_lt_zpow_iff_right₀ (by norm_num : (1 : ℚ) < 2)).1
    (lt_of_le_of_lt h1' h2)
  omega

theorem roundHalfEven_exact (m d : Nat) (hd : 0 < d) : roundHalfEven (m * d) d = m := by
  unfold roundHalfEven
  simp [Nat.mul_div_cancel _ hd, hd]

/-- A fraction equal to the canonical `m * 2^e` rounds to it. -/
theorem ofRatio_exact (neg : Bool) (n d m : Nat) (e : Int) (hd : 0 < d) (hm : m ≠ 0)
    (hc : Canonical (fin neg m e))
    (hv : (n : ℚ) / d = (m : ℚ) * (2 : ℚ) ^ e) :
    ofRatio neg n d 0 = fin neg m e := by
  obtain ⟨c1, c2, c3, c4⟩ := hc
  have hmpos : 0 < m := Nat.pos_of_ne_zero hm
  have hdq : (0 : ℚ) < d := by exact_mod_cast hd
  have hn : 0 < n := by
    rcases Nat.eq_zero_or_pos n with h | h
    · subst h
      have : (0 : ℚ) < (m : ℚ) * (2 : ℚ) ^ e := by positivity
      rw [← hv] at this
      simp at this
    · exact h
  -- the binary exponent of the value
  obtain ⟨l1, l2⟩ := ilog2_spec n d hn hd
  obtain ⟨m1, m2⟩ := log2_spec m hmpos
  have m1q : (2 : ℚ) ^ log2 m ≤ m := by exact_mod_cast m1
  have m2q : (m : ℚ) < 2 ^ (log2 m + 1) := by exact_mod_cast m2
  have h2 : (2 : ℚ) ≠ 0 := by norm_num
  have pe : (0 : ℚ) < (2 : ℚ) ^ e := by positivity
  have hl : ilog2 n d = (log2 m : Int) + e := by
    apply binade_unique ((n : ℚ) / d) _ _ l1 l2
    · rw [hv, zpow_add₀ h2, zpow_natCast]
      exact mul_le_mul_of_nonneg_right m1q pe.le
    · rw [hv]
      have : ((log2 m : Int) + e + 1) = ((log2 m + 1 : ℕ) : ℤ) + e := by push_cast; ring
      rw [this, zpow_add₀ h2, zpow_natCast]
      exact mul_lt_mul_of_pos_right m2q pe
  have hlog : log2 m ≤ 52 := by
    by_contra hcon
    have : 2 ^ 53 ≤ 2 ^ log2 m := Nat.pow_le_pow_right (by decide) (by omega)
    omega
  have hE : max (ilog2 n d + 0 - 52) minExp = e := by
    rw [hl]
    unfold minExp at *
    by_cases he : (-1074 : Int) < e
    · have hm52 := c4 he
      have : 52 ≤ log2 m := by
        by_contra hcon
        have : 2 ^ (log2 m + 1) ≤ 2 ^ 52 := Nat.pow_le_pow_right (by decide) (by omega)
        omega
      omega
    · omega
  obtain ⟨p2, pv⟩ := scale_val n d (0 - e) hd
  have hp : (scale n d (0 - e)).1 = m * (scale n d (0 - e)).2 := by
    have hp2q : ((scale n d (0 - e)).2 : ℚ) ≠ 0 := by exact_mod_cast p2.ne'
    rw [hv, div_eq_iff hp2q] at pv
    have : ((scale n d (0 - e)).1 : ℚ) = (m : ℚ) * ((scale n d (0 - e)).2 : ℚ) := by
      rw [pv, zero_sub, zpow_neg]
      field_simp
    exact_mod_cast this
  unfold ofRatio
  simp only [hE, hp, roundHalfEven_exact m _ p2]
  have n53 : ¬ (2 ^ 53 ≤ m) := by omega
  simp only [n53, if_false]
  have nmax : ¬ (maxExp < e) := by omega
  simp only [nmax, if_false]

end Float64

namespace Float64

/-! ## The decimal `formatFloat` writes reads back as the float -/

theorem ofDecimal_exactDecimal (neg : Bool) (m : Nat) (e : Int) (hm : m ≠ 0)
    (hc : Canonical (fin neg m e)) :
    ofDecimal neg (exactDecimal m e).1 (exactDecimal m e).2 = fin neg m e := by
  cases e with
  | ofNat k =>
    have h0 : m * 2 ^ k ≠ 0 := Nat.mul_ne_zero hm (by positivity)
    simp only [exactDecimal, ofDecimal, h0, if_false]
    apply ofRatio_exact neg _ _ m _ (by simp [scale10]) hm hc
    have : scale10 (m * 2 ^ k) 1 0 = (m * 2 ^ k * 10 ^ 0, 1) := rfl
    rw [this]
    simp only [Int.ofNat_eq_coe, zpow_natCast]
    push_cast
    ring
  | negSucc k =>
    have h0 : m * 5 ^ (k + 1) ≠ 0 := Nat.mul_ne_zero hm (by positivity)
    simp only [exactDecimal, ofDecimal, h0, if_false]
    apply ofRatio_exact neg _ _ m _ (by simp [scale10]) hm hc
    simp only [scale10, zpow_negSucc]
    push_cast
    have : (10 : ℚ) ^ (k + 1) = 2 ^ (k + 1) * 5 ^ (k + 1) := by
      rw [← mul_pow]; norm_num
    rw [this]
    field_simp
    ring

theorem shortestAux_spec (x : Float64) (neg : Bool) (n d : Nat) (k : Int) :
    ∀ (fuel digits : Nat) (c : Nat × Int),
      shortestAux x neg n d k fuel digits = some c → ofDecimal neg c.1 c.2 = x := by
  intro fuel
  induction fuel with
  | zero => intro digits c h; cases h
  | succ f ih =>
    intro digits c h
    unfold shortestAux at h
    simp only at h
    split_ifs at h with h1 h2 h3 h4 h5 h6
    all_goals first
      | (have hc := Option.some.inj h
         subst hc
         first
           | (simp only [Bool.and_eq_true, decide_eq_true_eq] at h1; first | exact h1.1 | exact h1.2)
           | (simp only [decide_eq_true_eq] at h5; exact h5)
           | (simp only [decide_eq_true_eq] at h6; exact h6))
      | exact ih _ _ h

/-- The decimal chosen for a nonzero finite float reads back as that float. -/
theorem ofDecimal_shortest (neg : Bool) (m : Nat) (e : Int) (hm : m ≠ 0)
    (hc : Canonical (fin neg m e)) :
    ofDecimal neg (shortest neg m e).1 (shortest neg m e).2 = fin neg m e := by
  unfold shortest
  simp only
  cases h : shortestAux (fin neg m e) neg (scale m 1 e).1 (scale m 1 e).2
      (ilog10 (scale m 1 e).1 (scale m 1 e).2) 17 1 with
  | none => simpa using ofDecimal_exactDecimal neg m e hm hc
  | some c => simpa using shortestAux_spec _ _ _ _ _ _ _ c h

end Float64

theorem digitsVal_foldl (acc : Nat) (b : GoString) :
    List.foldl (fun acc c => 10 * acc + (c.toNat - 48)) acc b
      = acc * 10 ^ b.length + digitsVal b := by
  induction b generalizing acc with
  | nil => simp [digitsVal]
  | cons c b ih =>
    simp only [List.foldl_cons, List.length_cons, digitsVal]
    rw [ih, ih (10 * 0 + (c.toNat - 48))]
    ring

theorem digitsVal_app (a b : GoString) :
    digitsVal (a ++ b) = digitsVal a * 10 ^ b.length + digitsVal b := by
  unfold digitsVal
  rw [List.foldl_append, digitsVal_foldl]
  rfl

theorem digitsVal_zeros (k : Nat) : digitsVal (List.replicate k '0') = 0 := by
  have := digitsVal_replicate_zero k []
  simpa [digitsVal] using this

theorem toFloat64_of (neg : Bool) (int frac : GoString) (exp : Option (Bool × GoString))
    (D : Nat) (q : Int) (x : Float64) (hx : x.isFinite = true)
    (hD : Float64.ofDecimal neg D q = x)
    (hm : digitsVal (int ++ frac) = D)
    (hq : JNumber.expVal ⟨neg, int, frac, exp⟩ - (frac.length : Int) = q) :
    JNumber.toFloat64 ⟨neg, int, frac, exp⟩ = some x := by
  unfold JNumber.toFloat64
  simp only [hm, hq, hD, hx, if_true]

theorem ofDecimal_shift (neg : Bool) (D k : Nat) :
    Float64.ofDecimal neg (D * 10 ^ k) 0 = Float64.ofDecimal neg D (k : Int) := by
  unfold Float64.ofDecimal
  by_cases h : D = 0
  · simp [h]
  · have h' : D * 10 ^ k ≠ 0 := Nat.mul_ne_zero h (by positivity)
    simp only [h, h', if_false]
    have e1 : Float64.scale10 (D * 10 ^ k) 1 0 = (D * 10 ^ k * 10 ^ 0, 1) := rfl
    have e2 : Float64.scale10 D 1 (k : Int) = (D * 10 ^ k, 1) := rfl
    rw [e1, e2]
    simp

/-- A finite canonical float is read back from the number literal `json.Marshal` writes
for it. -/
theorem toFloat64_formatFloat (x : Float64) (hfin : x.isFinite = true)
    (hc : Float64.Canonical x) : (formatFloat x).toFloat64 = some x := by
  cases x with
  | nan => cases hfin
  | inf s => cases hfin
  | fin neg m e =>
    by_cases hm : m = 0
    · subst hm
      obtain ⟨_, c2, _, c4⟩ := hc
      have he : e = Float64.minExp := by
        by_contra hne
        have : Float64.minExp < e := lt_of_le_of_ne c2 (Ne.symm hne)
        have := c4 this
        omega
      subst he
      simp only [formatFloat, if_true]
      exact toFloat64_of neg _ _ _ 0 0 _ rfl rfl rfl rfl
    · have hS := Float64.ofDecimal_shortest neg m e hm hc
      simp only [formatFloat, hm, if_false]
      generalize Float64.shortest neg m e = c at hS ⊢
      obtain ⟨D, q⟩ := c
      simp only at hS ⊢
      have hL : 1 ≤ (natDigits D).length := by
        have := natDigits_ne_nil D
        cases h : natDigits D with
        | nil => exact absurd h this
        | cons a l => simp
      have hval := digitsVal_natDigits D
      split_ifs with h1 h2 h3
      · -- exponent form
        apply toFloat64_of neg _ _ _ D q (Float64.fin neg m e) rfl hS
        · rw [List.take_append_drop]; exact hval
        · simp only [JNumber.expVal, List.length_drop, digitsVal_natDigits]
          split_ifs with hs
          · simp only [decide_eq_true_eq] at hs; omega
          · simp only [decide_eq_true_eq] at hs; omega
      · -- 0.000ddd
        apply toFloat64_of neg _ _ _ D q (Float64.fin neg m e) rfl hS
        · have : ['0'] ++ (List.replicate (-((natDigits D).length + q : Int)).toNat '0'
              ++ natDigits D)
              = List.replicate ((-((natDigits D).length + q : Int)).toNat + 1) '0'
                ++ natDigits D := by
            rw [List.replicate_succ]; rfl
          rw [this, digitsVal_replicate_zero]
          exact hval
        · simp only [JNumber.expVal, List.length_append, List.length_replicate]
          push_cast
          omega
      · -- ddd.ddd
        apply toFloat64_of neg _ _ _ D q (Float64.fin neg m e) rfl hS
        · rw [List.take_append_drop]; exact hval
        · simp only [JNumber.expVal, List.length_drop]
          omega
      · -- ddd000
        have hq : 0 ≤ q := by omega
        obtain ⟨k, rfl⟩ := Int.eq_ofNat_of_zero_le hq
        apply toFloat64_of neg _ _ _ (D * 10 ^ k) 0 (Float64.fin neg m e) rfl
        · rw [ofDecimal_shift]; exact hS
        · have hk : (((natDigits D).length : Int) + (k : Int)
              - ((natDigits D).length : Int)).toNat = k := by omega
          rw [List.append_nil, digitsVal_app, digitsVal_zeros, List.length_replicate, hval, hk]
          rfl
        · simp [JNumber.expVal]

/-! ## Runs of the scheduler -/

theorem sum_map_set {α : Type} (f : α → Nat) :
    ∀ (l : List α) (k : Nat) (t t' : α), l.get? k = some t →
      ((l.set k t').map f).sum + f t = (l.map f).sum + f t' := by
  intro l
  induction l with
  | nil => intro k t t' h; cases h
  | cons a l ih =>
    intro k t t' h
    cases k with
    | zero =>
      simp only [List.get?_cons_zero, Option.some.injEq] at h
      subst h
      simp only [List.set_cons_zero, List.map_cons, List.sum_cons]
      omega
    | succ k =>
      simp only [List.get?_cons_succ] at h
      have := ih k t t' h
      simp only [List.set_cons_succ, List.map_cons, List.sum_cons]
      omega

theorem sum_map_eraseIdx {α : Type} (f : α → Nat) :
    ∀ (l : List α) (k : Nat) (t : α), l.get? k = some t →
      ((l.eraseIdx k).map f).sum + f t = (l.map f).sum ∧
      (l.eraseIdx k).length + 1 = l.length := by
  intro l
  induction l with
  | nil => intro k t h; cases h
  | cons a l ih =>
    intro k t h
    cases k with
    | zero =>
      simp only [List.get?_cons_zero, Option.some.injEq] at h
      subst h
      simp only [List.eraseIdx_cons_zero, List.map_cons, List.sum_cons, List.length_cons]
      exact ⟨by omega, trivial⟩
    | succ k =>
      simp only [List.get?_cons_succ] at h
      obtain ⟨h1, h2⟩ := ih k t h
      simp only [List.eraseIdx_cons_succ, List.map_cons, List.sum_cons, List.length_cons]
      constructor <;> omega

theorem mem_of_get? {α : Type} {l : List α} {k : Nat} {t : α} (h : l.get? k = some t) :
    t ∈ l := by
  exact List.get?_mem h

theorem mem_set_imp {α : Type} {l : List α} {k : Nat} {t' x : α} (h : x ∈ l.set k t') :
    x = t' ∨ x ∈ l := by
  rcases List.mem_or_eq_of_mem_set h with h | h
  · exact Or.inr h
  · exact Or.inl h

theorem mem_eraseIdx_imp {α : Type} {l : List α} {k : Nat} {x : α}
    (h : x ∈ l.eraseIdx k) : x ∈ l :=
  (List.eraseIdx_sublist l k).subset h

theorem iterations_append (tr es : List Event) :
    iterations (tr ++ es) = iterations tr ++ iterations es := by
  simp [iterations, List.filterMap_append]

theorem countP_start_zero (tr : List Event) (i j : Nat) (h : ∀ k ∈ iterations tr, k ≤ i)
    (hj : i < j) :
    tr.countP (Event.isStartOf j) = 0 ∧ tr.countP (Event.isDoneOf j) = 0 := by
  induction tr with
  | nil => simp
  | cons e tr ih =>
    have htl : ∀ k ∈ iterations tr, k ≤ i := by
      intro k hk
      apply h k
      cases hit : e.iteration with
      | none => simpa [iterations, List.filterMap_cons, hit] using hk
      | some v =>
        simp only [iterations, List.filterMap_cons, hit, List.mem_cons]
        exact Or.inr hk
    obtain ⟨ih1, ih2⟩ := ih htl
    rw [List.countP_cons, List.countP_cons, ih1, ih2]
    cases e with
    | start i' b =>
      have : i' ≤ i := h i' (by simp [iterations, List.filterMap_cons, Event.iteration])
      have hne : ¬ (i' = j) := by omega
      simp [Event.isStartOf, Event.isDoneOf, hne]
    | done i' b =>
      have : i' ≤ i := h i' (by simp [iterations, List.filterMap_cons, Event.iteration])
      have hne : ¬ (i' = j) := by omega
      simp [Event.isStartOf, Event.isDoneOf, hne]
    | fetch _ _ _ => simp [Event.isStartOf, Event.isDoneOf]
    | store _ _ _ => simp [Event.isStartOf, Event.isDoneOf]
    | load _ => simp [Event.isStartOf, Event.isDoneOf]
    | fatal _ => simp [Event.isStartOf, Event.isDoneOf]

/-- Events other than launches leave the barrier property alone. -/
theorem Barrier_append (m : Nat) (tr es : List Event) (h : Barrier m tr)
    (hes : ∀ e ∈ es, ∀ i b, e ≠ Event.start i b) : Barrier m (tr ++ es) := by
  intro pre post i b heq
  rcases List.append_eq_append_iff.1 heq with ⟨a', hpre, hes'⟩ | ⟨c', htr, hc'⟩
  · exact absurd rfl (hes (Event.start (i + 1) b) (by rw [hes']; simp) (i + 1) b)
  · cases c' with
    | nil =>
      simp only [List.nil_append] at hc'
      exact absurd rfl (hes (Event.start (i + 1) b) (by rw [← hc']; simp) (i + 1) b)
    | cons x c'' =>
      simp only [List.cons_append, List.cons.injEq] at hc'
      obtain ⟨hx, _⟩ := hc'
      subst hx
      exact h pre c'' i b htr

/-- A launch keeps the barrier property when the previous iteration is complete. -/
theorem Barrier_start (m : Nat) (tr : List Event) (i : Nat) (b : GoString)
    (h : Barrier m tr)
    (hprev : ∀ i0, i = i0 + 1 →
      tr.countP (Event.isStartOf i0) = m ∧ tr.countP (Event.isDoneOf i0) = m) :
    Barrier m (tr ++ [Event.start i b]) := by
  intro pre post i0 b0 heq
  rcases List.append_eq_append_iff.1 heq with ⟨a', hpre, hes'⟩ | ⟨c', htr, hc'⟩
  · cases a' with
    | nil =>
      simp only [List.nil_append, List.cons.injEq, Event.start.injEq] at hes'
      simp only [List.append_nil] at hpre
      subst hpre
      exact hprev i0 hes'.1.1
    | cons x a'' =>
      simp only [List.cons_append, List.cons.injEq] at hes'
      have := hes'.2
      simp at this
  · cases c' with
    | nil =>
      simp only [List.nil_append, List.cons.injEq, Event.start.injEq] at hc'
      simp only [List.append_nil] at htr
      subst htr
      exact hprev i0 hc'.1.1.symm
    | cons x c'' =>
      simp only [List.cons_append, List.cons.injEq] at hc'
      obtain ⟨hx, _⟩ := hc'
      subst hx
      exact h pre c'' i0 b0 htr

theorem pairwise_append_le (l : List Nat) (i : Nat) (h : List.Pairwise (fun a b => a ≤ b) l)
    (hle : ∀ k ∈ l, k ≤ i) : List.Pairwise (fun a b => a ≤ b) (l ++ [i]) := by
  rw [List.pairwise_append]
  refine ⟨h, List.pairwise_singleton _ _, ?_⟩
  intro a ha b hb
  simp only [List.mem_singleton] at hb
  subst hb
  exact hle a ha

theorem launches_append (tr es : List Event) :
    launches (tr ++ es) = launches tr ++ launches es := by
  simp [launches, List.filterMap_append]

/-- Launching the next base extends the launched prefix of the bases by it. -/
theorem take_drop_step {α : Type} (l : List α) (j : Nat) (b : α) (rest : List α)
    (h : l.drop j = b :: rest) : l.take (j + 1) = l.take j ++ [b] ∧ l.drop (j + 1) = rest := by
  induction l generalizing j with
  | nil => simp at h
  | cons a l ih =>
    cases j with
    | zero =>
      simp only [List.drop_zero, List.cons.injEq] at h
      obtain ⟨h1, h2⟩ := h
      subst h1 h2
      simp
    | succ j =>
      simp only [List.drop_succ_cons] at h
      obtain ⟨h1, h2⟩ := ih j h
      simp [h1, h2]

theorem launchedUnits_succ (cfg : Config) (i : Nat) :
    launchedUnits cfg (i + 1) 0 = launchedUnits cfg i cfg.bases.length := by
  simp [launchedUnits, List.range_succ, List.flatMap_append]

theorem storePaths_append (tr es : List Event) :
    storePaths (tr ++ es) = storePaths tr ++ storePaths es := by
  simp [storePaths, List.filterMap_append]

theorem pendingPaths_set_same :
    ∀ (l : List Task) (k : Nat) (t t' : Task), l.get? k = some t →
      t'.pendingPath = t.pendingPath → pendingPaths (l.set k t') = pendingPaths l := by
  intro l
  induction l with
  | nil => intro k t t' h; cases h
  | cons a l ih =>
    intro k t t' h hp
    cases k with
    | zero =>
      simp only [List.get?_cons_zero, Option.some.injEq] at h
      subst h
      simp [pendingPaths, List.filterMap_cons, hp]
    | succ k =>
      simp only [List.get?_cons_succ] at h
      have := ih k t t' h hp
      simp only [pendingPaths] at this
      simp [pendingPaths, List.filterMap_cons, this]

theorem pendingPaths_set_none :
    ∀ (l : List Task) (k : Nat) (t t' : Task) (path : GoString), l.get? k = some t →
      t.pendingPath = some path → t'.pendingPath = none →
      List.Perm (path :: pendingPaths (l.set k t')) (pendingPaths l) := by
  intro l
  induction l with
  | nil => intro k t t' path h; cases h
  | cons a l ih =>
    intro k t t' path h hp hp'
    cases k with
    | zero =>
      simp only [List.get?_cons_zero, Option.some.injEq] at h
      subst h
      simp [pendingPaths, List.filterMap_cons, hp, hp']
    | succ k =>
      simp only [List.get?_cons_succ] at h
      have := ih k t t' path h hp hp'
      simp only [pendingPaths] at this
      simp only [pendingPaths, List.set_cons_succ, List.filterMap_cons]
      cases ha : a.pendingPath with
      | none => simpa using this
      | some q =>
        simp only
        exact (List.Perm.swap q path _).trans (this.cons q)

theorem pendingPaths_eraseIdx_none :
    ∀ (l : List Task) (k : Nat) (t : Task), l.get? k = some t →
      t.pendingPath = none → pendingPaths (l.eraseIdx k) = pendingPaths l := by
  intro l
  induction l with
  | nil => intro k t h; cases h
  | cons a l ih =>
    intro k t h hp
    cases k with
    | zero =>
      simp only [List.get?_cons_zero, Option.some.injEq] at h
      subst h
      simp [pendingPaths, List.filterMap_cons, hp]
    | succ k =>
      simp only [List.get?_cons_succ] at h
      have := ih k t h hp
      simp only [pendingPaths] at this
      simp [pendingPaths, List.filterMap_cons, this]

theorem Inv_of_Running (cfg : Config) (st : Sched) (i j : Nat) (r : Running cfg st i j)
    (hj : j ≤ cfg.bases.length)
    (ho : List.Pairwise (fun a b => a ≤ b) (iterations st.trace))
    (hb : Barrier cfg.bases.length st.trace) (hl : Live cfg st) : Inv cfg st where
  inflight := by have := r.finishedUnits; omega
  sameDate := fun t ht t' ht' => by rw [r.current t ht, r.current t' ht']
  ordered := ho
  barrier := hb
  live := hl

theorem Inv_init (cfg : Config) : Inv cfg (Sched.init cfg) := by
  unfold Sched.init enterIteration
  by_cases h : ((0 : Nat) : Int) < cfg.delta
  · rw [if_pos h]
    refine Inv_of_Running cfg _ 0 0 ?_ (Nat.zero_le _) List.Pairwise.nil ?_ ?_
    · exact ⟨rfl, by simp, by simp [iterations], by simp, by simp, by simp, by simp, by simp,
        by simp, h, by simp [launches, launchedUnits], by simp,
        by simp [storePaths, pendingPaths, launchedUnits]⟩
    · intro pre post i b heq
      simp at heq
    · simp only [Live]
      exact ⟨Nat.le_refl _, by simp, ⟨rfl, by simp, by simp [iterations], by simp, by simp,
        by simp, by simp, by simp, by simp, h, by simp [launches, launchedUnits], by simp,
        by simp [storePaths, pendingPaths, launchedUnits]⟩⟩
  · rw [if_neg h]
    have hd : cfg.delta.toNat = 0 := by omega
    refine ⟨by simp, by simp, List.Pairwise.nil, ?_, ?_⟩
    · intro pre post i b heq
      simp at heq
    · simp [Live, hd, launches, launchedUnits, storePaths]

theorem Inv_stepMain (env : Env) (cfg : Config) (st st' : Sched) (h : Inv cfg st)
    (hs : stepMain env cfg st = some st') : Inv cfg st' := by
  have hl := h.live
  unfold stepMain at hs
  cases hpc : st.pc with
  | launching i rest =>
    simp only [Live, hpc] at hl
    obtain ⟨hrest, hdrop, r⟩ := hl
    cases rest with
    | nil =>
      simp only [hpc, Option.some.injEq] at hs
      subst hs
      have r' : Running cfg { st with pc := MainPC.waiting i } i cfg.bases.length := by
        simpa using
          (⟨r.counter, r.current, r.past, r.started, r.finishedUnits, r.earlier, r.fetches,
            r.stores, r.noLoad, r.inWindow, r.launched, r.dates, r.written⟩ :
            Running cfg { st with pc := MainPC.waiting i } i (cfg.bases.length - 0))
      exact Inv_of_Running cfg _ i _ r' (Nat.le_refl _) h.ordered h.barrier
        (by simpa [Live] using r')
    | cons b rest =>
      simp only [hpc, Option.some.injEq] at hs
      subst hs
      simp only [List.length_cons] at hrest r hdrop
      have hj : cfg.bases.length - rest.length = cfg.bases.length - (rest.length + 1) + 1 := by
        omega
      obtain ⟨htake, hdrop'⟩ := take_drop_step cfg.bases _ b rest hdrop
      have r' : Running cfg
          { pc := MainPC.launching i rest, wg := st.wg + 1,
            tasks := st.tasks ++ [⟨i, dateAt cfg i, b, TaskPC.fetching⟩],
            trace := st.trace ++ [Event.start i b] } i (cfg.bases.length - rest.length) := by
        rw [hj]
        refine ⟨?_, ?_, ?_, ?_, ?_, ?_, ?_, ?_, ?_, r.inWindow, ?_, ?_, ?_⟩
        rotate_right 3
        · show launches (st.trace ++ [Event.start i b]) = _
          rw [launches_append, r.launched]
          simp only [launchedUnits, htake, List.map_append, List.map_cons, List.map_nil,
            List.append_assoc]
          rfl
        · intro t ht
          rcases List.mem_append.1 ht with ht | ht
          · exact r.dates t ht
          · simp only [List.mem_singleton] at ht
            subst ht
            exact ⟨rfl, List.mem_of_mem_drop (hdrop ▸ List.mem_cons_self b rest)⟩
        · show List.Perm (storePaths (st.trace ++ [Event.start i b])
              ++ pendingPaths (st.tasks ++ [⟨i, dateAt cfg i, b, TaskPC.fetching⟩])) _
          have hw := r.written
          have e1 : storePaths (st.trace ++ [Event.start i b]) = storePaths st.trace := by
            rw [storePaths_append]; simp [storePaths]
          have e2 : pendingPaths (st.tasks ++ [⟨i, dateAt cfg i, b, TaskPC.fetching⟩])
              = pendingPaths st.tasks ++ [filename (dateAt cfg i) b] := by
            simp [pendingPaths, List.filterMap_append, Task.pendingPath]
          have e3 : (launchedUnits cfg i (cfg.bases.length - (rest.length + 1) + 1)).map
                (unitPath cfg)
              = (launchedUnits cfg i (cfg.bases.length - (rest.length + 1))).map (unitPath cfg)
                ++ [filename (dateAt cfg i) b] := by
            simp only [launchedUnits, htake, List.map_append, List.map_cons, List.map_nil,
              List.append_assoc, unitPath]
          rw [e1, e2, e3, ← List.append_assoc]
          exact hw.append_right _
        · simp [r.counter]
        · intro t ht
          rcases List.mem_append.1 ht with ht | ht
          · exact r.current t ht
          · simp only [List.mem_singleton] at ht
            subst ht
            rfl
        · intro k hk
          rw [iterations_append] at hk
          rcases List.mem_append.1 hk with hk | hk
          · exact r.past k hk
          · simp [iterations, Event.iteration] at hk
            omega
        · simp [List.countP_append, Event.isStartOf, r.started]
        · have := r.finishedUnits
          simp [List.countP_append, Event.isDoneOf]
          omega
        · intro i' hi'
          have := r.earlier i' hi'
          have hne : ¬ (i = i') := by omega
          simp [List.countP_append, Event.isStartOf, Event.isDoneOf, hne, this]
        · have := r.fetches
          simp [List.countP_append, Event.isFetch, Task.pendingFetch]
          omega
        · have := r.stores
          simp [List.countP_append, Event.isStore, Task.pendingStore]
          omega
        · simp [List.countP_append, Event.isLoad, r.noLoad]
      refine Inv_of_Running cfg _ i _ r' (by omega) ?_ ?_ ?_
      · show List.Pairwise _ (iterations (st.trace ++ [Event.start i b]))
        rw [iterations_append]
        exact pairwise_append_le _ i h.ordered r.past
      · show Barrier _ (st.trace ++ [Event.start i b])
        apply Barrier_start _ _ _ _ h.barrier
        intro i0 hi0
        exact r.earlier i0 (by omega)
      · simp only [Live]
        exact ⟨by omega, by rw [hj]; exact hdrop', r'⟩
  | waiting i =>
    simp only [Live, hpc] at hl
    simp only [hpc] at hs
    split at hs
    · rename_i hwg
      simp only [Option.some.injEq] at hs
      subst hs
      have htasks : st.tasks = [] := by
        have := hl.counter
        rw [hwg] at this
        exact List.length_eq_zero.1 this.symm
      have hstart := hl.started
      have hdone := hl.finishedUnits
      rw [htasks] at hdone
      simp only [List.length_nil, Nat.add_zero] at hdone
      unfold enterIteration
      by_cases hnext : ((i + 1 : Nat) : Int) < cfg.delta
      · rw [if_pos hnext]
        obtain ⟨z1, z2⟩ := countP_start_zero st.trace i (i + 1) hl.past (by omega)
        have r' : Running cfg
            { st with pc := MainPC.launching (i + 1) cfg.bases, wg := 0 } (i + 1) 0 := by
          refine ⟨?_, ?_, ?_, ?_, ?_, ?_, ?_, ?_, hl.noLoad, hnext, ?_, ?_, ?_⟩
          rotate_right 3
          · show launches st.trace = _
            rw [hl.launched, launchedUnits_succ]
          · intro t ht
            simp [htasks] at ht
          · show List.Perm (storePaths st.trace ++ pendingPaths st.tasks) _
            rw [launchedUnits_succ]
            exact hl.written
          · simp [htasks]
          · intro t ht
            simp [htasks] at ht
          · intro k hk
            have := hl.past k hk
            omega
          · exact z1
          · simp [htasks, z2]
          · intro i' hi'
            by_cases he : i' = i
            · subst he
              exact ⟨hstart, hdone⟩
            · exact hl.earlier i' (by omega)
          · have := hl.fetches
            simp only [htasks, List.map_nil, List.sum_nil] at this ⊢
            rw [this]; ring
          · have := hl.stores
            simp only [htasks, List.map_nil, List.sum_nil] at this ⊢
            rw [this]; ring
        refine Inv_of_Running cfg _ (i + 1) 0 r' (Nat.zero_le _) h.ordered h.barrier ?_
        simp only [Live]
        refine ⟨Nat.le_refl _, by simp, ?_⟩
        simpa using r'
      · rw [if_neg hnext]
        have hd : cfg.delta.toNat = i + 1 := by
          have := hl.inWindow
          omega
        refine ⟨by simp [htasks], by simp [htasks], h.ordered, h.barrier, ?_⟩
        simp only [Live]
        have hf := hl.fetches
        have hst := hl.stores
        simp only [htasks, List.map_nil, List.sum_nil, Nat.add_zero] at hf hst
        refine ⟨htasks, ?_, ?_, hl.noLoad, ?_, ?_⟩
        · rw [hf, hd]; ring
        · rw [hst, hd]; ring
        · rw [hd, launchedUnits_succ]
          exact hl.launched
        · have hw := hl.written
          rw [htasks] at hw
          simp only [pendingPaths, List.filterMap_nil, List.append_nil] at hw
          rw [hd, launchedUnits_succ]
          exact hw
    · cases hs
  | loading =>
    simp only [Live, hpc] at hl
    obtain ⟨htasks, hf, hst, hld, hlaunch, hwritten⟩ := hl
    simp only [hpc] at hs
    split at hs
    · simp only [Option.some.injEq] at hs
      subst hs
      refine ⟨by simp [htasks], by simp [htasks], ?_, ?_, ?_⟩
      · show List.Pairwise _ (iterations (st.trace ++ [Event.load (loadURI cfg)]))
        rw [iterations_append]
        simpa [iterations, Event.iteration] using h.ordered
      · exact Barrier_append _ _ _ h.barrier (by simp)
      · simp only [Live]
        refine ⟨htasks, ?_, ?_, ?_, ?_, ?_, ?_⟩
        · simp [List.countP_append, Event.isFetch, hf]
        · simp [List.countP_append, Event.isStore, hst]
        · simp [List.countP_append, Event.isLoad, hld]
        · simp
        · show launches (st.trace ++ [Event.load (loadURI cfg)]) = _
          rw [launches_append, hlaunch]
          simp [launches]
        · show List.Perm (storePaths (st.trace ++ [Event.load (loadURI cfg)])) _
          rw [storePaths_append]
          simpa [storePaths] using hwritten
    · simp only [Option.some.injEq] at hs
      subst hs
      refine ⟨by simp [htasks], by simp [htasks], ?_, ?_, ?_⟩
      · show List.Pairwise _ (iterations (st.trace ++ [Event.load (loadURI cfg), Event.fatal none]))
        rw [iterations_append]
        simpa [iterations, Event.iteration] using h.ordered
      · exact Barrier_append _ _ _ h.barrier (by simp)
      · simp only [Live]
  | finished => simp only [hpc] at hs; cases hs
  | exited => simp only [hpc] at hs; cases hs

/-- A step of a work unit of the current iteration: the bookkeeping is kept, or the
process has ended. -/
theorem stepTask_spec (env : Env) (cfg : Config) (st st' : Sched) (k i j : Nat)
    (r : Running cfg st i j)
    (ho : List.Pairwise (fun a b => a ≤ b) (iterations st.trace))
    (hb : Barrier cfg.bases.length st.trace)
    (hs : stepTask env cfg st k = some st') :
    (st'.pc = st.pc ∧ Running cfg st' i j ∧
        List.Pairwise (fun a b => a ≤ b) (iterations st'.trace) ∧
        Barrier cfg.bases.length st'.trace) ∨
    (st'.pc = MainPC.exited ∧ st'.tasks = st.tasks ∧
        List.Pairwise (fun a b => a ≤ b) (iterations st'.trace) ∧
        Barrier cfg.bases.length st'.trace) := by
  unfold stepTask at hs
  split at hs
  · cases hs
  · cases hs
  · cases hk : st.tasks.get? k with
    | none => rw [hk] at hs; cases hs
    | some t =>
      rw [hk] at hs
      simp only at hs
      have hti : t.i = i := r.current t (mem_of_get? hk)
      have hord : ∀ (es : List Event), iterations es = [i] ∨ iterations es = [] →
          List.Pairwise (fun a b => a ≤ b) (iterations (st.trace ++ es)) := by
        intro es hes
        rw [iterations_append]
        rcases hes with hes | hes
        · rw [hes]; exact pairwise_append_le _ i ho r.past
        · rw [hes]; simpa using ho
      have hpast : ∀ (es : List Event), iterations es = [i] →
          ∀ k' ∈ iterations (st.trace ++ es), k' ≤ i := by
        intro es hes k' hk'
        rw [iterations_append, hes] at hk'
        rcases List.mem_append.1 hk' with hk' | hk'
        · exact r.past k' hk'
        · simp at hk'; omega
      obtain ⟨ti, td, tbase, tpc⟩ := t
      simp only at hti
      subst hti
      cases tpc with
      | fetching =>
        simp only at hs
        cases hF : Fetch env.net cfg.appId td tbase with
        | ok content =>
          rw [hF] at hs
          simp only [Option.some.injEq] at hs
          subst hs
          left
          refine ⟨rfl, ?_, hord _ (Or.inl rfl), Barrier_append _ _ _ hb (by simp)⟩
          have hsum1 := sum_map_set Task.pendingFetch st.tasks k _
            ⟨ti, td, tbase, TaskPC.storing content⟩ hk
          have hsum2 := sum_map_set Task.pendingStore st.tasks k _
            ⟨ti, td, tbase, TaskPC.storing content⟩ hk
          have v1 : Task.pendingFetch ⟨ti, td, tbase, TaskPC.fetching⟩ = 1 := rfl
          have v2 : Task.pendingFetch ⟨ti, td, tbase, TaskPC.storing content⟩ = 0 := rfl
          have v3 : Task.pendingStore ⟨ti, td, tbase, TaskPC.fetching⟩ = 1 := rfl
          have v4 : Task.pendingStore ⟨ti, td, tbase, TaskPC.storing content⟩ = 1 := rfl
          rw [v1, v2] at hsum1
          rw [v3, v4] at hsum2
          have hdate : td = dateAt cfg ti ∧ tbase ∈ cfg.bases := r.dates _ (mem_of_get? hk)
          have hdates : ∀ t ∈ st.tasks.set k ⟨ti, td, tbase, TaskPC.storing content⟩,
              t.d = dateAt cfg t.i ∧ t.base ∈ cfg.bases := by
            intro t ht
            rcases mem_set_imp ht with ht | ht
            · rw [ht]; exact hdate
            · exact r.dates t ht
          refine ⟨?_, ?_, hpast _ rfl, ?_, ?_, ?_, ?_, ?_, ?_, r.inWindow,
            by rw [← r.launched, launches_append]; simp [launches], hdates, ?_⟩
          rotate_right
          · show List.Perm (storePaths (st.trace ++ [Event.fetch ti td tbase])
                ++ pendingPaths (st.tasks.set k ⟨ti, td, tbase, TaskPC.storing content⟩)) _
            have e1 : storePaths (st.trace ++ [Event.fetch ti td tbase]) = storePaths st.trace := by
              rw [storePaths_append]; simp [storePaths]
            rw [e1, pendingPaths_set_same st.tasks k ⟨ti, td, tbase, TaskPC.fetching⟩
              ⟨ti, td, tbase, TaskPC.storing content⟩ hk rfl]
            exact r.written
          · simp [r.counter]
          · intro t ht
            rcases mem_set_imp ht with ht | ht
            · rw [ht]
            · exact r.current t ht
          · simp [List.countP_append, Event.isStartOf, r.started]
          · have := r.finishedUnits
            simp [List.countP_append, Event.isDoneOf]
            omega
          · intro i' hi'
            have := r.earlier i' hi'
            simp [List.countP_append, Event.isStartOf, Event.isDoneOf, this]
          · have := r.fetches
            simp only [List.countP_append, List.countP_singleton, Event.isFetch, if_true]
            omega
          · have := r.stores
            simp only [List.countP_append, List.countP_singleton, Event.isStore,
              Bool.false_eq_true, if_false]
            omega
          · simp [List.countP_append, Event.isLoad, r.noLoad]
        | error e =>
          rw [hF] at hs
          simp only [Option.some.injEq] at hs
          subst hs
          right
          exact ⟨rfl, rfl, hord _ (Or.inl rfl), Barrier_append _ _ _ hb (by simp)⟩
      | storing content =>
        simp only at hs
        split at hs
        · simp only [Option.some.injEq] at hs
          subst hs
          left
          refine ⟨rfl, ?_, hord _ (Or.inl rfl), Barrier_append _ _ _ hb (by simp)⟩
          have hsum1 := sum_map_set Task.pendingFetch st.tasks k _
            ⟨ti, td, tbase, TaskPC.finishing⟩ hk
          have hsum2 := sum_map_set Task.pendingStore st.tasks k _
            ⟨ti, td, tbase, TaskPC.finishing⟩ hk
          have v1 : Task.pendingFetch ⟨ti, td, tbase, TaskPC.storing content⟩ = 0 := rfl
          have v2 : Task.pendingFetch ⟨ti, td, tbase, TaskPC.finishing⟩ = 0 := rfl
          have v3 : Task.pendingStore ⟨ti, td, tbase, TaskPC.storing content⟩ = 1 := rfl
          have v4 : Task.pendingStore ⟨ti, td, tbase, TaskPC.finishing⟩ = 0 := rfl
          rw [v1, v2] at hsum1
          rw [v3, v4] at hsum2
          have hdate : td = dateAt cfg ti ∧ tbase ∈ cfg.bases := r.dates _ (mem_of_get? hk)
          have hdates : ∀ t ∈ st.tasks.set k ⟨ti, td, tbase, TaskPC.finishing⟩,
              t.d = dateAt cfg t.i ∧ t.base ∈ cfg.bases := by
            intro t ht
            rcases mem_set_imp ht with ht | ht
            · rw [ht]; exact hdate
            · exact r.dates t ht
          refine ⟨?_, ?_, hpast _ rfl, ?_, ?_, ?_, ?_, ?_, ?_, r.inWindow,
            by rw [← r.launched, launches_append]; simp [launches], hdates, ?_⟩
          rotate_right
          · show List.Perm (storePaths (st.trace ++ [Event.store ti (filename td tbase) content])
                ++ pendingPaths (st.tasks.set k ⟨ti, td, tbase, TaskPC.finishing⟩)) _
            have e1 : storePaths (st.trace ++ [Event.store ti (filename td tbase) content])
                = storePaths st.trace ++ [filename td tbase] := by
              rw [storePaths_append]; simp [storePaths]
            have e2 := pendingPaths_set_none st.tasks k ⟨ti, td, tbase, TaskPC.storing content⟩
              ⟨ti, td, tbase, TaskPC.finishing⟩ (filename td tbase) hk rfl rfl
            rw [e1, List.append_assoc]
            exact (List.Perm.append_left _ e2).trans r.written
          · simp [r.counter]
          · intro t ht
            rcases mem_set_imp ht with ht | ht
            · rw [ht]
            · exact r.current t ht
          · simp [List.countP_append, Event.isStartOf, r.started]
          · have := r.finishedUnits
            simp [List.countP_append, Event.isDoneOf]
            omega
          · intro i' hi'
            have := r.earlier i' hi'
            simp [List.countP_append, Event.isStartOf, Event.isDoneOf, this]
          · have := r.fetches
            simp only [List.countP_append, List.countP_singleton, Event.isFetch,
              Bool.false_eq_true, if_false]
            omega
          · have := r.stores
            simp only [List.countP_append, List.countP_singleton, Event.isStore, if_true]
            omega
          · simp [List.countP_append, Event.isLoad, r.noLoad]
        · simp only [Option.some.injEq] at hs
          subst hs
          right
          exact ⟨rfl, rfl, hord _ (Or.inl rfl), Barrier_append _ _ _ hb (by simp)⟩
      | finishing =>
        simp only [Option.some.injEq] at hs
        subst hs
        left
        refine ⟨rfl, ?_, hord _ (Or.inl rfl), Barrier_append _ _ _ hb (by simp)⟩
        obtain ⟨e1, elen⟩ := sum_map_eraseIdx Task.pendingFetch st.tasks k _ hk
        obtain ⟨e2, _⟩ := sum_map_eraseIdx Task.pendingStore st.tasks k _ hk
        have v1 : Task.pendingFetch ⟨ti, td, tbase, TaskPC.finishing⟩ = 0 := rfl
        have v2 : Task.pendingStore ⟨ti, td, tbase, TaskPC.finishing⟩ = 0 := rfl
        rw [v1] at e1
        rw [v2] at e2
        refine ⟨?_, ?_, hpast _ rfl, ?_, ?_, ?_, ?_, ?_, ?_, r.inWindow,
            by rw [← r.launched, launches_append]; simp [launches],
            fun t ht => r.dates t (mem_eraseIdx_imp ht), ?_⟩
        rotate_right
        · show List.Perm (storePaths (st.trace ++ [Event.done ti tbase])
              ++ pendingPaths (st.tasks.eraseIdx k)) _
          have e1 : storePaths (st.trace ++ [Event.done ti tbase]) = storePaths st.trace := by
            rw [storePaths_append]; simp [storePaths]
          rw [e1, pendingPaths_eraseIdx_none st.tasks k ⟨ti, td, tbase, TaskPC.finishing⟩ hk rfl]
          exact r.written
        · have := r.counter
          simp only
          omega
        · intro t ht
          exact r.current t (mem_eraseIdx_imp ht)
        · simp [List.countP_append, Event.isStartOf, r.started]
        · have := r.finishedUnits
          simp only [List.countP_append, List.countP_singleton, Event.isDoneOf,
            decide_True, if_true]
          omega
        · intro i' hi'
          have := r.earlier i' hi'
          have hne : ¬ (ti = i') := by omega
          simp [List.countP_append, Event.isStartOf, Event.isDoneOf, this, hne]
        · have := r.fetches
          simp only [List.countP_append, List.countP_singleton, Event.isFetch,
            Bool.false_eq_true, if_false]
          omega
        · have := r.stores
          simp only [List.countP_append, List.countP_singleton, Event.isStore,
            Bool.false_eq_true, if_false]
          omega
        · simp [List.countP_append, Event.isLoad, r.noLoad]

theorem Inv_stepTask (env : Env) (cfg : Config) (st st' : Sched) (k : Nat) (h : Inv cfg st)
    (hs : stepTask env cfg st k = some st') : Inv cfg st' := by
  have hl := h.live
  cases hpc : st.pc with
  | launching i rest =>
    simp only [Live, hpc] at hl
    obtain ⟨hrest, hdrop, r⟩ := hl
    rcases stepTask_spec env cfg st st' k i _ r h.ordered h.barrier hs with
      ⟨hpc', r', ho', hb'⟩ | ⟨hpc', ht', ho', hb'⟩
    · refine Inv_of_Running cfg st' i _ r' (by omega) ho' hb' ?_
      rw [hpc] at hpc'
      simp only [Live, hpc']
      exact ⟨hrest, hdrop, r'⟩
    · refine ⟨by rw [ht']; exact h.inflight, by rw [ht']; exact h.sameDate, ho', hb', ?_⟩
      simp only [Live, hpc']
  | waiting i =>
    simp only [Live, hpc] at hl
    rcases stepTask_spec env cfg st st' k i _ hl h.ordered h.barrier hs with
      ⟨hpc', r', ho', hb'⟩ | ⟨hpc', ht', ho', hb'⟩
    · refine Inv_of_Running cfg st' i _ r' (Nat.le_refl _) ho' hb' ?_
      rw [hpc] at hpc'
      simp only [Live, hpc']
      exact r'
    · refine ⟨by rw [ht']; exact h.inflight, by rw [ht']; exact h.sameDate, ho', hb', ?_⟩
      simp only [Live, hpc']
  | loading =>
    simp only [Live, hpc] at hl
    unfold stepTask at hs
    simp only [hpc, hl.1, List.get?_nil] at hs
    cases hs
  | finished =>
    unfold stepTask at hs
    simp only [hpc] at hs
    cases hs
  | exited =>
    unfold stepTask at hs
    simp only [hpc] at hs
    cases hs

theorem Inv_step (env : Env) (cfg : Config) (st st' : Sched) (t : Turn) (h : Inv cfg st)
    (hs : step env cfg st t = some st') : Inv cfg st' := by
  cases t with
  | main => exact Inv_stepMain env cfg st st' h hs
  | task k => exact Inv_stepTask env cfg st st' k h hs

theorem Inv_runFrom (env : Env) (cfg : Config) (turns : List Turn) :
    ∀ (st st' : Sched), Inv cfg st → runFrom env cfg st turns = some st' → Inv cfg st' := by
  induction turns with
  | nil =>
    intro st st' h hr
    simp only [runFrom, Option.some.injEq] at hr
    subst hr
    exact h
  | cons t turns ih =>
    intro st st' h hr
    unfold runFrom at hr
    cases hstep : step env cfg st t with
    | none => rw [hstep] at hr; cases hr
    | some st1 =>
      rw [hstep] at hr
      exact ih st1 st' (Inv_step env cfg st st1 t h hstep) hr

/-- Every state a schedule reaches satisfies the invariant. -/
theorem Inv_run (env : Env) (cfg : Config) (turns : List Turn) (st : Sched)
    (hr : run env cfg turns = some st) : Inv cfg st :=
  Inv_runFrom env cfg turns _ st (Inv_init cfg) hr

theorem loadURI_eq (cfg : Config) :
    loadURI cfg = "gs://".toList ++ cfg.bucketName ++ "/rates/*".toList := by
  simp [loadURI, Sprintf]

/-- The boundary `delta = 0`: the run is the load job alone. -/
theorem run_empty_window :
    run (constEnv scenarioBody) emptyWindowConfig [Turn.main]
      = some ⟨MainPC.finished, 0, [], [Event.load "gs://bucket/rates/*".toList]⟩ := by
  rfl

/-- C10: in every execution, at every instant (after every schedule of goroutine steps):
at most `|bases|` work units are in flight and they all belong to one iteration of the
window; the events of the run are ordered by iteration, so no fetch, write or
`wg.Done()` of date `i` comes after an event of a later date; and when a work unit of
date `i + 1` is launched, all `|bases|` work units of date `i` have been launched and
have finished (`wg.Done()`). -/
theorem run_barrier (env : Env) (cfg : Config) (turns : List Turn) (st : Sched)
    (hrun : run env cfg turns = some st) :
    st.tasks.length ≤ cfg.bases.length ∧
    (∀ t ∈ st.tasks, ∀ t' ∈ st.tasks, t.i = t'.i) ∧
    List.Pairwise (fun a b => a ≤ b) (st.trace.filterMap Event.iteration) ∧
    (∀ (pre post : List Event) (i : Nat) (b : GoString),
      st.trace = pre ++ Event.start (i + 1) b :: post →
        pre.countP (Event.isStartOf i) = cfg.bases.length ∧
        pre.countP (Event.isDoneOf i) = cfg.bases.length) := by
  have h := Inv_run env cfg turns st hrun
  exact ⟨h.inflight, h.sameDate, h.ordered, h.barrier⟩

set_option maxRecDepth 1000000 in
/-- C10 on the scenario, fifteen turns into `scenarioSchedule`, past the first
`wg.Wait()`: both work units of 2024-03-09 are in flight (the bound `|bases| = 2` is
reached), and the launch of the first of them (`start 1 USD`) comes after the two
launches, the two storage writes and the two `wg.Done()` of 2024-03-10. -/
theorem run_barrier_witness :
    run (constEnv scenarioBody) scenarioConfig (scenarioSchedule.take 15)
      = some scenarioSecondDate ∧
    scenarioSecondDate.trace
      = [Event.start 0 "USD".toList,
         Event.fetch 0 (Time.ofCivil ⟨2024, 3, 10⟩) "USD".toList,
         Event.start 0 "EUR".toList,
         Event.fetch 0 (Time.ofCivil ⟨2024, 3, 10⟩) "EUR".toList,
         Event.store 0 "rates/2024/03/10/EUR/export.json.gz".toList
           (scenarioPayload "2024-03-10".toList),
         Event.store 0 "rates/2024/03/10/USD/export.json.gz".toList
           (scenarioPayload "2024-03-10".toList),
         Event.done 0 "EUR".toList,
         Event.done 0 "USD".toList]
        ++ Event.start (0 + 1) "USD".toList
          :: [Event.start 1 "EUR".toList,
              Event.fetch 1 (Time.ofCivil ⟨2024, 3, 9⟩) "EUR".toList,
              Event.fetch 1 (Time.ofCivil ⟨2024, 3, 9⟩) "USD".toList] ∧
    (scenarioSecondDate.tasks.length ≤ 2 ∧
     (∀ t ∈ scenarioSecondDate.tasks, ∀ t' ∈ scenarioSecondDate.tasks, t.i = t'.i) ∧
     List.Pairwise (fun a b => a ≤ b) (scenarioSecondDate.trace.filterMap Event.iteration) ∧
     (∀ (pre post : List Event) (i : Nat) (b : GoString),
       scenarioSecondDate.trace = pre ++ Event.start (i + 1) b :: post →
         pre.countP (Event.isStartOf i) = 2 ∧
         pre.countP (Event.isDoneOf i) = 2)) :=
  ⟨by rfl, by rfl,
   run_barrier (constEnv scenarioBody) scenarioConfig (scenarioSchedule.take 15)
     scenarioSecondDate (by rfl)⟩

namespace Float64

/-! ## Every float the program computes is a canonical binary64 -/

theorem roundHalfEven_bounds (n d : Nat) :
    n / d ≤ roundHalfEven n d ∧ roundHalfEven n d ≤ n / d + 1 := by
  unfold roundHalfEven
  simp only
  split_ifs <;> constructor <;> omega

/-- The result of rounding is a canonical value. -/
theorem ofRatio_canonical (neg : Bool) (n d : Nat) (e : Int) (hn : 0 < n) (hd : 0 < d) :
    Canonical (ofRatio neg n d e) := by
  obtain ⟨l1, l2⟩ := ilog2_spec n d hn hd
  unfold ofRatio
  simp only
  generalize hE : max (ilog2 n d + e - 52) minExp = E
  obtain ⟨p2, pv⟩ := scale_val n d (e - E) hd
  generalize hp : scale n d (e - E) = p at p2 pv
  obtain ⟨b1, b2⟩ := roundHalfEven_bounds p.1 p.2
  generalize hM : roundHalfEven p.1 p.2 = M at b1 b2
  have h2 : (2 : ℚ) ≠ 0 := by norm_num
  have hp2q : (0 : ℚ) < p.2 := by exact_mod_cast p2
  have pe : (0 : ℚ) < (2 : ℚ) ^ (e - E) := by positivity
  -- the scaled value lies in the binade `ilog2 n d + e - E`
  have lo : (2 : ℚ) ^ (ilog2 n d + (e - E)) ≤ (p.1 : ℚ) / p.2 := by
    rw [pv, zpow_add₀ h2]
    exact mul_le_mul_of_nonneg_right l1 pe.le
  have hi : (p.1 : ℚ) / p.2 < (2 : ℚ) ^ (ilog2 n d + (e - E) + 1) := by
    rw [pv]
    have : ilog2 n d + (e - E) + 1 = (ilog2 n d + 1) + (e - E) := by ring
    rw [this, zpow_add₀ h2]
    exact mul_lt_mul_of_pos_right l2 pe
  have hEmin : minExp ≤ E := by rw [← hE]; exact le_max_right _ _
  -- upper bound on the quotient
  have hq53 : p.1 / p.2 < 2 ^ 53 := by
    have hle : ilog2 n d + (e - E) + 1 ≤ 53 := by
      have : ilog2 n d + e - 52 ≤ E := by rw [← hE]; exact le_max_left _ _
      omega
    have h53 : (p.1 : ℚ) / p.2 < (2 : ℚ) ^ (53 : ℤ) :=
      lt_of_lt_of_le hi (zpow_le_zpow_right₀ (by norm_num) hle)
    rw [div_lt_iff₀ hp2q] at h53
    have : p.1 < 2 ^ 53 * p.2 := by
      have h' : ((p.1 : ℕ) : ℚ) < ((2 ^ 53 * p.2 : ℕ) : ℚ) := by
        push_cast
        norm_num at h53 ⊢
        exact h53
      exact_mod_cast h'
    exact (Nat.div_lt_iff_lt_mul p2).2 this
  by_cases hcarry : 2 ^ 53 ≤ M
  · simp only [hcarry, if_true]
    have hM53 : M = 2 ^ 53 := by omega
    split_ifs with hover
    · trivial
    · refine ⟨?_, ?_, ?_, ?_⟩
      · rw [hM53]; norm_num
      · unfold minExp at *; omega
      · omega
      · intro _; rw [hM53]; norm_num
  · simp only [hcarry, if_false]
    split_ifs with hover
    · trivial
    · refine ⟨by omega, hEmin, by omega, ?_⟩
      intro hlt
      -- normal range: the exponent was chosen from the binade
      have hEeq : E = ilog2 n d + e - 52 := by
        rw [← hE]
        apply max_eq_left
        by_contra hcon
        have : max (ilog2 n d + e - 52) minExp = minExp := max_eq_right (by omega)
        rw [this] at hE
        omega
      have hexp : ilog2 n d + (e - E) = 52 := by omega
      rw [hexp] at lo
      have h52 : (2 : ℚ) ^ (52 : ℤ) ≤ (p.1 : ℚ) / p.2 := lo
      rw [le_div_iff₀ hp2q] at h52
      have : 2 ^ 52 * p.2 ≤ p.1 := by
        have h' : ((2 ^ 52 * p.2 : ℕ) : ℚ) ≤ ((p.1 : ℕ) : ℚ) := by
          push_cast
          norm_num at h52 ⊢
          exact h52
        exact_mod_cast h'
      have : 2 ^ 52 ≤ p.1 / p.2 := (Nat.le_div_iff_mul_le p2).2 this
      omega

theorem zero_canonical (neg : Bool) : Canonical (zero neg) := by
  unfold zero Canonical minExp maxExp
  norm_num

/-- A quotient of float64 values is a canonical float64 value. -/
theorem div_canonical (x y : Float64) : Canonical (div x y) := by
  cases x with
  | nan => simp [div, Canonical]
  | inf s =>
    cases y with
    | nan => simp [div, Canonical]
    | inf t => simp [div, Canonical]
    | fin t m' e' => simp [div, Canonical]
  | fin s m e =>
    cases y with
    | nan => simp [div, Canonical]
    | inf t => simpa [div] using zero_canonical (s != t)
    | fin t m' e' =>
      simp only [div]
      split_ifs with h1 h2 h3
      · trivial
      · trivial
      · exact zero_canonical _
      · exact ofRatio_canonical _ _ _ _ (Nat.pos_of_ne_zero h3) (Nat.pos_of_ne_zero h1)

/-- A decimal literal reads as a canonical float64 value. -/
theorem ofDecimal_canonical (neg : Bool) (mant : Nat) (q : Int) :
    Canonical (ofDecimal neg mant q) := by
  unfold ofDecimal
  split_ifs with h
  · exact zero_canonical _
  · simp only
    cases q with
    | ofNat k =>
      exact ofRatio_canonical _ _ _ _
        (Nat.mul_pos (Nat.pos_of_ne_zero h) (by positivity)) Nat.one_pos
    | negSucc k =>
      exact ofRatio_canonical _ _ _ _ (Nat.pos_of_ne_zero h)
        (Nat.mul_pos Nat.one_pos (by positivity))

end Float64

/-- In a run that reaches the end of `main`, the work units were launched in the order of
`workUnits`: iteration by iteration, base by base. -/
theorem run_launches (env : Env) (cfg : Config) (turns : List Turn) (st : Sched)
    (hrun : run env cfg turns = some st) (hfin : st.pc = MainPC.finished) :
    (launches st.trace).map (fun u => (dateAt cfg u.1, u.2)) = workUnits cfg := by
  have hl := (Inv_run env cfg turns st hrun).live
  simp only [Live, hfin] at hl
  obtain ⟨_, _, _, _, _, hlaunch, _⟩ := hl
  rw [hlaunch]
  simp only [launchedUnits, List.take_zero, List.map_nil, List.append_nil, workUnits]
  induction cfg.delta.toNat with
  | zero => simp
  | succ n ih =>
    rw [List.range_succ, List.flatMap_append, List.flatMap_append, List.map_append, ih]
    simp

/-- C6, amended: for every end date `from` and every delta `d` with `d ≤ 106752`, the dates
processed are, in this order, `from, from - 1 day, ..., from - (d-1) days`: the `i`-th is
the instant `i` times 24 hours before `from` and falls on the calendar date `i` days
before that of `from`; the work units are these dates crossed with the configured
bases, and every run that reaches the end of `main` has launched exactly them, in that
order. -/
theorem windowDates_in_order (cfg : Config) (hdelta : cfg.delta ≤ 106752) :
    windowDates cfg
      = (List.range cfg.delta.toNat).map (fun i => ⟨cfg.fromDate.ns - (i : Int) * nsPerDay⟩) ∧
    (∀ i, i < cfg.delta.toNat →
      (dateAt cfg i).Date = civilFromDays (cfg.fromDate.dayNumber - i)) ∧
    workUnits cfg = (windowDates cfg).flatMap (fun d => cfg.bases.map fun b => (d, b)) ∧
    (∀ (env : Env) (turns : List Turn) (st : Sched),
      run env cfg turns = some st → st.pc = MainPC.finished →
      (launches st.trace).map (fun u => (dateAt cfg u.1, u.2)) = workUnits cfg) := by
  refine ⟨?_, ?_, ?_, ?_⟩
  · unfold windowDates
    apply List.map_congr_left
    intro i hi
    have := List.mem_range.1 hi
    exact dateAt_small cfg i (by omega)
  · intro i hi
    unfold Time.Date
    rw [dayNumber_dateAt_small cfg i (by omega)]
  · unfold workUnits windowDates
    rw [List.flatMap_map]
  · intro env turns st hrun hfin
    exact run_launches env cfg turns st hrun hfin

/-- C6, the scenario of the specification: `from = 2024-03-10`, `delta = 2`, bases
`USD`, `EUR` give the dates 2024-03-10, 2024-03-09 and exactly the four work units
`{2024-03-10, 2024-03-09} x {USD, EUR}`. -/
theorem windowDates_in_order_witness :
    windowDates scenarioConfig
      = [Time.ofCivil ⟨2024, 3, 10⟩, Time.ofCivil ⟨2024, 3, 9⟩] ∧
    (∀ i, i < 2 →
      (dateAt scenarioConfig i).Date
        = civilFromDays ((Time.ofCivil ⟨2024, 3, 10⟩).dayNumber - i)) ∧
    workUnits scenarioConfig
      = [(Time.ofCivil ⟨2024, 3, 10⟩, "USD".toList), (Time.ofCivil ⟨2024, 3, 10⟩, "EUR".toList),
         (Time.ofCivil ⟨2024, 3, 9⟩, "USD".toList), (Time.ofCivil ⟨2024, 3, 9⟩, "EUR".toList)] ∧
    (∀ (env : Env) (turns : List Turn) (st : Sched),
      run env scenarioConfig turns = some st → st.pc = MainPC.finished →
      (launches st.trace).map (fun u => (dateAt scenarioConfig u.1, u.2))
        = workUnits scenarioConfig) :=
  windowDates_in_order scenarioConfig (by decide)

/-! ## The records the program makes hold canonical floats -/

theorem decodeFloat64_canonical {v : JVal} {x : Float64}
    (h : decodeFloat64 v = .ok (some x)) : Float64.Canonical x := by
  cases v with
  | num n =>
    simp only [decodeFloat64] at h
    cases ht : n.toFloat64 with
    | none => rw [ht] at h; cases h
    | some y =>
      rw [ht] at h
      simp only [Except.ok.injEq, Option.some.injEq] at h
      subst h
      unfold JNumber.toFloat64 at ht
      simp only at ht
      split at ht
      · simp only [Option.some.injEq] at ht
        rw [← ht]
        exact Float64.ofDecimal_canonical _ _ _
      · cases ht
  | null => simp [decodeFloat64] at h
  | bool _ => simp [decodeFloat64] at h
  | str _ => simp [decodeFloat64] at h
  | arr _ => simp [decodeFloat64] at h
  | obj _ => simp [decodeFloat64] at h

theorem mapSet_canonical (m : List (GoString × Float64)) (k : GoString) (v : Float64)
    (hm : ∀ e ∈ m, Float64.Canonical e.2) (hv : Float64.Canonical v) :
    ∀ e ∈ mapSet m k v, Float64.Canonical e.2 := by
  induction m with
  | nil =>
    intro e he
    simp only [mapSet, List.mem_singleton] at he
    subst he
    exact hv
  | cons a m ih =>
    intro e he
    obtain ⟨k', v'⟩ := a
    simp only [mapSet] at he
    split at he
    · rcases List.mem_cons.1 he with he | he
      · subst he; exact hv
      · exact hm e (List.mem_cons_of_mem _ he)
    · rcases List.mem_cons.1 he with he | he
      · subst he; exact hm _ (List.mem_cons_self _ _)
      · exact ih (fun e' he' => hm e' (List.mem_cons_of_mem _ he')) e he

theorem decodeRatesMembers_canonical (ms : List (GoString × JVal)) :
    ∀ (m m' : List (GoString × Float64)), (∀ e ∈ m, Float64.Canonical e.2) →
      decodeRatesMembers m ms = .ok m' → ∀ e ∈ m', Float64.Canonical e.2 := by
  induction ms with
  | nil =>
    intro m m' hm h
    simp only [decodeRatesMembers, Except.ok.injEq] at h
    subst h
    exact hm
  | cons kv rest ih =>
    intro m m' hm h
    obtain ⟨k, v⟩ := kv
    unfold decodeRatesMembers at h
    cases hd : decodeFloat64 v with
    | error e => rw [hd] at h; cases h
    | ok o =>
      rw [hd] at h
      refine ih _ m' (mapSet_canonical m k _ hm ?_) h
      cases o with
      | none => exact Float64.zero_canonical false
      | some x => exact decodeFloat64_canonical hd

theorem decodeMembers_canonical (ms : List (GoString × JVal)) :
    ∀ (r r' : OpenExchangeRateResponse), (∀ e ∈ r.Rates, Float64.Canonical e.2) →
      OpenExchangeRateResponse.decodeMembers r ms = .ok r' →
      ∀ e ∈ r'.Rates, Float64.Canonical e.2 := by
  induction ms with
  | nil =>
    intro r r' hr h
    simp only [OpenExchangeRateResponse.decodeMembers, Except.ok.injEq] at h
    subst h
    exact hr
  | cons kv rest ih =>
    intro r r' hr h
    unfold OpenExchangeRateResponse.decodeMembers at h
    cases hd : r.decodeMember kv with
    | error e => rw [hd] at h; cases h
    | ok r1 =>
      rw [hd] at h
      refine ih r1 r' ?_ h
      unfold OpenExchangeRateResponse.decodeMember at hd
      split_ifs at hd with c1 c2 c3
      · cases hs : decodeString kv.2 with
        | error e => rw [hs] at hd; cases hd
        | ok o => rw [hs] at hd; cases hd; exact hr
      · cases hs : decodeInt64 kv.2 with
        | error e => rw [hs] at hd; cases hd
        | ok o => rw [hs] at hd; cases hd; exact hr
      · cases hs : decodeRates r.Rates kv.2 with
        | error e => rw [hs] at hd; cases hd
        | ok m =>
          rw [hs] at hd
          cases hd
          simp only
          cases hv : kv.2 with
          | null =>
            rw [hv] at hs
            simp only [decodeRates, Except.ok.injEq] at hs
            subst hs
            simp
          | obj members =>
            rw [hv] at hs
            exact decodeRatesMembers_canonical members _ _ hr hs
          | bool _ => rw [hv] at hs; simp [decodeRates] at hs
          | num _ => rw [hv] at hs; simp [decodeRates] at hs
          | str _ => rw [hv] at hs; simp [decodeRates] at hs
          | arr _ => rw [hv] at hs; simp [decodeRates] at hs
      · cases hd; exact hr

/-- Every record `Fetch` derives from a response is made by `NewExchangeRate` from a rate
that is a canonical binary64 and its (canonical) inverse. -/
theorem fetchRecords_canonical (net : Net) (appId : GoString) (d : Time) (base : GoString)
    (ers : List (Option ExchangeRate)) (hrec : fetchRecords net appId d base = .ok ers)
    (er : ExchangeRate) (hmem : some er ∈ ers) :
    ∃ (b c : GoString) (cpu : Float64),
      er = NewExchangeRate d b c (Float64.div Float64.one cpu) cpu ∧
      Float64.Canonical cpu ∧ Float64.Canonical (Float64.div Float64.one cpu) := by
  unfold fetchRecords at hrec
  split at hrec
  · cases hrec
  · rename_i bs _
    cases hu : OpenExchangeRateResponse.Unmarshal bs with
    | error e => rw [hu] at hrec; cases hrec
    | ok r =>
      rw [hu] at hrec
      simp only [Except.ok.injEq] at hrec
      subst hrec
      rw [ExchangeRates_eq] at hmem
      obtain ⟨e, he, heq⟩ := List.mem_map.1 hmem
      have he' : e ∈ r.Rates := ((net.order (fetchURL appId d base)).perm r.Rates).mem_iff.1 he
      have hcan : ∀ e ∈ r.Rates, Float64.Canonical e.2 := by
        cases bs with
        | notJSON => cases hu
        | json v =>
          cases v with
          | null =>
            simp only [OpenExchangeRateResponse.Unmarshal, Except.ok.injEq] at hu
            subst hu
            simp
          | obj members =>
            exact decodeMembers_canonical members _ r (by simp) hu
          | bool _ => cases hu
          | num _ => cases hu
          | str _ => cases hu
          | arr _ => cases hu
      exact ⟨r.Base, e.1, e.2, (Option.some.inj heq).symm, hcan e he',
        Float64.div_canonical _ _⟩

/-! ## The paths a run writes -/

theorem launchedUnits_workUnits (cfg : Config) :
    (launchedUnits cfg cfg.delta.toNat 0).map (fun u => (dateAt cfg u.1, u.2))
      = workUnits cfg := by
  simp only [launchedUnits, List.take_zero, List.map_nil, List.append_nil, workUnits]
  induction cfg.delta.toNat with
  | zero => simp
  | succ n ih =>
    rw [List.range_succ, List.flatMap_append, List.flatMap_append, List.map_append, ih]
    simp

theorem launchedUnits_paths (cfg : Config) :
    (launchedUnits cfg cfg.delta.toNat 0).map (unitPath cfg) = destinationPaths cfg := by
  unfold destinationPaths
  rw [← launchedUnits_workUnits, List.map_map]
  rfl

/-- In a run that reaches the end of `main`, the paths written are the destination paths
of the work units, each once (in the order the writes happened to come). -/
theorem run_written (env : Env) (cfg : Config) (turns : List Turn) (st : Sched)
    (hrun : run env cfg turns = some st) (hfin : st.pc = MainPC.finished) :
    List.Perm (storePaths st.trace) (destinationPaths cfg) := by
  have hl := (Inv_run env cfg turns st hrun).live
  simp only [Live, hfin] at hl
  obtain ⟨_, _, _, _, _, _, hw⟩ := hl
  rw [← launchedUnits_paths]
  exact hw

/-- C5, amended: for every end date `from` (midnight UTC, as `time.Parse` of a date gives),
every delta `d` with `d ≤ 213503` and every list of `m` pairwise distinct bases, the run
computes `d * m` destination paths, pairwise distinct; the path is an injective function
of the pair (calendar date, base); and every run that reaches the end of `main` has
written exactly these paths, so no two of its writes go to the same path. -/
theorem destinationPaths_distinct (cfg : Config) (hmid : cfg.fromDate.ns % nsPerDay = 0)
    (hdelta : cfg.delta ≤ 213503) (hb : cfg.bases.Nodup) :
    (destinationPaths cfg).length = cfg.delta.toNat * cfg.bases.length ∧
    (destinationPaths cfg).Nodup ∧
    (∀ (d d' : Time) (b b' : GoString),
      filename d b = filename d' b' ↔ (d.Date = d'.Date ∧ b = b')) ∧
    (∀ (env : Env) (turns : List Turn) (st : Sched),
      run env cfg turns = some st → st.pc = MainPC.finished →
      List.Perm (storePaths st.trace) (destinationPaths cfg) ∧ (storePaths st.trace).Nodup) := by
  obtain ⟨h1, h2, h3⟩ := destinationPaths_nodup cfg hmid hdelta hb
  refine ⟨h1, h2, h3, ?_⟩
  intro env turns st hrun hfin
  have hp := run_written env cfg turns st hrun hfin
  exact ⟨hp, hp.nodup_iff.2 h2⟩

/-- C5, amended, at `from = 2024-03-10`, `delta = 2`, bases `USD`, `EUR`: four paths,
pairwise distinct, and the paths every complete run writes. -/
theorem destinationPaths_distinct_witness :
    (destinationPaths scenarioConfig).length = 2 * 2 ∧
    (destinationPaths scenarioConfig).Nodup ∧
    (∀ (d d' : Time) (b b' : GoString),
      filename d b = filename d' b' ↔ (d.Date = d'.Date ∧ b = b')) ∧
    (∀ (env : Env) (turns : List Turn) (st : Sched),
      run env scenarioConfig turns = some st → st.pc = MainPC.finished →
      List.Perm (storePaths st.trace) (destinationPaths scenarioConfig) ∧
      (storePaths st.trace).Nodup) :=
  destinationPaths_distinct scenarioConfig (by decide) (by decide) (by decide)

/-! ## A run in which nothing fails reaches the end of `main` -/

theorem runFrom_append (env : Env) (cfg : Config) :
    ∀ (ts more : List Turn) (st st' : Sched), runFrom env cfg st ts = some st' →
      runFrom env cfg st (ts ++ more) = runFrom env cfg st' more := by
  intro ts
  induction ts with
  | nil =>
    intro more st st' h
    simp only [runFrom, Option.some.injEq] at h
    subst h
    rfl
  | cons t ts ih =>
    intro more st st' h
    simp only [runFrom, List.cons_append] at h ⊢
    cases hs : step env cfg st t with
    | none => rw [hs] at h; cases h
    | some s1 =>
      rw [hs] at h
      simp only [hs]
      exact ih more s1 st' h

theorem stepsLeft_init (cfg : Config) : stepsLeft cfg (Sched.init cfg) = runLength cfg := by
  unfold Sched.init enterIteration stepsLeft runLength
  by_cases h : ((0 : Nat) : Int) < cfg.delta
  · rw [if_pos h]
    simp only [List.map_nil, List.sum_nil, MainPC.stepsLeft, stepsPerDate]
    obtain ⟨n, hn⟩ : ∃ n, cfg.delta.toNat = n + 1 := ⟨cfg.delta.toNat - 1, by omega⟩
    rw [hn]
    simp only [Nat.add_sub_cancel, Nat.zero_add]
    ring
  · rw [if_neg h]
    have hd : cfg.delta.toNat = 0 := by omega
    simp [MainPC.stepsLeft, hd]

/-- A step of the main goroutine when nothing fails: the process goes on and one step
less is left. -/
theorem stepMain_stepsLeft (env : Env) (cfg : Config) (st st' : Sched) (hok : NoFailure env cfg)
    (h : Inv cfg st) (hs : stepMain env cfg st = some st') :
    st'.pc ≠ MainPC.exited ∧ stepsLeft cfg st' + 1 = stepsLeft cfg st := by
  have hl := h.live
  unfold stepMain at hs
  cases hpc : st.pc with
  | launching i rest =>
    cases rest with
    | nil =>
      simp only [hpc, Option.some.injEq] at hs
      subst hs
      refine ⟨by simp, ?_⟩
      simp only [stepsLeft, hpc, MainPC.stepsLeft, List.length_nil]
      omega
    | cons b rest =>
      simp only [hpc, Option.some.injEq] at hs
      subst hs
      refine ⟨by simp, ?_⟩
      simp only [stepsLeft, hpc, MainPC.stepsLeft, List.length_cons, List.map_append,
        List.sum_append, List.map_cons, List.map_nil, List.sum_cons, List.sum_nil,
        Task.stepsLeft]
      omega
  | waiting i =>
    simp only [Live, hpc] at hl
    simp only [hpc] at hs
    split at hs
    · rename_i hwg
      simp only [Option.some.injEq] at hs
      subst hs
      have hin := hl.inWindow
      unfold enterIteration
      by_cases hnext : ((i + 1 : Nat) : Int) < cfg.delta
      · rw [if_pos hnext]
        refine ⟨by simp, ?_⟩
        simp only [stepsLeft, hpc, MainPC.stepsLeft, stepsPerDate]
        obtain ⟨n, hn⟩ : ∃ n, cfg.delta.toNat - (i + 1) = n + 1 :=
          ⟨cfg.delta.toNat - (i + 1) - 1, by omega⟩
        have hn' : cfg.delta.toNat - (i + 1 + 1) = n := by omega
        rw [hn, hn']
        have : (n + 1) * (4 * cfg.bases.length + 2)
            = n * (4 * cfg.bases.length + 2) + (4 * cfg.bases.length + 2) := by ring
        omega
      · rw [if_neg hnext]
        refine ⟨by simp, ?_⟩
        have hz : cfg.delta.toNat - (i + 1) = 0 := by omega
        simp only [stepsLeft, hpc, MainPC.stepsLeft, hz, Nat.zero_mul]
    · cases hs
  | loading =>
    simp only [hpc] at hs
    rw [if_pos hok.2.2] at hs
    simp only [Option.some.injEq] at hs
    subst hs
    refine ⟨by simp, ?_⟩
    simp only [stepsLeft, hpc, MainPC.stepsLeft]
  | finished => simp only [hpc] at hs; cases hs
  | exited => simp only [hpc] at hs; cases hs

/-- A step of a work unit when nothing fails: the process goes on and one step less is
left. -/
theorem stepTask_stepsLeft (env : Env) (cfg : Config) (st st' : Sched) (k : Nat)
    (hok : NoFailure env cfg) (h : Inv cfg st) (hs : stepTask env cfg st k = some st') :
    st'.pc ≠ MainPC.exited ∧ stepsLeft cfg st' + 1 = stepsLeft cfg st := by
  have hl := h.live
  have hrun : ∀ t ∈ st.tasks,
      (t.i : Int) < cfg.delta ∧ t.d = dateAt cfg t.i ∧ t.base ∈ cfg.bases := by
    intro t ht
    cases hpc : st.pc with
    | launching i rest =>
      simp only [Live, hpc] at hl
      obtain ⟨_, _, r⟩ := hl
      exact ⟨by rw [r.current t ht]; exact r.inWindow, r.dates t ht⟩
    | waiting i =>
      simp only [Live, hpc] at hl
      exact ⟨by rw [hl.current t ht]; exact hl.inWindow, hl.dates t ht⟩
    | loading =>
      simp only [Live, hpc] at hl
      rw [hl.1] at ht
      cases ht
    | finished =>
      simp only [Live, hpc] at hl
      rw [hl.1] at ht
      cases ht
    | exited =>
      unfold stepTask at hs
      simp only [hpc] at hs
      cases hs
  unfold stepTask at hs
  split at hs
  · cases hs
  · cases hs
  · rename_i hnf hne
    have hpc' : st.pc ≠ MainPC.exited := fun hh => hne hh
    cases hk : st.tasks.get? k with
    | none => rw [hk] at hs; cases hs
    | some t =>
      rw [hk] at hs
      simp only at hs
      obtain ⟨hin, hd, hb⟩ := hrun t (mem_of_get? hk)
      obtain ⟨ti, td, tbase, tpc⟩ := t
      simp only at hin hd hb
      cases tpc with
      | fetching =>
        simp only at hs
        obtain ⟨content, hF⟩ := hok.1 ti tbase hin hb
        rw [hd, hF] at hs
        simp only [Option.some.injEq] at hs
        subst hs
        refine ⟨hpc', ?_⟩
        have hsum := sum_map_set Task.stepsLeft st.tasks k _
          ⟨ti, dateAt cfg ti, tbase, TaskPC.storing content⟩ hk
        have v1 : Task.stepsLeft ⟨ti, td, tbase, TaskPC.fetching⟩ = 3 := rfl
        have v2 : Task.stepsLeft ⟨ti, dateAt cfg ti, tbase, TaskPC.storing content⟩ = 2 := rfl
        rw [v1, v2] at hsum
        simp only [stepsLeft]
        omega
      | storing content =>
        simp only at hs
        rw [if_pos (hok.2.1 _ _)] at hs
        simp only [Option.some.injEq] at hs
        subst hs
        refine ⟨hpc', ?_⟩
        have hsum := sum_map_set Task.stepsLeft st.tasks k _
          ⟨ti, td, tbase, TaskPC.finishing⟩ hk
        have v1 : Task.stepsLeft ⟨ti, td, tbase, TaskPC.storing content⟩ = 2 := rfl
        have v2 : Task.stepsLeft ⟨ti, td, tbase, TaskPC.finishing⟩ = 1 := rfl
        rw [v1, v2] at hsum
        simp only [stepsLeft]
        omega
      | finishing =>
        simp only [Option.some.injEq] at hs
        subst hs
        refine ⟨hpc', ?_⟩
        obtain ⟨e1, _⟩ := sum_map_eraseIdx Task.stepsLeft st.tasks k _ hk
        have v1 : Task.stepsLeft ⟨ti, td, tbase, TaskPC.finishing⟩ = 1 := rfl
        rw [v1] at e1
        simp only [stepsLeft]
        omega

/-- Any step of a run in which nothing fails: the process goes on and one step less is
left. -/
theorem step_stepsLeft (env : Env) (cfg : Config) (st st' : Sched) (t : Turn)
    (hok : NoFailure env cfg) (h : Inv cfg st) (hs : step env cfg st t = some st') :
    st'.pc ≠ MainPC.exited ∧ stepsLeft cfg st' + 1 = stepsLeft cfg st := by
  cases t with
  | main => exact stepMain_stepsLeft env cfg st st' hok h hs
  | task k => exact stepTask_stepsLeft env cfg st st' k hok h hs

/-- No deadlock: as long as `main` has not returned and the process has not ended, some
goroutine can move. -/
theorem step_enabled (env : Env) (cfg : Config) (st : Sched) (h : Inv cfg st)
    (hfin : st.pc ≠ MainPC.finished) (hex : st.pc ≠ MainPC.exited) :
    ∃ t st', step env cfg st t = some st' := by
  have hl := h.live
  cases hpc : st.pc with
  | launching i rest =>
    cases rest with
    | nil => exact ⟨Turn.main, by simp only [step, stepMain, hpc]; exact ⟨_, rfl⟩⟩
    | cons b rest => exact ⟨Turn.main, by simp only [step, stepMain, hpc]; exact ⟨_, rfl⟩⟩
  | waiting i =>
    simp only [Live, hpc] at hl
    by_cases hwg : st.wg = 0
    · exact ⟨Turn.main, by simp only [step, stepMain, hpc, hwg, if_true]; exact ⟨_, rfl⟩⟩
    · have hlen : st.tasks.length ≠ 0 := by rw [← hl.counter]; exact hwg
      cases htasks : st.tasks with
      | nil => rw [htasks] at hlen; simp at hlen
      | cons t rest =>
        have hget : st.tasks.get? 0 = some t := by rw [htasks]; rfl
        obtain ⟨ti, td, tbase, tpc⟩ := t
        cases tpc with
        | fetching =>
          cases hF : Fetch env.net cfg.appId td tbase with
          | ok content =>
            exact ⟨Turn.task 0, by simp only [step, stepTask, hpc, hget, hF]; exact ⟨_, rfl⟩⟩
          | error e =>
            exact ⟨Turn.task 0, by simp only [step, stepTask, hpc, hget, hF]; exact ⟨_, rfl⟩⟩
        | storing content =>
          by_cases hS : env.storeOk (filename td tbase) content = true
          · exact ⟨Turn.task 0, by simp only [step, stepTask, hpc, hget, hS, if_true]; exact ⟨_, rfl⟩⟩
          · exact ⟨Turn.task 0, by simp only [step, stepTask, hpc, hget, hS, Bool.false_eq_true, if_false]; exact ⟨_, rfl⟩⟩
        | finishing =>
          exact ⟨Turn.task 0, by simp only [step, stepTask, hpc, hget]; exact ⟨_, rfl⟩⟩
  | loading =>
    by_cases hL : env.loadOk (loadURI cfg) = true
    · exact ⟨Turn.main, by simp only [step, stepMain, hpc, hL, if_true]; exact ⟨_, rfl⟩⟩
    · exact ⟨Turn.main, by simp only [step, stepMain, hpc, hL, Bool.false_eq_true, if_false]; exact ⟨_, rfl⟩⟩
  | finished => exact absurd hpc hfin
  | exited => exact absurd hpc hex

/-- The steps of a run in which nothing fails are counted by `stepsLeft`, and the process
does not end before `main` returns. -/
theorem runFrom_stepsLeft (env : Env) (cfg : Config) (hok : NoFailure env cfg) :
    ∀ (turns : List Turn) (st st' : Sched), Inv cfg st → st.pc ≠ MainPC.exited →
      runFrom env cfg st turns = some st' →
      st'.pc ≠ MainPC.exited ∧ stepsLeft cfg st' + turns.length = stepsLeft cfg st := by
  intro turns
  induction turns with
  | nil =>
    intro st st' _ hex h
    simp only [runFrom, Option.some.injEq] at h
    subst h
    exact ⟨hex, rfl⟩
  | cons t ts ih =>
    intro st st' hinv _ h
    simp only [runFrom] at h
    cases hs : step env cfg st t with
    | none => rw [hs] at h; cases h
    | some s1 =>
      rw [hs] at h
      obtain ⟨hex1, hm1⟩ := step_stepsLeft env cfg st s1 t hok hinv hs
      obtain ⟨hex2, hm2⟩ := ih s1 st' (Inv_step env cfg st s1 t hinv hs) hex1 h
      refine ⟨hex2, ?_⟩
      simp only [List.length_cons]
      omega

/-- With no step left, `main` has returned, and only then. -/
theorem stepsLeft_eq_zero (cfg : Config) (st : Sched) (h : Inv cfg st)
    (hex : st.pc ≠ MainPC.exited) :
    stepsLeft cfg st = 0 ↔ st.pc = MainPC.finished := by
  constructor
  · intro h0
    cases hpc : st.pc with
    | launching i rest => simp only [stepsLeft, hpc, MainPC.stepsLeft] at h0; omega
    | waiting i => simp only [stepsLeft, hpc, MainPC.stepsLeft] at h0; omega
    | loading => simp only [stepsLeft, hpc, MainPC.stepsLeft] at h0; omega
    | finished => rfl
    | exited => exact absurd hpc hex
  · intro hfin
    have hl := h.live
    simp only [Live, hfin] at hl
    simp [stepsLeft, hfin, MainPC.stepsLeft, hl.1]

/-- A run in which nothing fails can always be carried on to the end of `main`. -/
theorem runFrom_completes (env : Env) (cfg : Config) (hok : NoFailure env cfg) :
    ∀ (n : Nat) (st : Sched), stepsLeft cfg st = n → Inv cfg st → st.pc ≠ MainPC.exited →
      ∃ more st', runFrom env cfg st more = some st' ∧ st'.pc = MainPC.finished := by
  intro n
  induction n with
  | zero =>
    intro st h0 hinv hex
    exact ⟨[], st, rfl, (stepsLeft_eq_zero cfg st hinv hex).1 h0⟩
  | succ n ih =>
    intro st hn hinv hex
    by_cases hfin : st.pc = MainPC.finished
    · exact ⟨[], st, rfl, hfin⟩
    · obtain ⟨t, s1, hs⟩ := step_enabled env cfg st hinv hfin hex
      obtain ⟨hex1, hm1⟩ := step_stepsLeft env cfg st s1 t hok hinv hs
      obtain ⟨more, st', hr, hf⟩ := ih s1 (by omega) (Inv_step env cfg st s1 t hinv hs) hex1
      exact ⟨t :: more, st', by simp only [runFrom, hs, hr], hf⟩

theorem init_not_exited (cfg : Config) : (Sched.init cfg).pc ≠ MainPC.exited := by
  unfold Sched.init enterIteration
  simp only
  split <;> simp

/-- C7: for every delta `d` (a negative one counts as 0) and `m` bases, every run that
reaches the end of `main` has issued exactly `d * m` fetches and `d * m` storage writes
and exactly one load job, for `gs://<bucket>/rates/*`; the load job is the last event of
the run, so it comes after every write, and no work unit is left running. And when no
step fails (every GET of the window gives a payload, the storage writes and the load job
come back), the run does reach the end of `main`, whatever the schedule: the process does
not end early, a run has at most `d * (4 * m + 2) + 1` steps, `main` has returned exactly
when that many steps were taken, and every run can be carried on to that point, where
the counts are `d * m`, `d * m` and one. With `delta = 0` that is zero fetches, zero
writes and the one load job. -/
theorem run_finished_counts (env : Env) (cfg : Config) :
    (∀ (turns : List Turn) (st : Sched),
      run env cfg turns = some st → st.pc = MainPC.finished →
      st.trace.countP Event.isFetch = cfg.delta.toNat * cfg.bases.length ∧
      st.trace.countP Event.isStore = cfg.delta.toNat * cfg.bases.length ∧
      st.trace.countP Event.isLoad = 1 ∧
      st.tasks = [] ∧
      (∃ pre, st.trace = pre ++ [Event.load ("gs://".toList ++ cfg.bucketName
          ++ "/rates/*".toList)] ∧
        pre.countP Event.isFetch = cfg.delta.toNat * cfg.bases.length ∧
        pre.countP Event.isStore = cfg.delta.toNat * cfg.bases.length ∧
        pre.countP Event.isLoad = 0)) ∧
    (NoFailure env cfg → ∀ (turns : List Turn) (st : Sched), run env cfg turns = some st →
      st.pc ≠ MainPC.exited ∧
      turns.length ≤ cfg.delta.toNat * (4 * cfg.bases.length + 2) + 1 ∧
      (st.pc = MainPC.finished ↔
        turns.length = cfg.delta.toNat * (4 * cfg.bases.length + 2) + 1) ∧
      (∃ (more : List Turn) (st' : Sched),
        run env cfg (turns ++ more) = some st' ∧ st'.pc = MainPC.finished ∧
        st'.trace.countP Event.isFetch = cfg.delta.toNat * cfg.bases.length ∧
        st'.trace.countP Event.isStore = cfg.delta.toNat * cfg.bases.length ∧
        st'.trace.countP Event.isLoad = 1)) := by
  have hcounts : ∀ (turns : List Turn) (st : Sched),
      run env cfg turns = some st → st.pc = MainPC.finished →
      st.trace.countP Event.isFetch = cfg.delta.toNat * cfg.bases.length ∧
      st.trace.countP Event.isStore = cfg.delta.toNat * cfg.bases.length ∧
      st.trace.countP Event.isLoad = 1 ∧
      st.tasks = [] ∧
      (∃ pre, st.trace = pre ++ [Event.load ("gs://".toList ++ cfg.bucketName
          ++ "/rates/*".toList)] ∧
        pre.countP Event.isFetch = cfg.delta.toNat * cfg.bases.length ∧
        pre.countP Event.isStore = cfg.delta.toNat * cfg.bases.length ∧
        pre.countP Event.isLoad = 0) := by
    intro turns st hrun hfin
    have hl := (Inv_run env cfg turns st hrun).live
    simp only [Live, hfin] at hl
    obtain ⟨htasks, hf, hs, hld, hlast, _⟩ := hl
    refine ⟨hf, hs, hld, htasks, ?_⟩
    obtain ⟨pre, hpre⟩ := List.getLast?_eq_some_iff.1 hlast
    refine ⟨pre, by rw [hpre, loadURI_eq], ?_, ?_, ?_⟩
    · rw [hpre] at hf
      simpa [List.countP_append, Event.isFetch] using hf
    · rw [hpre] at hs
      simpa [List.countP_append, Event.isStore] using hs
    · rw [hpre] at hld
      simpa [List.countP_append, Event.isLoad] using hld
  refine ⟨hcounts, ?_⟩
  intro hok turns st hrun
  have hinv := Inv_run env cfg turns st hrun
  obtain ⟨hex, hlen⟩ := runFrom_stepsLeft env cfg hok turns _ st (Inv_init cfg)
    (init_not_exited cfg) hrun
  rw [stepsLeft_init] at hlen
  have hzero := stepsLeft_eq_zero cfg st hinv hex
  have hN : runLength cfg = cfg.delta.toNat * (4 * cfg.bases.length + 2) + 1 := rfl
  rw [hN] at hlen
  refine ⟨hex, by omega, ⟨fun hf => ?_, fun hl => ?_⟩, ?_⟩
  · have := hzero.2 hf
    omega
  · exact hzero.1 (by omega)
  · obtain ⟨more, st', hr, hf⟩ := runFrom_completes env cfg hok _ st rfl hinv hex
    have hrun' : run env cfg (turns ++ more) = some st' := by
      unfold run at hrun ⊢
      rw [runFrom_append env cfg turns more _ st hrun]
      exact hr
    obtain ⟨c1, c2, c3, _⟩ := hcounts _ st' hrun' hf
    exact ⟨more, st', hrun', hf, c1, c2, c3⟩

theorem scenario_noFailure : NoFailure (constEnv scenarioBody) scenarioConfig := by
  refine ⟨?_, fun _ _ => rfl, rfl⟩
  intro i b hi hb
  have hi' : i < 2 := by
    have : (i : Int) < 2 := hi
    omega
  have hb' : b = "USD".toList ∨ b = "EUR".toList := by
    simpa [scenarioConfig] using hb
  have h0 : i = 0 ∨ i = 1 := by omega
  rcases h0 with rfl | rfl <;> rcases hb' with rfl | rfl <;> exact ⟨_, rfl⟩

set_option maxRecDepth 1000000 in
/-- C7 on the scenario of the specification (`from = 2024-03-10`, `delta = 2`, bases
`USD`, `EUR`, overlapping work units): the schedule ends in `scenarioFinal`, with four
fetches, four writes and the load job last; nothing fails there, so no run of the
scenario ends early, each has at most 21 steps and can be carried on to the end of
`main`. -/
theorem run_finished_counts_witness :
    run (constEnv scenarioBody) scenarioConfig scenarioSchedule = some scenarioFinal ∧
    (scenarioFinal.trace.countP Event.isFetch = 2 * 2 ∧
     scenarioFinal.trace.countP Event.isStore = 2 * 2 ∧
     scenarioFinal.trace.countP Event.isLoad = 1 ∧
     scenarioFinal.tasks = [] ∧
     (∃ pre, scenarioFinal.trace = pre ++ [Event.load "gs://bucket/rates/*".toList] ∧
       pre.countP Event.isFetch = 2 * 2 ∧
       pre.countP Event.isStore = 2 * 2 ∧
       pre.countP Event.isLoad = 0)) ∧
    NoFailure (constEnv scenarioBody) scenarioConfig ∧
    (∀ (turns : List Turn) (st : Sched),
      run (constEnv scenarioBody) scenarioConfig turns = some st →
      st.pc ≠ MainPC.exited ∧
      turns.length ≤ 2 * (4 * 2 + 2) + 1 ∧
      (st.pc = MainPC.finished ↔ turns.length = 2 * (4 * 2 + 2) + 1) ∧
      (∃ (more : List Turn) (st' : Sched),
        run (constEnv scenarioBody) scenarioConfig (turns ++ more) = some st' ∧
        st'.pc = MainPC.finished ∧
        st'.trace.countP Event.isFetch = 2 * 2 ∧
        st'.trace.countP Event.isStore = 2 * 2 ∧
        st'.trace.countP Event.isLoad = 1)) :=
  ⟨by rfl,
   (run_finished_counts (constEnv scenarioBody) scenarioConfig).1 scenarioSchedule
     scenarioFinal (by rfl) rfl,
   scenario_noFailure,
   (run_finished_counts (constEnv scenarioBody) scenarioConfig).2 scenario_noFailure⟩

/-! ## UTF-8: decoding the encoding of a code point -/

theorem byte_val (n : Nat) (h : n < 256) : (byte n).val = n := by
  simp only [byte]
  exact Nat.mod_eq_of_lt h

theorem char_valid (c : Char) : c.toNat < 55296 ∨ (57343 < c.toNat ∧ c.toNat < 1114112) := by
  have h := c.valid
  simp only [UInt32.isValidChar, Nat.isValidChar] at h
  exact h

theorem leadInfo_two (p : Nat) (h1 : 194 ≤ p) (h2 : p ≤ 223) :
    leadInfo p = some (2, 128, 191) := by
  simp [leadInfo, h1, h2]

theorem leadInfo_three (p : Nat) (h1 : 224 ≤ p) (h2 : p ≤ 239) :
    leadInfo p = some (3, if p = 224 then 160 else 128, if p = 237 then 159 else 191) := by
  unfold leadInfo
  split_ifs <;> first | rfl | omega

theorem leadInfo_four (p : Nat) (h1 : 240 ≤ p) (h2 : p ≤ 244) :
    leadInfo p = some (4, if p = 240 then 144 else 128, if p = 244 then 143 else 191) := by
  unfold leadInfo
  split_ifs <;> first | rfl | omega

/-- The decoder reads back the code point the encoder wrote, whatever follows it. -/
theorem DecodeRune_encodeRune (c : Char) (rest : RawString) :
    DecodeRune (encodeRune c ++ rest) = (c.toNat, (encodeRune c).length) := by
  have hv := char_valid c
  unfold encodeRune
  simp only
  generalize c.toNat = r at hv
  by_cases h1 : r < 128
  · rw [if_pos h1]
    simp only [List.cons_append, List.nil_append, DecodeRune, byte_val r (by omega), h1, if_true,
      List.length_singleton]
  · rw [if_neg h1]
    by_cases h2 : r < 2048
    · rw [if_pos h2]
      have b0 : (byte (192 + r / 64)).val = 192 + r / 64 := byte_val _ (by omega)
      have b1 : (byte (128 + r % 64)).val = 128 + r % 64 := byte_val _ (by omega)
      have hl := leadInfo_two (192 + r / 64) (by omega) (by omega)
      simp only [List.cons_append, List.nil_append, DecodeRune, b0, b1, hl]
      rw [if_neg (by omega), if_pos (by omega)]
      simp only [List.length_cons, List.length_nil, Prod.mk.injEq, and_true]
      omega
    · rw [if_neg h2]
      by_cases h3 : r < 65536
      · rw [if_pos h3]
        have b0 : (byte (224 + r / 4096)).val = 224 + r / 4096 := byte_val _ (by omega)
        have b1 : (byte (128 + r / 64 % 64)).val = 128 + r / 64 % 64 := byte_val _ (by omega)
        have b2 : (byte (128 + r % 64)).val = 128 + r % 64 := byte_val _ (by omega)
        have hl := leadInfo_three (224 + r / 4096) (by omega) (by omega)
        simp only [List.cons_append, List.nil_append, DecodeRune, b0, b1, b2, hl, isCont]
        rw [if_neg (by omega), if_pos]
        · simp only [List.length_cons, List.length_nil, Prod.mk.injEq, and_true]
          omega
        · refine ⟨?_, ?_, ?_⟩
          · split_ifs <;> omega
          · split_ifs <;> omega
          · simp only [decide_eq_true_eq]; omega
      · rw [if_neg h3]
        have b0 : (byte (240 + r / 262144)).val = 240 + r / 262144 := byte_val _ (by omega)
        have b1 : (byte (128 + r / 4096 % 64)).val = 128 + r / 4096 % 64 := byte_val _ (by omega)
        have b2 : (byte (128 + r / 64 % 64)).val = 128 + r / 64 % 64 := byte_val _ (by omega)
        have b3 : (byte (128 + r % 64)).val = 128 + r % 64 := byte_val _ (by omega)
        have hl := leadInfo_four (240 + r / 262144) (by omega) (by omega)
        simp only [List.cons_append, List.nil_append, DecodeRune, b0, b1, b2, b3, hl, isCont]
        rw [if_neg (by omega), if_pos]
        · simp only [List.length_cons, List.length_nil, Prod.mk.injEq, and_true]
          omega
        · refine ⟨?_, ?_, ?_, ?_⟩
          · split_ifs <;> omega
          · split_ifs <;> omega
          · simp only [decide_eq_true_eq]; omega
          · simp only [decide_eq_true_eq]; omega

theorem encodeRune_ne_nil (c : Char) : encodeRune c ≠ [] := by
  unfold encodeRune
  simp only
  split_ifs <;> simp

theorem encodeRune_ascii (c : Char) (h : c.toNat < 128) : encodeRune c = [byte c.toNat] := by
  unfold encodeRune
  simp only [h, if_true]

theorem encodeRune_head (c : Char) (h : 128 ≤ c.toNat) :
    ∃ p0 tl, encodeRune c = p0 :: tl ∧ 128 ≤ p0.val := by
  have hv := char_valid c
  unfold encodeRune
  simp only
  split_ifs
  · omega
  · exact ⟨_, _, rfl, by rw [byte_val _ (by omega)]; omega⟩
  · exact ⟨_, _, rfl, by rw [byte_val _ (by omega)]; omega⟩
  · exact ⟨_, _, rfl, by rw [byte_val _ (by omega)]; omega⟩

theorem utf8_cons (c : Char) (cs : GoString) : utf8 (c :: cs) = encodeRune c ++ utf8 cs := by
  simp [utf8]

theorem utf8_append (a b : GoString) : utf8 (a ++ b) = utf8 a ++ utf8 b := by
  simp [utf8]

theorem utf8_nil : utf8 [] = [] := rfl

/-- How the decoder sees the head of an encoded string. -/
theorem DecodeRune_utf8_cons (c : Char) (cs : GoString) (more : RawString) :
    ∃ p0 tl, encodeRune c = p0 :: tl ∧
      DecodeRune (p0 :: (tl ++ (utf8 cs ++ more))) = (c.toNat, tl.length + 1) ∧
      (tl ++ (utf8 cs ++ more)).drop tl.length = utf8 cs ++ more := by
  cases h : encodeRune c with
  | nil => exact absurd h (encodeRune_ne_nil c)
  | cons p0 tl =>
    refine ⟨p0, tl, rfl, ?_, ?_⟩
    · have := DecodeRune_encodeRune c (utf8 cs ++ more)
      rw [h] at this
      simpa using this
    · simp

/-- Reading the code points of an encoded string gives the string back. -/
theorem runesAux_utf8 (cs : GoString) :
    ∀ (fuel : Nat), (utf8 cs).length ≤ fuel → runesAux fuel (utf8 cs) = cs := by
  induction cs with
  | nil =>
    intro fuel _
    cases fuel <;> rfl
  | cons c cs ih =>
    intro fuel hf
    obtain ⟨p0, tl, he, hd, hdrop⟩ := DecodeRune_utf8_cons c cs []
    simp only [List.append_nil] at hd hdrop
    rw [utf8_cons, he] at hf ⊢
    simp only [List.cons_append, List.length_cons, List.length_append] at hf
    cases fuel with
    | zero => omega
    | succ f =>
      rw [List.cons_append]
      simp only [runesAux, hd, Nat.add_sub_cancel, hdrop]
      rw [ih f (by omega), Char.ofNat_toNat]

/-- The code points of the bytes of `cs` are `cs`. -/
theorem runes_utf8 (cs : GoString) : runes (utf8 cs) = cs :=
  runesAux_utf8 cs _ (Nat.le_refl _)

theorem validAux_utf8 (cs : GoString) :
    ∀ (fuel : Nat), (utf8 cs).length ≤ fuel → validAux fuel (utf8 cs) = true := by
  induction cs with
  | nil =>
    intro fuel _
    cases fuel <;> rfl
  | cons c cs ih =>
    intro fuel hf
    obtain ⟨p0, tl, he, hd, hdrop⟩ := DecodeRune_utf8_cons c cs []
    simp only [List.append_nil] at hd hdrop
    rw [utf8_cons, he] at hf ⊢
    simp only [List.cons_append, List.length_cons, List.length_append] at hf
    cases fuel with
    | zero => omega
    | succ f =>
      rw [List.cons_append]
      simp only [validAux, hd, Nat.add_sub_cancel, hdrop]
      rw [ih f (by omega)]
      have hv := char_valid c
      by_cases h1 : tl.length + 1 = 1
      · -- one byte: an ASCII code point, not U+FFFD
        have hlen : (encodeRune c).length = 1 := by rw [he]; simpa using h1
        have : c.toNat < 128 := by
          by_contra hge
          unfold encodeRune at hlen
          simp only [hge, if_false] at hlen
          split_ifs at hlen <;> simp at hlen
        simp only [RuneError]
        rw [if_neg (by omega)]
      · rw [if_neg (by omega)]

/-- The bytes of a string given by its code points are valid UTF-8. -/
theorem ValidString_utf8 (cs : GoString) : ValidString (utf8 cs) = true :=
  validAux_utf8 cs _ (Nat.le_refl _)

/-! ## The decoder on any bytes -/

theorem leadInfo_size (p sz lo hi : Nat) (h : leadInfo p = some (sz, lo, hi)) :
    sz = 2 ∨ sz = 3 ∨ sz = 4 := by
  unfold leadInfo at h
  split_ifs at h <;> simp only [Option.some.injEq, Prod.mk.injEq] at h <;> omega

/-- A valid encoding at the head of a string is decoded from its own bytes, whatever
follows them; it takes at least one byte and no more than the string has. -/
theorem DecodeRune_take (b : Byte) (tl more : RawString)
    (h : DecodeRune (b :: tl) ≠ (RuneError, 1)) :
    DecodeRune ((b :: tl).take (DecodeRune (b :: tl)).2 ++ more) = DecodeRune (b :: tl) ∧
    1 ≤ (DecodeRune (b :: tl)).2 ∧ (DecodeRune (b :: tl)).2 ≤ tl.length + 1 := by
  by_cases h1 : b.val < 128
  · simp [DecodeRune, h1]
  · cases hl : leadInfo b.val with
    | none => simp [DecodeRune, h1, hl] at h
    | some info =>
      obtain ⟨sz, lo, hi⟩ := info
      rcases leadInfo_size _ _ _ _ hl with rfl | rfl | rfl
      · cases tl with
        | nil => simp [DecodeRune, h1, hl] at h
        | cons b1 tl =>
          by_cases hc : lo ≤ b1.val ∧ b1.val ≤ hi
          · simp [DecodeRune, h1, hl, hc]
          · simp [DecodeRune, h1, hl, hc] at h
      · cases tl with
        | nil => simp [DecodeRune, h1, hl] at h
        | cons b1 tl =>
          cases tl with
          | nil => simp [DecodeRune, h1, hl] at h
          | cons b2 tl =>
            by_cases hc : lo ≤ b1.val ∧ b1.val ≤ hi ∧ isCont b2.val = true
            · simp [DecodeRune, h1, hl, hc]
            · simp [DecodeRune, h1, hl, hc] at h
      · cases tl with
        | nil => simp [DecodeRune, h1, hl] at h
        | cons b1 tl =>
          cases tl with
          | nil => simp [DecodeRune, h1, hl] at h
          | cons b2 tl =>
            cases tl with
            | nil => simp [DecodeRune, h1, hl] at h
            | cons b3 tl =>
              by_cases hc : lo ≤ b1.val ∧ b1.val ≤ hi ∧ isCont b2.val = true
                  ∧ isCont b3.val = true
              · simp [DecodeRune, h1, hl, hc]
              · simp [DecodeRune, h1, hl, hc] at h

/-! ## Reading back a string literal -/

/-- An ASCII byte, written as `json.Marshal` writes it, is read back as that byte. -/
theorem parseStringAux_escapeChar (n : Nat) (hn : n < 128) (more : RawString) (f : Nat) :
    parseStringAux (f + 1) (utf8 (escapeChar (Char.ofNat n)) ++ more)
      = consRune (Char.ofNat n) (parseStringAux f more) := by
  interval_cases n <;> rfl

theorem escapeChar_length (n : Nat) (hn : n < 128) :
    1 ≤ (utf8 (escapeChar (Char.ofNat n))).length := by
  interval_cases n <;> decide

theorem parseStringAux_replacement (more : RawString) (f : Nat) :
    parseStringAux (f + 1) (utf8 "\\ufffd".toList ++ more)
      = consRune (Char.ofNat RuneError) (parseStringAux f more) := by
  rfl

theorem parseStringAux_separator (r : Nat) (hr : r = 8232 ∨ r = 8233) (more : RawString)
    (f : Nat) :
    parseStringAux (f + 1) (utf8 (escapeU r) ++ more)
      = consRune (Char.ofNat r) (parseStringAux f more) := by
  rcases hr with rfl | rfl <;> rfl

/-- The string literal `json.Marshal` writes for the Go string `s` is read back as the
code points of `s`. -/
theorem parseStringAux_appendStringAux :
    ∀ (fuel : Nat) (s rest : RawString) (fuel' : Nat), s.length ≤ fuel →
      (appendStringAux fuel s).length < fuel' →
      parseStringAux fuel' (appendStringAux fuel s ++ byte 34 :: rest)
        = some (runesAux fuel s, rest) := by
  intro fuel
  induction fuel with
  | zero =>
    intro s rest fuel' hs hf
    cases fuel' with
    | zero => omega
    | succ f' =>
      cases s with
      | nil => rfl
      | cons b tl => simp at hs
  | succ f ih =>
    intro s rest fuel' hs hf
    cases s with
    | nil =>
      cases fuel' with
      | zero => omega
      | succ f' => rfl
    | cons b tl =>
      simp only [List.length_cons] at hs
      cases fuel' with
      | zero => omega
      | succ f' =>
        by_cases h1 : b.val < 128
        · have ea : appendStringAux (f + 1) (b :: tl)
              = utf8 (escapeChar (Char.ofNat b.val)) ++ appendStringAux f tl := by
            simp only [appendStringAux, h1, if_true]
          have er : runesAux (f + 1) (b :: tl) = Char.ofNat b.val :: runesAux f tl := by
            simp [runesAux, DecodeRune, h1]
          have hlen := escapeChar_length b.val h1
          rw [ea] at hf ⊢
          rw [er, List.append_assoc, parseStringAux_escapeChar b.val h1]
          simp only [List.length_append] at hf
          rw [ih tl rest f' (by omega) (by omega)]
          rfl
        · cases hrs : DecodeRune (b :: tl) with
          | mk r n =>
            have er : runesAux (f + 1) (b :: tl)
                = Char.ofNat r :: runesAux f (tl.drop (n - 1)) := by
              simp only [runesAux, hrs]
            by_cases hinv : r = RuneError ∧ n = 1
            · have ea : appendStringAux (f + 1) (b :: tl)
                  = utf8 "\\ufffd".toList ++ appendStringAux f tl := by
                simp only [appendStringAux, h1, if_false, hrs, hinv, and_self, if_true]
              have hlen : (utf8 "\\ufffd".toList).length = 6 := by decide
              rw [ea] at hf ⊢
              rw [er, List.append_assoc, parseStringAux_replacement]
              simp only [List.length_append] at hf
              rw [ih tl rest f' (by omega) (by omega), hinv.1, hinv.2]
              rfl
            · have hne : DecodeRune (b :: tl) ≠ (RuneError, 1) := by
                rw [hrs]
                intro he
                simp only [Prod.mk.injEq] at he
                exact hinv he
              have htake := DecodeRune_take b tl
                (appendStringAux f (tl.drop (n - 1)) ++ byte 34 :: rest) hne
              rw [hrs] at htake
              simp only at htake
              obtain ⟨htake, hge, hle⟩ := htake
              obtain ⟨k, rfl⟩ : ∃ k, n = k + 1 := ⟨n - 1, by omega⟩
              simp only [Nat.add_sub_cancel] at er htake ⊢
              have hdl : (tl.drop k).length ≤ f := by
                simp only [List.length_drop]
                omega
              by_cases h28 : r = 8232 ∨ r = 8233
              · have ea : appendStringAux (f + 1) (b :: tl)
                    = utf8 (escapeU r) ++ appendStringAux f (tl.drop k) := by
                  simp only [appendStringAux, h1, if_false, hrs, hinv, h28, if_true,
                    Nat.add_sub_cancel]
                have hlen : 1 ≤ (utf8 (escapeU r)).length := by
                  rcases h28 with h | h <;> rw [h] <;> decide
                rw [ea] at hf ⊢
                rw [er, List.append_assoc, parseStringAux_separator _ h28]
                simp only [List.length_append] at hf
                rw [ih _ rest f' hdl (by omega)]
                rfl
              · have ea : appendStringAux (f + 1) (b :: tl)
                    = b :: (tl.take k ++ appendStringAux f (tl.drop k)) := by
                  simp only [appendStringAux, h1, if_false, hrs, hinv, h28,
                    Nat.add_sub_cancel, List.take_succ_cons, List.cons_append]
                rw [ea] at hf ⊢
                simp only [List.take_succ_cons, List.cons_append, List.append_assoc] at htake
                have hkl : (tl.take k).length = k := by
                  rw [List.length_take]; omega
                have hdrop : List.drop k (List.take k tl
                    ++ (appendStringAux f (List.drop k tl) ++ byte 34 :: rest))
                    = appendStringAux f (List.drop k tl) ++ byte 34 :: rest := by
                  rw [List.drop_append_eq_append_drop, hkl]
                  simp [List.drop_take]
                have hb34 : ¬ b.val = 34 := by omega
                have hb92 : ¬ b.val = 92 := by omega
                have hb32 : ¬ b.val < 32 := by omega
                simp only [List.length_cons, List.length_append] at hf
                rw [er, List.cons_append, List.append_assoc]
                simp only [parseStringAux, hb34, hb92, hb32, h1, if_false, htake,
                  Nat.add_sub_cancel, hdrop]
                rw [ih _ rest f' hdl (by omega)]
                rfl

/-! ## Reading back a number literal -/

theorem parseString_appendString (s rest : RawString) :
    parseString (appendStringAux s.length s ++ byte 34 :: rest) = some (runes s, rest) := by
  unfold parseString runes
  exact parseStringAux_appendStringAux s.length s rest _ (Nat.le_refl _)
    (by simp only [List.length_append, List.length_cons]; omega)

theorem encodeRune_digit (c : Char) (h : IsDigit c) :
    encodeRune c = [byte c.toNat] ∧ (byte c.toNat).val = c.toNat := by
  obtain ⟨h1, h2⟩ := h
  exact ⟨encodeRune_ascii c (by omega), byte_val _ (by omega)⟩

/-- The digits at the head of a text are read up to the first byte that is no digit. -/
theorem spanDigits_utf8 (ds : GoString) (hd : ∀ x ∈ ds, IsDigit x) (t : Byte) (tl : RawString)
    (ht : isDigitByte t = false) :
    spanDigits (utf8 ds ++ t :: tl) = (ds, t :: tl) := by
  induction ds with
  | nil => simp [utf8_nil, spanDigits, ht]
  | cons c ds ih =>
    obtain ⟨he, hv⟩ := encodeRune_digit c (hd c (List.mem_cons_self _ _))
    have hc := hd c (List.mem_cons_self _ _)
    rw [utf8_cons, he]
    have hdig : isDigitByte (byte c.toNat) = true := by
      simp only [isDigitByte, hv, decide_eq_true_eq]
      exact hc
    show spanDigits (byte c.toNat :: (utf8 ds ++ t :: tl)) = _
    simp only [spanDigits, hdig, if_true, hv, Char.ofNat_toNat]
    rw [ih (fun x hx => hd x (List.mem_cons_of_mem _ hx))]

theorem render_expText (n : JNumber) :
    n.render = (if n.neg then ['-'] else []) ++ n.int
      ++ (if n.frac = [] then [] else '.' :: n.frac) ++ expText n.exp := by
  obtain ⟨neg, int, frac, exp⟩ := n
  cases exp with
  | none => rfl
  | some e => rfl

/-- The text of a well-formed number literal is read back as the literal, up to the comma
or closing brace that follows it. -/
theorem parseNumber_render (n : JNumber) (hw : n.WellFormed) (t : Byte) (tl : RawString)
    (ht : t.val = 44 ∨ t.val = 125) :
    parseNumber (utf8 n.render ++ t :: tl) = some (n, t :: tl) := by
  obtain ⟨neg, int, frac, exp⟩ := n
  obtain ⟨hint, hfrac, hexp⟩ := hw
  simp only at hint hfrac hexp
  have htd : isDigitByte t = false := by
    simp only [isDigitByte, decide_eq_false_iff_not]
    omega
  -- the exponent
  have hE : ∀ (R : RawString), R = utf8 (expText exp) ++ t :: tl →
      parseExp R = some (exp, t :: tl) ∧ ∃ b R', R = b :: R' ∧ isDigitByte b = false
        ∧ b.val ≠ 46 := by
    intro R hR
    cases exp with
    | none =>
      simp only [expText, utf8_nil, List.nil_append] at hR
      subst hR
      refine ⟨?_, t, tl, rfl, htd, by omega⟩
      simp only [parseExp]
      rw [if_neg (by omega)]
    | some e =>
      obtain ⟨s, ds⟩ := e
      obtain ⟨hne, hds⟩ := hexp (s, ds) rfl
      simp only [expText] at hne hds hR
      have hsp := spanDigits_utf8 ds hds t tl htd
      cases s with
      | true =>
        have e1 : utf8 ('e' :: (if true = true then '-' else '+') :: ds)
            = byte 101 :: byte 45 :: utf8 ds := rfl
        rw [e1] at hR
        subst hR
        refine ⟨?_, byte 101, _, rfl, by decide, by decide⟩
        show parseExp (byte 101 :: byte 45 :: (utf8 ds ++ t :: tl)) = _
        have v1 : (byte 101).val = 101 := rfl
        have v2 : (byte 45).val = 45 := rfl
        simp only [parseExp, v1, v2, true_or, if_true, parseExpDigits, hsp, hne, if_false]
      | false =>
        have e1 : utf8 ('e' :: (if false = true then '-' else '+') :: ds)
            = byte 101 :: byte 43 :: utf8 ds := rfl
        rw [e1] at hR
        subst hR
        refine ⟨?_, byte 101, _, rfl, by decide, by decide⟩
        show parseExp (byte 101 :: byte 43 :: (utf8 ds ++ t :: tl)) = _
        have v1 : (byte 101).val = 101 := rfl
        have v2 : (byte 43).val = 43 := rfl
        have v3 : ¬ (43 = 45) := by decide
        simp only [parseExp, v1, v2, v3, true_or, if_true, parseExpDigits, hsp, hne, if_false]
  obtain ⟨hpE, bE, RE', hREeq, hbE, hbE46⟩ := hE _ rfl
  generalize hRE : utf8 (expText exp) ++ t :: tl = RE at hpE hREeq
  -- the fraction
  have hF : ∃ F, utf8 (if frac = [] then [] else '.' :: frac) ++ RE = F ∧
      parseFrac F = some (frac, RE) ∧ ∃ b R', F = b :: R' ∧ isDigitByte b = false := by
    by_cases hf : frac = []
    · subst hf
      refine ⟨RE, by simp [utf8_nil], ?_, bE, RE', hREeq, hbE⟩
      rw [hREeq]
      simp only [parseFrac]
      rw [if_neg hbE46]
    · refine ⟨byte 46 :: (utf8 frac ++ RE), ?_, ?_, byte 46, _, rfl, by decide⟩
      · rw [if_neg hf]
        rfl
      · have hsp := spanDigits_utf8 frac hfrac bE RE' hbE
        rw [← hREeq] at hsp
        have v1 : (byte 46).val = 46 := rfl
        simp only [parseFrac, v1, if_true, hsp, hf, if_false]
  obtain ⟨F, hFeq, hpF, bF, RF', hFc, hbF⟩ := hF
  -- the integer part
  have hI : parseInt (utf8 int ++ F) = some (int, F) ∧
      ∃ b R', utf8 int ++ F = b :: R' ∧ b.val ≠ 45 := by
    rcases hint with h0 | ⟨c, tl', hc, h49, h57, htl⟩
    · subst h0
      refine ⟨?_, byte 48, F, rfl, by decide⟩
      show parseInt (byte 48 :: F) = _
      have v1 : (byte 48).val = 48 := rfl
      simp only [parseInt, v1, if_true]
    · subst hc
      obtain ⟨he, hv⟩ := encodeRune_digit c ⟨by omega, h57⟩
      have hsp := spanDigits_utf8 tl' htl bF RF' hbF
      rw [← hFc] at hsp
      have e1 : utf8 (c :: tl') ++ F = byte c.toNat :: (utf8 tl' ++ F) := by
        rw [utf8_cons, he]
        rfl
      rw [e1]
      refine ⟨?_, _, _, rfl, by rw [hv]; omega⟩
      have h48 : ¬ (c.toNat = 48) := by omega
      have hdig : isDigitByte (byte c.toNat) = true := by
        simp only [isDigitByte, hv, decide_eq_true_eq]
        omega
      simp only [parseInt, hv, h48, if_false, hdig, if_true, hsp, Char.ofNat_toNat]
  obtain ⟨hpI, bI, RI', hIc, hbI⟩ := hI
  have hU : ∀ sg, parseUnsigned sg (utf8 int ++ F) = some (⟨sg, int, frac, exp⟩, t :: tl) := by
    intro sg
    simp only [parseUnsigned, hpI, hpF, hpE]
  have hrender : utf8 (JNumber.render ⟨neg, int, frac, exp⟩) ++ t :: tl
      = utf8 (if neg = true then ['-'] else []) ++ (utf8 int ++ F) := by
    rw [← hFeq, ← hRE, render_expText]
    simp only [utf8_append, List.append_assoc]
  rw [hrender]
  cases neg with
  | true =>
    show parseNumber (byte 45 :: (utf8 int ++ F)) = _
    have v1 : (byte 45).val = 45 := rfl
    simp only [parseNumber, v1, if_true, hU]
  | false =>
    show parseNumber (utf8 int ++ F) = _
    rw [hIc]
    simp only [parseNumber]
    rw [if_neg hbI, ← hIc]
    exact hU false

theorem natDigits_head (u : Nat) (hu : 0 < u) :
    ∃ c tl, natDigits u = c :: tl ∧ 49 ≤ c.toNat ∧ c.toNat ≤ 57 ∧ ∀ x ∈ tl, IsDigit x := by
  induction u using Nat.strong_induction_on with
  | _ u ih =>
    by_cases h : u < 10
    · rw [natDigits_lt h]
      refine ⟨digitChar u, [], rfl, ?_, ?_, by simp⟩
      · rw [digitChar_toNat]; omega
      · rw [digitChar_toNat]; omega
    · rw [natDigits_ge (by omega)]
      obtain ⟨c, tl, hc, h1, h2, h3⟩ := ih (u / 10) (by omega) (by omega)
      rw [hc]
      refine ⟨c, tl ++ [digitChar u], rfl, h1, h2, ?_⟩
      intro x hx
      rcases List.mem_append.1 hx with hx | hx
      · exact h3 x hx
      · simp only [List.mem_singleton] at hx
        subst hx
        unfold IsDigit
        rw [digitChar_toNat]
        omega

theorem shortest_ne_zero (neg : Bool) (m : Nat) (e : Int) (hm : m ≠ 0)
    (hc : Float64.Canonical (Float64.fin neg m e)) : (Float64.shortest neg m e).1 ≠ 0 := by
  intro h0
  have h := Float64.ofDecimal_shortest neg m e hm hc
  rw [h0] at h
  simp only [Float64.ofDecimal, if_true, Float64.zero] at h
  injection h with _ h2 _
  exact hm h2.symm

/-- The number literal `json.Marshal` writes for a finite float is well formed. -/
theorem formatFloat_wellFormed (x : Float64) (hfin : x.isFinite = true)
    (hc : Float64.Canonical x) : (formatFloat x).WellFormed := by
  cases x with
  | nan => cases hfin
  | inf s => cases hfin
  | fin neg m e =>
    have hzero : IsDigit '0' := ⟨by decide, by decide⟩
    by_cases hm : m = 0
    · subst hm
      simp only [formatFloat, if_true]
      exact ⟨Or.inl rfl, by simp, by simp⟩
    · have hD := shortest_ne_zero neg m e hm hc
      obtain ⟨c, tl, hds, h49, h57, htl⟩ :=
        natDigits_head (Float64.shortest neg m e).1 (Nat.pos_of_ne_zero hD)
      have hrep : ∀ (k : Nat), ∀ x ∈ List.replicate k '0', IsDigit x := by
        intro k x hx
        rw [(List.mem_replicate.1 hx).2]
        exact hzero
      simp only [formatFloat, hm, if_false, hds]
      split_ifs with h1 h2 h3
      · refine ⟨Or.inr ⟨c, [], by simp, h49, h57, by simp⟩, ?_, ?_⟩
        · intro x hx
          simp only [List.drop_succ_cons, List.drop_zero] at hx
          exact htl x hx
        · intro ex hex
          simp only [Option.mem_def, Option.some.injEq] at hex
          subst hex
          exact ⟨natDigits_ne_nil _, fun x hx => natDigits_digit _ x hx⟩
      · refine ⟨Or.inl rfl, ?_, by simp⟩
        intro x hx
        rcases List.mem_append.1 hx with hx | hx
        · exact hrep _ x hx
        · rcases List.mem_cons.1 hx with hx | hx
          · subst hx; exact ⟨by omega, h57⟩
          · exact htl x hx
      · obtain ⟨k, hk⟩ : ∃ k, ((c :: tl).length + (Float64.shortest neg m e).2).toNat = k + 1 :=
          ⟨((c :: tl).length + (Float64.shortest neg m e).2).toNat - 1, by omega⟩
        rw [hk]
        refine ⟨Or.inr ⟨c, tl.take k, by simp, h49, h57, ?_⟩, ?_, by simp⟩
        · intro x hx
          exact htl x (List.mem_of_mem_take hx)
        · intro x hx
          simp only [List.drop_succ_cons] at hx
          exact htl x (List.mem_of_mem_drop hx)
      · refine ⟨Or.inr ⟨c, tl ++ List.replicate _ '0', by simp; rfl, h49, h57, ?_⟩, by simp,
          by simp⟩
        intro x hx
        rcases List.mem_append.1 hx with hx | hx
        · exact htl x hx
        · exact hrep _ x hx

/-! ## Reading back the text of a record -/

theorem skipSpace_cons (b : Byte) (R : RawString) (h : isSpace b = false) :
    skipSpace (b :: R) = b :: R := by
  simp only [skipSpace, h, Bool.false_eq_true, if_false]

theorem appendString_append (s rest : RawString) :
    appendString s ++ rest = byte 34 :: (appendStringAux s.length s ++ byte 34 :: rest) := by
  simp [appendString]

/-- A string literal where a value stands is read as the code points of the string. -/
theorem parseValue_appendString (f : Nat) (s rest : RawString) :
    parseValue (f + 1) (appendString s ++ rest) = some (.str (runes s), rest) := by
  rw [appendString_append]
  have v : (byte 34).val = 34 := rfl
  simp only [parseValue, skipSpace_cons (byte 34) _ (by decide), v,
    parseString_appendString]
  rfl

theorem parseNumber_head (b : Byte) (R : RawString) (r : JNumber × RawString)
    (h : parseNumber (b :: R) = some r) : b.val = 45 ∨ (48 ≤ b.val ∧ b.val ≤ 57) := by
  by_cases h45 : b.val = 45
  · exact Or.inl h45
  · right
    simp only [parseNumber, h45, if_false, parseUnsigned] at h
    cases hi : parseInt (b :: R) with
    | none => rw [hi] at h; cases h
    | some p =>
      simp only [parseInt] at hi
      split_ifs at hi with h1 h2
      · omega
      · simpa [isDigitByte] using h2

/-- A number literal where a value stands is read as that literal. -/
theorem parseValue_number (f : Nat) (n : JNumber) (hw : n.WellFormed) (t : Byte)
    (tl : RawString) (ht : t.val = 44 ∨ t.val = 125) :
    parseValue (f + 1) (utf8 n.render ++ t :: tl) = some (.num n, t :: tl) := by
  have hp := parseNumber_render n hw t tl ht
  cases htext : utf8 n.render ++ t :: tl with
  | nil => rw [htext] at hp; cases hp
  | cons b R =>
    rw [htext] at hp
    have hb := parseNumber_head b R _ hp
    have hsp : isSpace b = false := by
      simp only [isSpace, decide_eq_false_iff_not]
      omega
    simp only [parseValue, skipSpace_cons b R hsp, hp]
    rw [if_neg (by omega), if_neg (by omega), if_neg (by omega), if_neg (by omega),
      if_neg (by omega), if_neg (by omega)]

/-- A member that is followed by a comma and more members. -/
theorem parseMembers_cons (f : Nat) (k V R R' : RawString) (v : JVal)
    (ms : List (GoString × JVal))
    (hv : parseValue f V = some (v, byte 44 :: R))
    (hm : parseMembers f R = some (ms, R')) :
    parseMembers (f + 1) (appendString k ++ byte 58 :: V) = some ((runes k, v) :: ms, R') := by
  rw [appendString_append]
  have v34 : (byte 34).val = 34 := rfl
  have v58 : (byte 58).val = 58 := rfl
  have v44 : (byte 44).val = 44 := rfl
  simp only [parseMembers, skipSpace_cons (byte 34) _ (by decide), v34, if_true,
    parseString_appendString, skipSpace_cons (byte 58) _ (by decide), v58, hv,
    skipSpace_cons (byte 44) _ (by decide), v44, hm]

/-- The last member, followed by the closing brace. -/
theorem parseMembers_last (f : Nat) (k V R : RawString) (v : JVal)
    (hv : parseValue f V = some (v, byte 125 :: R)) :
    parseMembers (f + 1) (appendString k ++ byte 58 :: V) = some ([(runes k, v)], R) := by
  rw [appendString_append]
  have v34 : (byte 34).val = 34 := rfl
  have v58 : (byte 58).val = 58 := rfl
  have v125 : (byte 125).val = 125 := rfl
  have h44 : ¬ (125 = 44) := by decide
  simp only [parseMembers, skipSpace_cons (byte 34) _ (by decide), v34, if_true,
    parseString_appendString, skipSpace_cons (byte 58) _ (by decide), v58, hv,
    skipSpace_cons (byte 125) _ (by decide), v125, h44, if_false]

/-- The text of an object of three strings and two numbers, as `json.Marshal` writes it,
is read back as the document of its members. -/
theorem parseJSON_record (k1 k2 k3 k4 k5 s1 s2 s3 : RawString) (n1 n2 : JNumber)
    (h1 : n1.WellFormed) (h2 : n2.WellFormed) :
    parseJSON (byte 123 :: (appendString k1 ++ byte 58 :: (appendString s1
      ++ byte 44 :: (appendString k2 ++ byte 58 :: (appendString s2
      ++ byte 44 :: (appendString k3 ++ byte 58 :: (appendString s3
      ++ byte 44 :: (appendString k4 ++ byte 58 :: (utf8 n1.render
      ++ byte 44 :: (appendString k5 ++ byte 58 :: (utf8 n2.render
      ++ [byte 125])))))))))))
      = some (.obj [(runes k1, .str (runes s1)), (runes k2, .str (runes s2)),
          (runes k3, .str (runes s3)), (runes k4, .num n1), (runes k5, .num n2)]) := by
  have m5 : ∀ f, parseMembers (f + 2) (appendString k5 ++ byte 58 :: (utf8 n2.render
      ++ [byte 125])) = some ([(runes k5, .num n2)], []) := fun f =>
    parseMembers_last (f + 1) k5 _ [] _ (parseValue_number f n2 h2 (byte 125) [] (Or.inr rfl))
  have m4 : ∀ f, parseMembers (f + 3) (appendString k4 ++ byte 58 :: (utf8 n1.render
      ++ byte 44 :: (appendString k5 ++ byte 58 :: (utf8 n2.render ++ [byte 125]))))
      = some ([(runes k4, .num n1), (runes k5, .num n2)], []) := fun f =>
    parseMembers_cons (f + 2) k4 _ _ [] _ _
      (parseValue_number (f + 1) n1 h1 (byte 44) _ (Or.inl rfl)) (m5 f)
  have m3 : ∀ f, parseMembers (f + 4) (appendString k3 ++ byte 58 :: (appendString s3
      ++ byte 44 :: (appendString k4 ++ byte 58 :: (utf8 n1.render
      ++ byte 44 :: (appendString k5 ++ byte 58 :: (utf8 n2.render ++ [byte 125]))))))
      = some ([(runes k3, .str (runes s3)), (runes k4, .num n1), (runes k5, .num n2)], []) :=
    fun f => parseMembers_cons (f + 3) k3 _ _ [] _ _
      (parseValue_appendString (f + 2) s3 _) (m4 f)
  have m2 : ∀ f, parseMembers (f + 5) (appendString k2 ++ byte 58 :: (appendString s2
      ++ byte 44 :: (appendString k3 ++ byte 58 :: (appendString s3
      ++ byte 44 :: (appendString k4 ++ byte 58 :: (utf8 n1.render
      ++ byte 44 :: (appendString k5 ++ byte 58 :: (utf8 n2.render ++ [byte 125]))))))))
      = some ([(runes k2, .str (runes s2)), (runes k3, .str (runes s3)), (runes k4, .num n1),
          (runes k5, .num n2)], []) :=
    fun f => parseMembers_cons (f + 4) k2 _ _ [] _ _
      (parseValue_appendString (f + 3) s2 _) (m3 f)
  have m1 : ∀ f, parseMembers (f + 6) (appendString k1 ++ byte 58 :: (appendString s1
      ++ byte 44 :: (appendString k2 ++ byte 58 :: (appendString s2
      ++ byte 44 :: (appendString k3 ++ byte 58 :: (appendString s3
      ++ byte 44 :: (appendString k4 ++ byte 58 :: (utf8 n1.render
      ++ byte 44 :: (appendString k5 ++ byte 58 :: (utf8 n2.render ++ [byte 125]))))))))))
      = some ([(runes k1, .str (runes s1)), (runes k2, .str (runes s2)),
          (runes k3, .str (runes s3)), (runes k4, .num n1), (runes k5, .num n2)], []) :=
    fun f => parseMembers_cons (f + 5) k1 _ _ [] _ _
      (parseValue_appendString (f + 4) s1 _) (m2 f)
  generalize hX : appendString k1 ++ byte 58 :: (appendString s1
      ++ byte 44 :: (appendString k2 ++ byte 58 :: (appendString s2
      ++ byte 44 :: (appendString k3 ++ byte 58 :: (appendString s3
      ++ byte 44 :: (appendString k4 ++ byte 58 :: (utf8 n1.render
      ++ byte 44 :: (appendString k5 ++ byte 58 :: (utf8 n2.render ++ [byte 125])))))))))
      = X at m1
  have hlen : 6 ≤ X.length := by
    rw [← hX]
    simp only [appendString, List.length_append, List.length_cons, List.length_nil]
    omega
  have hhead : ∃ R, X = byte 34 :: R := by
    rw [← hX, appendString_append]
    exact ⟨_, rfl⟩
  obtain ⟨R, hR⟩ := hhead
  obtain ⟨n, hn⟩ : ∃ n, (byte 123 :: X).length + 1 = n + 7 := by
    simp only [List.length_cons]
    exact ⟨X.length - 5, by omega⟩
  have v123 : (byte 123).val = 123 := rfl
  have v34 : (byte 34).val = 34 := rfl
  have h125 : ¬ (34 = 125) := by decide
  unfold parseJSON
  rw [hn]
  simp only [parseValue, skipSpace_cons (byte 123) _ (by decide), v123, if_true]
  rw [hR, skipSpace_cons (byte 34) _ (by decide)]
  simp only [v34, h125, if_false]
  rw [← hR, m1 n]
  simp [skipSpace]

/-! ## UTF-8: encoding the code point that was decoded -/

theorem toNat_ofNat (r : Nat) (h : r < 55296 ∨ (57343 < r ∧ r < 1114112)) :
    (Char.ofNat r).toNat = r := by
  have hv : r.isValidChar := h
  simp only [Char.ofNat, hv, dite_true]
  rfl

theorem byte_eq (n : Nat) (b : Byte) (h : n = b.val) : byte n = b := by
  apply Fin.ext
  rw [h]
  exact byte_val _ b.isLt

theorem encodeRune_two (r : Nat) (p0 b1 : Byte) (h1 : 128 ≤ r) (h2 : r < 2048)
    (e0 : 192 + r / 64 = p0.val) (e1 : 128 + r % 64 = b1.val) :
    encodeRune (Char.ofNat r) = [p0, b1] := by
  unfold encodeRune
  simp only [toNat_ofNat r (by omega)]
  rw [if_neg (by omega), if_pos h2, byte_eq _ _ e0, byte_eq _ _ e1]

theorem encodeRune_three (r : Nat) (p0 b1 b2 : Byte) (h1 : 2048 ≤ r) (h2 : r < 65536)
    (hs : r < 55296 ∨ 57343 < r)
    (e0 : 224 + r / 4096 = p0.val) (e1 : 128 + r / 64 % 64 = b1.val)
    (e2 : 128 + r % 64 = b2.val) :
    encodeRune (Char.ofNat r) = [p0, b1, b2] := by
  unfold encodeRune
  simp only [toNat_ofNat r (by omega)]
  rw [if_neg (by omega), if_neg (by omega), if_pos h2, byte_eq _ _ e0, byte_eq _ _ e1,
    byte_eq _ _ e2]

theorem encodeRune_four (r : Nat) (p0 b1 b2 b3 : Byte) (h1 : 65536 ≤ r) (h2 : r < 1114112)
    (e0 : 240 + r / 262144 = p0.val) (e1 : 128 + r / 4096 % 64 = b1.val)
    (e2 : 128 + r / 64 % 64 = b2.val) (e3 : 128 + r % 64 = b3.val) :
    encodeRune (Char.ofNat r) = [p0, b1, b2, b3] := by
  unfold encodeRune
  simp only [toNat_ofNat r (by omega)]
  rw [if_neg (by omega), if_neg (by omega), if_neg (by omega), byte_eq _ _ e0,
    byte_eq _ _ e1, byte_eq _ _ e2, byte_eq _ _ e3]

set_option maxHeartbeats 4000000 in
/-- The bytes of a valid encoding are the encoding of the code point they decode to. -/
theorem encodeRune_DecodeRune (b : Byte) (tl : RawString)
    (h : DecodeRune (b :: tl) ≠ (RuneError, 1)) :
    encodeRune (Char.ofNat (DecodeRune (b :: tl)).1)
      = (b :: tl).take (DecodeRune (b :: tl)).2 := by
  have hb := b.isLt
  by_cases h1 : b.val < 128
  · simp only [DecodeRune, h1, if_true, List.take_succ_cons, List.take_zero]
    unfold encodeRune
    simp only [toNat_ofNat b.val (by omega), h1, if_true, byte_eq _ b rfl]
  · cases hl : leadInfo b.val with
    | none => simp [DecodeRune, h1, hl] at h
    | some info =>
      obtain ⟨sz, lo, hi⟩ := info
      rcases leadInfo_size _ _ _ _ hl with rfl | rfl | rfl
      · cases tl with
        | nil => simp [DecodeRune, h1, hl] at h
        | cons b1 tl =>
          by_cases hc : lo ≤ b1.val ∧ b1.val ≤ hi
          · simp only [DecodeRune, h1, if_false, hl, hc, and_self, if_true,
              List.take_succ_cons, List.take_zero]
            unfold leadInfo at hl
            split_ifs at hl <;> simp only [Option.some.injEq, Prod.mk.injEq] at hl
              <;> first
                | omega
                | (apply encodeRune_two <;> omega)
          · simp [DecodeRune, h1, hl, hc] at h
      · cases tl with
        | nil => simp [DecodeRune, h1, hl] at h
        | cons b1 tl =>
          cases tl with
          | nil => simp [DecodeRune, h1, hl] at h
          | cons b2 tl =>
            by_cases hc : lo ≤ b1.val ∧ b1.val ≤ hi ∧ isCont b2.val = true
            · simp only [DecodeRune, h1, if_false, hl, hc, and_self, if_true,
                List.take_succ_cons, List.take_zero]
              have hc2 := hc.2.2
              simp only [isCont, decide_eq_true_eq] at hc2
              unfold leadInfo at hl
              split_ifs at hl <;> simp only [Option.some.injEq, Prod.mk.injEq] at hl
                <;> first
                  | omega
                  | (apply encodeRune_three <;> omega)
            · simp [DecodeRune, h1, hl, hc] at h
      · cases tl with
        | nil => simp [DecodeRune, h1, hl] at h
        | cons b1 tl =>
          cases tl with
          | nil => simp [DecodeRune, h1, hl] at h
          | cons b2 tl =>
            cases tl with
            | nil => simp [DecodeRune, h1, hl] at h
            | cons b3 tl =>
              by_cases hc : lo ≤ b1.val ∧ b1.val ≤ hi ∧ isCont b2.val = true
                  ∧ isCont b3.val = true
              · simp only [DecodeRune, h1, if_false, hl, hc, and_self, if_true,
                  List.take_succ_cons, List.take_zero]
                have hc2 := hc.2.2.1
                have hc3 := hc.2.2.2
                simp only [isCont, decide_eq_true_eq] at hc2 hc3
                unfold leadInfo at hl
                split_ifs at hl <;> simp only [Option.some.injEq, Prod.mk.injEq] at hl
                  <;> first
                    | omega
                    | (apply encodeRune_four <;> omega)
              · simp [DecodeRune, h1, hl, hc] at h

theorem utf8_runesAux :
    ∀ (fuel : Nat) (s : RawString), s.length ≤ fuel → validAux fuel s = true →
      utf8 (runesAux fuel s) = s := by
  intro fuel
  induction fuel with
  | zero =>
    intro s hs _
    cases s with
    | nil => rfl
    | cons b tl => simp at hs
  | succ f ih =>
    intro s hs hv
    cases s with
    | nil => rfl
    | cons b tl =>
      simp only [List.length_cons] at hs
      simp only [validAux] at hv
      split_ifs at hv with hinv
      have hne : DecodeRune (b :: tl) ≠ (RuneError, 1) := by
        intro he
        exact hinv ⟨by rw [he], by rw [he]⟩
      obtain ⟨_, hge, hle⟩ := DecodeRune_take b tl [] hne
      have henc := encodeRune_DecodeRune b tl hne
      obtain ⟨k, hk⟩ : ∃ k, (DecodeRune (b :: tl)).2 = k + 1 :=
        ⟨(DecodeRune (b :: tl)).2 - 1, by omega⟩
      rw [hk] at henc hv
      simp only [Nat.add_sub_cancel] at hv
      simp only [runesAux, hk, Nat.add_sub_cancel]
      rw [utf8_cons, henc, ih _ (by simp only [List.length_drop]; omega) hv]
      simp

/-- A valid UTF-8 string is the bytes of its code points. -/
theorem utf8_runes (s : RawString) (h : ValidString s = true) : utf8 (runes s) = s :=
  utf8_runesAux s.length s (Nat.le_refl _) h

/-! ## Round trip of a record through the bytes of `JSON()` -/

theorem floatText_finite (x : Float64) (h : x.isFinite = true) :
    Raw.floatText x = .ok (utf8 (formatFloat x).render) := by
  simp only [Raw.floatText, h, if_true]

/-- What comes back of a record with finite floats, whatever bytes its strings hold: the
floats, the date text, and of `Base` and `Currency` their code points, a byte that starts
no valid encoding read as U+FFFD. -/
theorem roundTrip_of_finite (d : Time) (b c : RawString) (upc cpu : Float64)
    (hu : upc.isFinite = true) (hc : cpu.isFinite = true)
    (cu : Float64.Canonical upc) (cc : Float64.Canonical cpu) :
    (∃ text, (Raw.NewExchangeRate d b c upc cpu).JSON = .ok text) ∧
    (Raw.NewExchangeRate d b c upc cpu).roundTrip
      = .ok { date := Time.zero
              StringDate := utf8 (d.Format "2006-01-02".toList)
              Base := utf8 (runes b)
              Currency := utf8 (runes c)
              UnitsPerCurrency := upc
              CurrenciesPerUnit := cpu } := by
  have hJ : (Raw.NewExchangeRate d b c upc cpu).JSON = .ok
      (byte 123 :: (appendString (utf8 "date".toList) ++ byte 58 ::
        (appendString (utf8 (d.Format "2006-01-02".toList))
      ++ byte 44 :: (appendString (utf8 "base".toList) ++ byte 58 :: (appendString b
      ++ byte 44 :: (appendString (utf8 "currency".toList) ++ byte 58 :: (appendString c
      ++ byte 44 :: (appendString (utf8 "units_per_currency".toList) ++ byte 58 ::
        (utf8 (formatFloat upc).render
      ++ byte 44 :: (appendString (utf8 "currencies_per_unit".toList) ++ byte 58 ::
        (utf8 (formatFloat cpu).render ++ [byte 125]))))))))))) := by
    simp only [Raw.ExchangeRate.JSON, Raw.NewExchangeRate, floatText_finite upc hu,
      floatText_finite cpu hc]
    rfl
  refine ⟨⟨_, hJ⟩, ?_⟩
  have hP := parseJSON_record (utf8 "date".toList) (utf8 "base".toList)
    (utf8 "currency".toList) (utf8 "units_per_currency".toList)
    (utf8 "currencies_per_unit".toList) (utf8 (d.Format "2006-01-02".toList)) b c
    (formatFloat upc) (formatFloat cpu) (formatFloat_wellFormed upc hu cu)
    (formatFloat_wellFormed cpu hc cc)
  simp only [runes_utf8] at hP
  have k1 : keyMatches "date".toList "date".toList = true := by decide
  have k2 : keyMatches "date".toList "base".toList = false := by decide
  have k3 : keyMatches "base".toList "base".toList = true := by decide
  have k4 : keyMatches "date".toList "currency".toList = false := by decide
  have k5 : keyMatches "base".toList "currency".toList = false := by decide
  have k6 : keyMatches "currency".toList "currency".toList = true := by decide
  have k7 : keyMatches "date".toList "units_per_currency".toList = false := by decide
  have k8 : keyMatches "base".toList "units_per_currency".toList = false := by decide
  have k9 : keyMatches "currency".toList "units_per_currency".toList = false := by decide
  have k10 : keyMatches "units_per_currency".toList "units_per_currency".toList = true := by
    decide
  have k11 : keyMatches "date".toList "currencies_per_unit".toList = false := by decide
  have k12 : keyMatches "base".toList "currencies_per_unit".toList = false := by decide
  have k13 : keyMatches "currency".toList "currencies_per_unit".toList = false := by decide
  have k14 : keyMatches "units_per_currency".toList "currencies_per_unit".toList = false := by
    decide
  have k15 : keyMatches "currencies_per_unit".toList "currencies_per_unit".toList = true := by
    decide
  have f1 : decodeFloat64 (.num (formatFloat upc)) = .ok (some upc) := by
    simp only [decodeFloat64, toFloat64_formatFloat upc hu cu]
  have f2 : decodeFloat64 (.num (formatFloat cpu)) = .ok (some cpu) := by
    simp only [decodeFloat64, toFloat64_formatFloat cpu hc cc]
  unfold Raw.ExchangeRate.roundTrip
  rw [hJ]
  simp only [Raw.ExchangeRate.Unmarshal, parseBody, hP]
  simp only [ExchangeRate.Unmarshal, ExchangeRate.decodeMembers, ExchangeRate.decodeMember,
    k1, k2, k3, k4, k5, k6, k7, k8, k9, k10, k11, k12, k13, k14, k15, if_true,
    Bool.false_eq_true, if_false, decodeString, f1, f2, Except.map, Option.getD,
    ExchangeRate.zero, Raw.ofRecord]

/-! ## The bytes of `JSON()` are the bytes of its text by code points -/

theorem escapeChar_high (c : Char) (h : 128 ≤ c.toNat)
    (h28 : ¬ (c.toNat = 8232 ∨ c.toNat = 8233)) :
    escapeChar c = [c] := by
  have ne : ∀ (x : Char), x.toNat < 128 → ¬ c = x := by
    intro x hx hcx
    rw [hcx] at h
    omega
  unfold escapeChar
  rw [if_neg, if_neg (ne _ (by decide)), if_neg (ne _ (by decide)), if_neg (ne _ (by decide)),
    if_neg (ne _ (by decide)), if_neg (ne _ (by decide)), if_neg, if_neg h28]
  · intro hh
    rcases hh with hh | hh | hh | hh
    · omega
    · exact ne _ (by decide) hh
    · exact ne _ (by decide) hh
    · exact ne _ (by decide) hh
  · intro hh
    rcases hh with hh | hh
    · exact ne _ (by decide) hh
    · exact ne _ (by decide) hh

theorem escapeChar_separator (c : Char) (h28 : c.toNat = 8232 ∨ c.toNat = 8233) :
    escapeChar c = escapeU c.toNat := by
  have hc : c = Char.ofNat c.toNat := (Char.ofNat_toNat c).symm
  rcases h28 with h | h <;> rw [hc, h] <;> rfl

/-- On a string given by its code points the byte loop of `appendString` writes the bytes
of what `escapeChar` writes code point by code point. -/
theorem appendStringAux_utf8 (cs : GoString) :
    ∀ (fuel : Nat), (utf8 cs).length ≤ fuel →
      appendStringAux fuel (utf8 cs) = utf8 (cs.flatMap escapeChar) := by
  induction cs with
  | nil =>
    intro fuel _
    cases fuel <;> rfl
  | cons c cs ih =>
    intro fuel hf
    obtain ⟨p0, tl, he, hd, hdrop⟩ := DecodeRune_utf8_cons c cs []
    simp only [List.append_nil] at hd hdrop
    rw [utf8_cons, he] at hf ⊢
    simp only [List.cons_append, List.length_cons, List.length_append] at hf
    cases fuel with
    | zero => omega
    | succ f =>
      rw [List.cons_append, List.flatMap_cons, utf8_append]
      by_cases h1 : c.toNat < 128
      · have hb := encodeRune_ascii c h1
        rw [he] at hb
        injection hb with hp0 htl
        subst htl
        have hv : p0.val = c.toNat := by rw [hp0]; exact byte_val _ (by omega)
        simp only [List.nil_append, appendStringAux, hv, h1, if_true, Char.ofNat_toNat]
        rw [ih f (by simpa using hf)]
      · obtain ⟨p0', tl', he', hp128⟩ := encodeRune_head c (by omega)
        rw [he] at he'
        injection he' with e1 e2
        subst e1 e2
        have hp : ¬ p0.val < 128 := by omega
        have htl : 1 ≤ tl.length := by
          have hl : (encodeRune c).length = tl.length + 1 := by rw [he]; rfl
          unfold encodeRune at hl
          simp only [h1, if_false] at hl
          split_ifs at hl <;> simp only [List.length_cons, List.length_nil] at hl <;> omega
        have hinv : ¬ (c.toNat = RuneError ∧ tl.length + 1 = 1) := by omega
        simp only [appendStringAux, hp, if_false, hd, hinv, Nat.add_sub_cancel, hdrop]
        rw [ih f (by omega)]
        by_cases h28 : c.toNat = 8232 ∨ c.toNat = 8233
        · rw [if_pos h28, escapeChar_separator c h28]
        · rw [if_neg h28, escapeChar_high c (by omega) h28]
          have ht : List.take (tl.length + 1) (p0 :: (tl ++ utf8 cs)) = p0 :: tl := by
            simp
          rw [ht, utf8_cons, utf8_nil, List.append_nil, he]

theorem appendString_utf8 (cs : GoString) : appendString (utf8 cs) = utf8 (quoteString cs) := by
  unfold appendString quoteString
  rw [appendStringAux_utf8 cs _ (Nat.le_refl _), utf8_cons, utf8_append]
  rfl

/-- The bytes `JSON()` writes for a record whose strings are given by their code points
are the bytes of the text `ExchangeRate.JSON` has for it. -/
theorem JSON_ofRecord (er : ExchangeRate) :
    (Raw.ofRecord er).JSON = er.JSON.map utf8 := by
  by_cases h1 : er.UnitsPerCurrency.isFinite = true
  · by_cases h2 : er.CurrenciesPerUnit.isFinite = true
    · simp only [ExchangeRate.JSON, marshal_finite h1 h2, Raw.ExchangeRate.JSON, Raw.ofRecord,
        floatText_finite _ h1, floatText_finite _ h2, appendString_utf8]
      simp only [Except.map, JVal.render, JVal.renderMembers, utf8_cons, utf8_append,
        List.cons_append, List.append_assoc, bind, Except.bind, pure, Except.pure]
      rfl
    · simp [ExchangeRate.JSON, ExchangeRate.marshal, marshalFloat, Raw.ExchangeRate.JSON,
        Raw.ofRecord, Raw.floatText, h1, h2, Except.map, bind, Except.bind]
  · simp [ExchangeRate.JSON, ExchangeRate.marshal, marshalFloat, Raw.ExchangeRate.JSON,
      Raw.ofRecord, Raw.floatText, h1, Except.map, bind, Except.bind]

set_option maxRecDepth 100000 in
/-- C8, refuted as stated, on two records made by `NewExchangeRate`. The record of a zero
rate (`UnitsPerCurrency = +Inf`) cannot be serialised: `JSON()` ends the process. And the
record with finite floats whose `Base` is the three bytes `55 ff 44` (no valid UTF-8) is
written with the escape of U+FFFD in its place and comes back as the five bytes
`55 ef bf bd 44`:
a different `Base`. -/
theorem roundTrip_loses :
    (Raw.NewExchangeRate (Time.ofCivil ⟨2024, 3, 10⟩) (utf8 "USD".toList) (utf8 "EUR".toList)
        (Float64.inf false) (Float64.zero false)).JSON = .error Fatal.unsupportedValue ∧
    (Raw.NewExchangeRate (Time.ofCivil ⟨2024, 3, 10⟩) (utf8 "USD".toList) (utf8 "EUR".toList)
        (Float64.inf false) (Float64.zero false)).roundTrip = .error Fatal.unsupportedValue ∧
    (Raw.NewExchangeRate (Time.ofCivil ⟨2024, 3, 10⟩) [byte 85, byte 255, byte 68]
        (utf8 "EUR".toList) (Float64.fin false (2 ^ 52) (-51))
        (Float64.fin false (2 ^ 52) (-53))).JSON
      = .ok (utf8 ("\x7b\"date\":\"2024-03-10\",\"base\":\"U\\ufffdD\",\"currency\":\"EUR\","
          ++ "\"units_per_currency\":2,\"currencies_per_unit\":0.5\x7d").toList) ∧
    (Raw.NewExchangeRate (Time.ofCivil ⟨2024, 3, 10⟩) [byte 85, byte 255, byte 68]
        (utf8 "EUR".toList) (Float64.fin false (2 ^ 52) (-51))
        (Float64.fin false (2 ^ 52) (-53))).roundTrip
      = .ok { date := Time.zero
              StringDate := utf8 "2024-03-10".toList
              Base := [byte 85, byte 239, byte 191, byte 189, byte 68]
              Currency := utf8 "EUR".toList
              UnitsPerCurrency := Float64.fin false (2 ^ 52) (-51)
              CurrenciesPerUnit := Float64.fin false (2 ^ 52) (-53) } := by
  refine ⟨by rfl, by rfl, by rfl, by rfl⟩

/-- C8, amended: for every record made by `NewExchangeRate` whose two floats are finite
(canonical binary64 values) and whose `Base` and `Currency` are valid UTF-8, `JSON()`
returns, and parsing its bytes back into an `ExchangeRate` yields the same `StringDate`
(member `date`), `Base`, `Currency`, `UnitsPerCurrency` and `CurrenciesPerUnit`; the
unexported field `date` is not serialised and is the zero time in the parsed record. -/
theorem roundTrip_exported_fields (d : Time) (b c : RawString) (upc cpu : Float64)
    (hu : upc.isFinite = true) (hc : cpu.isFinite = true)
    (cu : Float64.Canonical upc) (cc : Float64.Canonical cpu)
    (hb : ValidString b = true) (hcur : ValidString c = true) :
    (∃ text, (Raw.NewExchangeRate d b c upc cpu).JSON = .ok text) ∧
    (Raw.NewExchangeRate d b c upc cpu).roundTrip
      = .ok { date := Time.zero
              StringDate := (Raw.NewExchangeRate d b c upc cpu).StringDate
              Base := b
              Currency := c
              UnitsPerCurrency := upc
              CurrenciesPerUnit := cpu } := by
  obtain ⟨h1, h2⟩ := roundTrip_of_finite d b c upc cpu hu hc cu cc
  rw [utf8_runes b hb, utf8_runes c hcur] at h2
  exact ⟨h1, h2⟩

set_option maxRecDepth 100000 in
/-- C8, amended, at the record of the scenario (rate 0.5, inverse 2.0) with the currency
name `€uro`, three bytes of which are not ASCII. -/
theorem roundTrip_exported_fields_witness :
    (∃ text, (Raw.NewExchangeRate (Time.ofCivil ⟨2024, 3, 10⟩) (utf8 "USD".toList)
        (utf8 "€uro".toList) (Float64.fin false (2 ^ 52) (-51))
        (Float64.fin false (2 ^ 52) (-53))).JSON = .ok text) ∧
    (Raw.NewExchangeRate (Time.ofCivil ⟨2024, 3, 10⟩) (utf8 "USD".toList)
        (utf8 "€uro".toList) (Float64.fin false (2 ^ 52) (-51))
        (Float64.fin false (2 ^ 52) (-53))).roundTrip
      = .ok { date := Time.zero
              StringDate := utf8 "2024-03-10".toList
              Base := utf8 "USD".toList
              Currency := utf8 "€uro".toList
              UnitsPerCurrency := Float64.fin false (2 ^ 52) (-51)
              CurrenciesPerUnit := Float64.fin false (2 ^ 52) (-53) } :=
  roundTrip_exported_fields (Time.ofCivil ⟨2024, 3, 10⟩) (utf8 "USD".toList)
    (utf8 "€uro".toList) (Float64.fin false (2 ^ 52) (-51))
    (Float64.fin false (2 ^ 52) (-53)) rfl rfl (by decide) (by decide) (by rfl) (by rfl)

/-- Every record `Fetch` derives from a response and whose floats are finite comes back
from `JSON()` and parsing with its exported fields unchanged. -/
theorem fetchRecords_roundTrip (net : Net) (appId : GoString) (d : Time) (base : GoString)
    (ers : List (Option ExchangeRate)) (hrec : fetchRecords net appId d base = .ok ers)
    (er : ExchangeRate) (hmem : some er ∈ ers)
    (hu : er.UnitsPerCurrency.isFinite = true) (hc : er.CurrenciesPerUnit.isFinite = true) :
    (Raw.ofRecord er).roundTrip = .ok (Raw.ofRecord { er with date := Time.zero }) := by
  obtain ⟨b, c, cpu, rfl, c1, c2⟩ := fetchRecords_canonical net appId d base ers hrec er hmem
  have h := (roundTrip_of_finite d (utf8 b) (utf8 c) _ cpu hu hc c2 c1).2
  rw [runes_utf8, runes_utf8] at h
  exact h

end Goer
